import Mathlib

/-!
Verification of the placement-and-routing core of the lamp-v2 repository.

The definitions below are shallow embeddings of:
* `src/Archive/v2.4/src/circuit_placer_textbook.py` (`TextbookCircuitPlacer`):
  topology classification, series / parallel / generic placement, pin
  resolution under rotation;
* `src/Archive/v2.3/claude/src/circuit_placer.py` (`CircuitPlacer`):
  the blocked grid column count;
* `src/src/manhattan_router.py` (`ManhattanRouter`): A* routing on the
  4-connected grid with exact CPython `heapq` semantics, path
  simplification, MST construction and multi-pin merging.

Coordinates that Python stores as floats only ever hold exact values in the
algorithms under study; they are embedded as `Int` throughout (router costs
are stored doubled, see the router section header).
-/

namespace Lamp

/-! ## Data model (netlist side, from `circuit_placer_textbook.py`) -/

/-- A parsed two-terminal netlist component (`NetlistComponent`): reference,
type tag and its two node names. -/
structure NComponent where
  reference : String
  comp_type : String
  node1 : String
  node2 : String
deriving DecidableEq, Repr

/-- A net: name plus `(componentRef, pinNumber)` pairs. -/
structure NNet where
  name : String
  pins : List (String × Nat)
deriving DecidableEq, Repr

/-- A parsed circuit, as handed to `TextbookCircuitPlacer.place_circuit`. -/
structure Circuit where
  components : List NComponent
  nets : List NNet
deriving DecidableEq, Repr

/-- A placed component (`PlacedComponent` dataclass). -/
structure PlacedComponent where
  reference : String
  comp_type : String
  x : Int
  y : Int
  rotation : Int
  pin_positions : List (Int × Int)
deriving DecidableEq, Repr

/-- `comp_type in ['VDC', 'VAC']`. -/
def isSource (c : NComponent) : Bool :=
  c.comp_type == "VDC" || c.comp_type == "VAC"

/-- `comp_type == 'GND'`. -/
def isGround (c : NComponent) : Bool :=
  c.comp_type == "GND"

/-- `comp_type not in ['VDC', 'VAC', 'GND']`. -/
def isPassive (c : NComponent) : Bool :=
  !(isSource c) && !(isGround c)

/-- `COMPONENT_SPACING_H`. -/
def spacingH : Int := 250

/-- `COMPONENT_SPACING_V`. -/
def spacingV : Int := 200

/-- `RAIL_HEIGHT`. -/
def railHeight : Int := 150

/-! ## TopologyClassifier (`TextbookCircuitPlacer._detect_topology`) -/

inductive Topology where
  | SERIES
  | PARALLEL
  | GENERIC
deriving DecidableEq, Repr

/-- The per-component node visits of the `node_connections` loop:
both terminals of every component, with the `GND` node skipped. -/
def nonGroundNodes (comps : List NComponent) : List String :=
  (comps.flatMap (fun c => [c.node1, c.node2])).filter (fun n => n ≠ "GND")

/-- `len(intermediate_nodes)`: the number of distinct non-ground nodes whose
connection count is exactly 2. -/
def intermediateCount (comps : List NComponent) : Nat :=
  (((nonGroundNodes comps).dedup).filter
    (fun n => (nonGroundNodes comps).count n = 2)).length

/-- Python `{a.node1, a.node2} == {b.node1, b.node2}` (two-element set
equality). -/
def pairSharesNodes (a b : NComponent) : Bool :=
  (a.node1 == b.node1 && a.node2 == b.node2) ||
  (a.node1 == b.node2 && a.node2 == b.node1)

/-- `TextbookCircuitPlacer._detect_topology`. -/
def detectTopology (c : Circuit) : Topology :=
  let sources := c.components.filter (fun x => isSource x)
  let passives := c.components.filter (fun x => isPassive x)
  if sources.isEmpty || passives.isEmpty then
    Topology.GENERIC
  else if intermediateCount c.components = passives.length - 1 then
    Topology.SERIES
  else if 2 ≤ passives.length then
    match passives with
    | [] => Topology.GENERIC
    | p0 :: rest =>
      if rest.all (fun p => pairSharesNodes p p0) then Topology.PARALLEL
      else Topology.GENERIC
  else
    Topology.GENERIC

/-! ## Series chain construction (`_build_series_chain`) -/

/-- The inner `for comp in remaining` search: first component touching
`current`, together with its far node. -/
def findConnected (current : String) : List NComponent → Option (NComponent × String)
  | [] => none
  | c :: rest =>
    if c.node1 == current then some (c, c.node2)
    else if c.node2 == current then some (c, c.node1)
    else findConnected current rest

/-- The `while remaining` loop of `_build_series_chain`; `fuel` bounds the
iterations (the Python loop removes one component per iteration, so
`remaining.length` iterations always suffice). -/
def buildChainGo (fuel : Nat) (current : String) (remaining : List NComponent) :
    List NComponent :=
  match fuel, remaining with
  | _, [] => []
  | 0, remaining => remaining
  | Nat.succ f, remaining =>
    match findConnected current remaining with
    | some (c, nxt) => c :: buildChainGo f nxt (remaining.erase c)
    | none => remaining

/-- `TextbookCircuitPlacer._build_series_chain` (the Python `remaining` set is
modelled as a list in declaration order). -/
def buildSeriesChain (source : NComponent) (passives : List NComponent) :
    List NComponent :=
  buildChainGo passives.length source.node2 passives

/-! ## Placement strategies -/

/-- Placement record with empty pins, rotation 0 (all placement sites in
`circuit_placer_textbook.py` construct exactly this). -/
def placeAt (c : NComponent) (x y : Int) : PlacedComponent :=
  { reference := c.reference, comp_type := c.comp_type, x := x, y := y,
    rotation := 0, pin_positions := [] }

/-- The `for comp in chain` loop of `_place_series`: place at `x`, advance by
`spacingH`; returns the placements and the final value of `x`. -/
def placeChainGo (x y : Int) : List NComponent → List PlacedComponent × Int
  | [] => ([], x)
  | c :: rest =>
    let r := placeChainGo (x + spacingH) y rest
    (placeAt c x y :: r.1, r.2)

/-- `TextbookCircuitPlacer._place_series`. -/
def placeSeries (c : Circuit) : List PlacedComponent :=
  let sources := c.components.filter (fun x => isSource x)
  let passives := c.components.filter (fun x => isPassive x)
  let grounds := c.components.filter (fun x => isGround x)
  let y := railHeight
  let srcPart : List PlacedComponent :=
    match sources with
    | [] => []
    | s :: _ => [placeAt s 0 y]
  let chainResult : List PlacedComponent × Int :=
    match sources, passives with
    | s :: _, _ :: _ => placeChainGo spacingH y (buildSeriesChain s passives)
    | _, _ => ([], 0)
  let groundPart : List PlacedComponent :=
    match grounds with
    | [] => []
    | g :: _ => [placeAt g (chainResult.2 - spacingH) (y + spacingV)]
  srcPart ++ chainResult.1 ++ groundPart

/-- The `for comp in passives` stacking loop of `_place_parallel`. -/
def placeStackGo (x y : Int) : List NComponent → List PlacedComponent
  | [] => []
  | c :: rest => placeAt c x y :: placeStackGo x (y + spacingV) rest

/-- `TextbookCircuitPlacer._place_parallel`. -/
def placeParallel (c : Circuit) : List PlacedComponent :=
  let sources := c.components.filter (fun x => isSource x)
  let passives := c.components.filter (fun x => isPassive x)
  let grounds := c.components.filter (fun x => isGround x)
  let xPassives := spacingH * 2
  let yStart := railHeight
  let srcPart : List PlacedComponent :=
    match sources with
    | [] => []
    | s :: _ => [placeAt s 0 yStart]
  let branchPart := placeStackGo xPassives yStart passives
  let groundPart : List PlacedComponent :=
    match grounds with
    | [] => []
    | g :: _ =>
      [placeAt g (xPassives + spacingH)
        (yStart + (((passives.length : Int) - 1) * spacingV).fdiv 2)]
  srcPart ++ branchPart ++ groundPart

/-- The placement loop of `_place_generic_grid`: place at `(x, y)`, advance
`x` by `spacingH`, wrap to a new row once `x` exceeds `spacingH * 4`. -/
def placeGridGo (x y : Int) : List NComponent → List PlacedComponent
  | [] => []
  | c :: rest =>
    placeAt c x y ::
      (if x + spacingH > spacingH * 4 then placeGridGo 0 (y + spacingV) rest
       else placeGridGo (x + spacingH) y rest)

/-- `TextbookCircuitPlacer._place_generic_grid`. -/
def placeGenericGrid (c : Circuit) : List PlacedComponent :=
  placeGridGo 0 0 c.components

/-- The topology dispatch of `TextbookCircuitPlacer.place_circuit`. -/
def placeCircuit (c : Circuit) : List PlacedComponent :=
  match detectTopology c with
  | Topology.SERIES => placeSeries c
  | Topology.PARALLEL => placeParallel c
  | Topology.GENERIC => placeGenericGrid c

/-! ## Pin resolution (`_calculate_all_pin_positions`) -/

/-- The rotation `if / elif` chain applied to a relative pin offset. -/
def applyRotation (rotation : Int) (d : Int × Int) : Int × Int :=
  if rotation = 90 then (-d.2, d.1)
  else if rotation = 180 then (-d.1, -d.2)
  else if rotation = 270 then (d.2, -d.1)
  else d

/-- Absolute pin position: rotation then translation by the anchor. -/
def pinAbsolute (x y rotation : Int) (d : Int × Int) : Int × Int :=
  let dr := applyRotation rotation d
  (x + dr.1, y + dr.2)

/-- `_calculate_all_pin_positions` for one placed component, given its
library pin offsets. -/
def calcPinPositions (p : PlacedComponent) (pins : List (Int × Int)) :
    List (Int × Int) :=
  pins.map (fun d => pinAbsolute p.x p.y p.rotation d)

/-- Spec wording (§4.3): `rotate90(dx,dy) = (−dy, dx)`. -/
def rotate90 (d : Int × Int) : Int × Int := (-d.2, d.1)

/-- Spec wording (§4.3): `rotate180(dx,dy) = (−dx, −dy)`. -/
def rotate180 (d : Int × Int) : Int × Int := (-d.1, -d.2)

/-- Spec wording (§4.3): `rotate270(dx,dy) = (dy, −dx)`. -/
def rotate270 (d : Int × Int) : Int × Int := (d.2, -d.1)

/-! ## v2.3 blocked grid (`CircuitPlacer._place_components_blocked`) -/

/-- Counting loop computing the least `k` with `2 * k ^ 2 ≥ 3 * n`, i.e.
`ceil(sqrt(n * 1.5))` as used by `math.ceil(math.sqrt(num_components * 1.5))`. -/
def ceilSqrtGo (tn : Nat) : Nat → Nat → Nat
  | 0, k => k
  | Nat.succ fuel, k => if 3 * tn ≤ 2 * k ^ 2 then k else ceilSqrtGo tn fuel (k + 1)

/-- `ceil(sqrt(1.5 * n))`. -/
def ceilSqrt15 (n : Nat) : Nat := ceilSqrtGo n (n + 2) 0

/-- The `cols` computation of `CircuitPlacer._place_components_blocked`. -/
def v23Cols (n : Nat) : Nat :=
  if n ≤ 3 then n
  else if n ≤ 6 then 3
  else ceilSqrt15 n

end Lamp

namespace Lamp

def circuitRC : Circuit :=
  { components :=
      [ { reference := "V1", comp_type := "VDC", node1 := "VIN", node2 := "GND" },
        { reference := "R1", comp_type := "R", node1 := "VIN", node2 := "VOUT" },
        { reference := "C1", comp_type := "C", node1 := "VOUT", node2 := "GND" } ],
    nets := [] }

example : detectTopology circuitRC = Topology.GENERIC := by decide

example : (placeCircuit circuitRC).map (fun p => (p.x, p.y)) =
    [(0, 0), (250, 0), (500, 0)] := by decide

def circuitOnePassive : Circuit :=
  { components :=
      [ { reference := "V1", comp_type := "VDC", node1 := "VIN", node2 := "GND" },
        { reference := "R1", comp_type := "R", node1 := "VIN", node2 := "GND" } ],
    nets := [] }

example : detectTopology circuitOnePassive = Topology.GENERIC := by decide

example : ceilSqrt15 7 = 4 := by decide
example : v23Cols 7 = 4 := by decide

end Lamp

namespace Lamp

/-! ## Spec-side (claim-side) definitions, for refinement comparison -/

/-- Claim C4 wording: "the number of non-ground nodes touched by exactly 2
component terminals" (formalised independently of the code, via `Finset`). -/
def claimDegree2Count (comps : List NComponent) : Nat :=
  ((nonGroundNodes comps).toFinset.filter
    (fun n => (nonGroundNodes comps).count n = 2)).card

/-- Claim C4 as stated: SERIES exactly when the degree-2 node count equals
`#passives − 1`; otherwise PARALLEL exactly when every passive has the
identical unordered pair of terminal nodes; otherwise GENERIC; zero sources
or zero passives gives GENERIC. -/
def claimTopology (c : Circuit) : Topology :=
  let sources := c.components.filter (fun x => isSource x)
  let passives := c.components.filter (fun x => isPassive x)
  if sources.isEmpty || passives.isEmpty then
    Topology.GENERIC
  else if claimDegree2Count c.components = passives.length - 1 then
    Topology.SERIES
  else
    match passives with
    | [] => Topology.GENERIC
    | p0 :: rest =>
      if (p0 :: rest).all (fun p => pairSharesNodes p p0) then Topology.PARALLEL
      else Topology.GENERIC

/-- Claim C4 amended: the PARALLEL clause additionally requires at least two
passives (which is what the code checks). -/
def amendedClaimTopology (c : Circuit) : Topology :=
  let sources := c.components.filter (fun x => isSource x)
  let passives := c.components.filter (fun x => isPassive x)
  if sources.isEmpty || passives.isEmpty then
    Topology.GENERIC
  else if claimDegree2Count c.components = passives.length - 1 then
    Topology.SERIES
  else
    match passives with
    | [] => Topology.GENERIC
    | p0 :: rest =>
      if 2 ≤ (p0 :: rest).length ∧ (p0 :: rest).all (fun p => pairSharesNodes p p0) then
        Topology.PARALLEL
      else Topology.GENERIC

lemma filter_dedup_length_eq_filter_toFinset_card (l : List String)
    (p : String → Prop) [DecidablePred p] :
    (l.toFinset.filter p).card = (l.dedup.filter (fun n => decide (p n))).length := by
  have hn : (l.dedup.filter (fun n => decide (p n))).Nodup := l.nodup_dedup.filter _
  rw [← List.toFinset_card_of_nodup hn]
  congr 1
  ext a
  simp [List.mem_dedup]

lemma claimDegree2Count_eq (comps : List NComponent) :
    claimDegree2Count comps = intermediateCount comps := by
  unfold claimDegree2Count intermediateCount
  exact filter_dedup_length_eq_filter_toFinset_card _ _

lemma pairSharesNodes_self (a : NComponent) : pairSharesNodes a a = true := by
  simp [pairSharesNodes]

end Lamp

namespace Lamp

/-- C4: the claim as stated disagrees with the code on single-passive
netlists: with one source and one passive sharing both nodes, the claim's
PARALLEL clause holds vacuously, but `_detect_topology` requires at least
two passives and returns GENERIC. -/
theorem C4_counterexample :
    claimTopology circuitOnePassive = Topology.PARALLEL ∧
    detectTopology circuitOnePassive = Topology.GENERIC := by
  constructor <;> decide

/-- C4 (amended): `_detect_topology` returns SERIES exactly when the number
of non-ground nodes touched by exactly 2 component terminals equals
`#passives − 1`; otherwise PARALLEL exactly when there are at least two
passives and every passive has the identical unordered pair of terminal
nodes; otherwise GENERIC; zero sources or zero passives forces GENERIC. -/
theorem C4_detect_topology_amended (c : Circuit) :
    detectTopology c = amendedClaimTopology c := by
  simp only [detectTopology, amendedClaimTopology, claimDegree2Count_eq]
  rcases hp : c.components.filter (fun x => isPassive x) with _ | ⟨p0, rest⟩
  · rfl
  · rcases rest with _ | ⟨p1, rest2⟩
    · simp
    · simp [pairSharesNodes_self, Nat.succ_le_succ, List.all_cons]

end Lamp

namespace Lamp

/-- C5: on the spec's own example netlist {V1 VDC (VIN,GND)}, {R1 (VIN,VOUT)},
{C1 (VOUT,GND)} the classifier returns GENERIC, not SERIES (there are 2
intermediate nodes but only 1 = #passives − 1 is accepted), so the series
placer never runs on it; the generic grid happens to produce the claimed
x anchors 0, 250, 500, and the series placer would produce them as well. -/
theorem C5_series_example_evaluation :
    detectTopology circuitRC = Topology.GENERIC ∧
    intermediateCount circuitRC.components = 2 ∧
    (circuitRC.components.filter (fun x => isPassive x)).length = 2 ∧
    (placeCircuit circuitRC).map (fun p => (p.x, p.y)) =
      [(0, 0), (250, 0), (500, 0)] ∧
    (placeSeries circuitRC).map (fun p => (p.x, p.y)) =
      [(0, 150), (250, 150), (500, 150)] := by
  refine ⟨by decide, by decide, by decide, by decide, by decide⟩

/-- Fallback element for positional list access. -/
def dummyPlaced : PlacedComponent :=
  { reference := "", comp_type := "", x := 0, y := 0, rotation := 0,
    pin_positions := [] }

/-- Row-major grid layout with `k` components per row at the placer's
spacing constants (the layout the claim asserts, with `k = ceil(sqrt(1.5 n))`). -/
def gridPosOK (placed : List PlacedComponent) (k : Nat) : Prop :=
  ∀ i < placed.length,
    (placed.getD i dummyPlaced).x = spacingH * ((i % k : Nat) : Int) ∧
    (placed.getD i dummyPlaced).y = spacingV * ((i / k : Nat) : Int)

instance (placed : List PlacedComponent) (k : Nat) : Decidable (gridPosOK placed k) := by
  unfold gridPosOK
  infer_instance

/-- A 7-component netlist with no sources: tagged GENERIC. -/
def circuitSeven : Circuit :=
  { components :=
      [ { reference := "R1", comp_type := "R", node1 := "N1", node2 := "N2" },
        { reference := "R2", comp_type := "R", node1 := "N2", node2 := "N3" },
        { reference := "R3", comp_type := "R", node1 := "N3", node2 := "N4" },
        { reference := "R4", comp_type := "R", node1 := "N4", node2 := "N5" },
        { reference := "R5", comp_type := "R", node1 := "N5", node2 := "N6" },
        { reference := "R6", comp_type := "R", node1 := "N6", node2 := "N7" },
        { reference := "R7", comp_type := "R", node1 := "N7", node2 := "N8" } ],
    nets := [] }

/-- C6: for the 7-component GENERIC netlist the claim demands
`ceil(sqrt(1.5 × 7)) = 4` components per row, but the textbook placer's
generic grid lays out 5 per row (its row-major layout does satisfy the
5-per-row law and violates the 4-per-row one). -/
theorem C6_counterexample :
    detectTopology circuitSeven = Topology.GENERIC ∧
    ceilSqrt15 7 = 4 ∧
    ¬ gridPosOK (placeCircuit circuitSeven) (ceilSqrt15 7) ∧
    gridPosOK (placeCircuit circuitSeven) 5 := by
  refine ⟨by decide, by decide, by decide, by decide⟩

end Lamp

namespace Lamp

lemma placeGridGo_pos (l : List NComponent) (a i : Nat) (h : i < l.length) :
    ((placeGridGo ((250 : Int) * ((a % 5 : Nat) : Int))
        ((200 : Int) * ((a / 5 : Nat) : Int)) l).getD i dummyPlaced).x
        = (250 : Int) * (((a + i) % 5 : Nat) : Int) ∧
    ((placeGridGo ((250 : Int) * ((a % 5 : Nat) : Int))
        ((200 : Int) * ((a / 5 : Nat) : Int)) l).getD i dummyPlaced).y
        = (200 : Int) * (((a + i) / 5 : Nat) : Int) := by
  induction l generalizing a i with
  | nil => simp at h
  | cons c rest ih =>
    cases i with
    | zero => simp [placeGridGo, placeAt]
    | succ j =>
      have hlt : j < rest.length := by simpa using h
      simp only [placeGridGo, spacingH, spacingV, List.getD_cons_succ]
      by_cases hw : (250 : Int) * ((a % 5 : Nat) : Int) + 250 > 250 * 4
      · have hm4 : a % 5 = 4 := by omega
        have h1 : (a + 1) % 5 = 0 := by omega
        have h2 : (a + 1) / 5 = a / 5 + 1 := by omega
        have e0 : (250 : Int) * (((a + 1) % 5 : Nat) : Int) = 0 := by
          rw [h1]; simp
        have ey : (200 : Int) * (((a + 1) / 5 : Nat) : Int)
            = (200 : Int) * ((a / 5 : Nat) : Int) + 200 := by
          rw [h2]; push_cast; ring
        rw [if_pos hw, ← e0, ← ey, show a + (j + 1) = (a + 1) + j from by omega]
        exact ih (a + 1) j hlt
      · have h1 : (a + 1) % 5 = a % 5 + 1 := by omega
        have h2 : (a + 1) / 5 = a / 5 := by omega
        have ex : (250 : Int) * ((a % 5 : Nat) : Int) + 250
            = (250 : Int) * (((a + 1) % 5 : Nat) : Int) := by
          rw [h1]; push_cast; ring
        have ey : (200 : Int) * ((a / 5 : Nat) : Int)
            = (200 : Int) * (((a + 1) / 5 : Nat) : Int) := by rw [h2]
        rw [if_neg hw, ex, ey, show a + (j + 1) = (a + 1) + j from by omega]
        exact ih (a + 1) j hlt

end Lamp

namespace Lamp

lemma placeGridGo_length (x y : Int) (l : List NComponent) :
    (placeGridGo x y l).length = l.length := by
  induction l generalizing x y with
  | nil => rfl
  | cons c rest ih =>
    simp only [placeGridGo, List.length_cons]
    split <;> simp [ih]

lemma ceilSqrtGo_spec (tn : Nat) (fuel k : Nat)
    (hb : 3 * tn ≤ 2 * (k + fuel) ^ 2) (hk : ∀ j < k, 2 * j ^ 2 < 3 * tn) :
    3 * tn ≤ 2 * (ceilSqrtGo tn fuel k) ^ 2 ∧
    ∀ j < ceilSqrtGo tn fuel k, 2 * j ^ 2 < 3 * tn := by
  induction fuel generalizing k with
  | zero => exact ⟨by simpa using hb, hk⟩
  | succ f ih =>
    rw [ceilSqrtGo]
    by_cases hc : 3 * tn ≤ 2 * k ^ 2
    · rw [if_pos hc]; exact ⟨hc, hk⟩
    · rw [if_neg hc]
      refine ih (k + 1) (by rw [show k + 1 + f = k + (f + 1) from by omega]; exact hb) ?_
      intro j hj
      rcases Nat.lt_succ_iff_lt_or_eq.mp hj with hj2 | hj2
      · exact hk j hj2
      · subst hj2; omega

lemma ceilSqrt15_spec (n : Nat) :
    3 * n ≤ 2 * (ceilSqrt15 n) ^ 2 ∧ ∀ j < ceilSqrt15 n, 2 * j ^ 2 < 3 * n := by
  refine ceilSqrtGo_spec n (n + 2) 0 ?_ (by omega)
  nlinarith

/-- C6 (amended): the textbook placer's generic grid is row-major with a
fixed 5 components per row (`x` wraps after `spacingH * 4`): component `i`
sits at `(250·(i mod 5), 200·(i div 5))`; the `ceil(sqrt(1.5 n))` column
count appears only in the v2.3 `CircuitPlacer`, and there only for `n ≥ 7`
components (`cols = n` for `n ≤ 3` and `cols = 3` for `4 ≤ n ≤ 6`). -/
theorem C6_generic_grid_amended :
    (∀ c : Circuit, gridPosOK (placeGenericGrid c) 5) ∧
    (∀ n : Nat, 7 ≤ n →
      v23Cols n = ceilSqrt15 n ∧
      3 * n ≤ 2 * (v23Cols n) ^ 2 ∧ ∀ j < v23Cols n, 2 * j ^ 2 < 3 * n) := by
  constructor
  · intro c i hi
    have hlen : i < c.components.length := by
      rw [← placeGridGo_length 0 0 c.components]
      simpa [placeGenericGrid] using hi
    have h := placeGridGo_pos c.components 0 i hlen
    simpa [placeGenericGrid, gridPosOK, spacingH, spacingV] using h
  · intro n hn
    have hv : v23Cols n = ceilSqrt15 n := by
      unfold v23Cols
      rw [if_neg (by omega), if_neg (by omega)]
    refine ⟨hv, ?_, ?_⟩
    · rw [hv]; exact (ceilSqrt15_spec n).1
    · rw [hv]; exact (ceilSqrt15_spec n).2

end Lamp

namespace Lamp

/-- Spec §4.3 rotation, selected by the rotation value. -/
def specRotate (r : Int) (d : Int × Int) : Int × Int :=
  if r = 0 then d
  else if r = 90 then rotate90 d
  else if r = 180 then rotate180 d
  else rotate270 d

/-- C7: for every placed component with rotation in {0, 90, 180, 270} the
resolved pin positions are exactly anchor + rotate_r(offset), with the spec's
integer-exact rotation maps, and four successive 90° rotations are the
identity on every offset. -/
theorem C7_pin_rotation (p : PlacedComponent) (pins : List (Int × Int))
    (hr : p.rotation = 0 ∨ p.rotation = 90 ∨ p.rotation = 180 ∨ p.rotation = 270) :
    calcPinPositions p pins =
      pins.map (fun d => (p.x + (specRotate p.rotation d).1,
        p.y + (specRotate p.rotation d).2)) ∧
    ∀ d : Int × Int, rotate90 (rotate90 (rotate90 (rotate90 d))) = d := by
  constructor
  · rcases hr with h | h | h | h <;>
      simp [calcPinPositions, pinAbsolute, applyRotation, specRotate, h,
        rotate90, rotate180, rotate270]
  · intro d
    simp [rotate90]

/-- A placement used to instantiate C7 concretely. -/
def witnessPlaced : PlacedComponent :=
  { reference := "U1", comp_type := "R", x := 10, y := 20, rotation := 90,
    pin_positions := [] }

/-- Witness for C7 at rotation 90 with offset (3, 4): the resolved pin is
(10 − 4, 20 + 3) = (6, 23). -/
theorem C7_pin_rotation_witness :
    calcPinPositions witnessPlaced [(3, 4)] = [(6, 23)] ∧
    rotate90 (rotate90 (rotate90 (rotate90 ((3 : Int), (4 : Int))))) = (3, 4) := by
  have h := C7_pin_rotation witnessPlaced [(3, 4)] (Or.inr (Or.inl rfl))
  exact ⟨by rw [h.1]; decide, h.2 (3, 4)⟩

lemma placeChainGo_rotation (l : List NComponent) (x y : Int) (pc : PlacedComponent)
    (h : pc ∈ (placeChainGo x y l).1) : pc.rotation = 0 := by
  induction l generalizing x with
  | nil => simp [placeChainGo] at h
  | cons c rest ih =>
    simp only [placeChainGo, List.mem_cons] at h
    rcases h with h | h
    · rw [h]; rfl
    · exact ih _ h

lemma placeStackGo_rotation (l : List NComponent) (x y : Int) (pc : PlacedComponent)
    (h : pc ∈ placeStackGo x y l) : pc.rotation = 0 := by
  induction l generalizing y with
  | nil => simp [placeStackGo] at h
  | cons c rest ih =>
    simp only [placeStackGo, List.mem_cons] at h
    rcases h with h | h
    · rw [h]; rfl
    · exact ih _ h

lemma placeGridGo_rotation (l : List NComponent) (x y : Int) (pc : PlacedComponent)
    (h : pc ∈ placeGridGo x y l) : pc.rotation = 0 := by
  induction l generalizing x y with
  | nil => simp [placeGridGo] at h
  | cons c rest ih =>
    simp only [placeGridGo, List.mem_cons] at h
    rcases h with h | h
    · rw [h]; rfl
    · rcases h' : (x + spacingH > spacingH * 4 : Bool) with _
      revert h
      split <;> intro h
      · exact ih _ _ h
      · exact ih _ _ h

lemma placeSeries_rotation (c : Circuit) (pc : PlacedComponent)
    (h : pc ∈ placeSeries c) : pc.rotation = 0 := by
  simp only [placeSeries, List.mem_append] at h
  rcases h with (h | h) | h
  · revert h; split
    · intro h; simp at h
    · intro h
      simp only [List.mem_singleton] at h
      rw [h]; rfl
  · revert h; split
    · intro h; exact placeChainGo_rotation _ _ _ _ h
    · intro h; simp at h
  · revert h; split
    · intro h; simp at h
    · intro h
      simp only [List.mem_singleton] at h
      rw [h]; rfl

lemma placeParallel_rotation (c : Circuit) (pc : PlacedComponent)
    (h : pc ∈ placeParallel c) : pc.rotation = 0 := by
  simp only [placeParallel, List.mem_append] at h
  rcases h with (h | h) | h
  · revert h; split
    · intro h; simp at h
    · intro h
      simp only [List.mem_singleton] at h
      rw [h]; rfl
  · exact placeStackGo_rotation _ _ _ _ h
  · revert h; split
    · intro h; simp at h
    · intro h
      simp only [List.mem_singleton] at h
      rw [h]; rfl

/-- C10: every component placed by the textbook placer — by the series,
parallel and generic strategies alike, hence by the dispatching
`place_circuit` — has rotation 0. -/
theorem C10_rotation_always_zero (c : Circuit) :
    (∀ pc ∈ placeSeries c, pc.rotation = 0) ∧
    (∀ pc ∈ placeParallel c, pc.rotation = 0) ∧
    (∀ pc ∈ placeGenericGrid c, pc.rotation = 0) ∧
    (∀ pc ∈ placeCircuit c, pc.rotation = 0) := by
  refine ⟨fun pc h => placeSeries_rotation c pc h,
    fun pc h => placeParallel_rotation c pc h,
    fun pc h => placeGridGo_rotation _ _ _ _ h, fun pc h => ?_⟩
  unfold placeCircuit at h
  rcases ht : detectTopology c with _ | _ | _ <;> rw [ht] at h
  · exact placeSeries_rotation c pc h
  · exact placeParallel_rotation c pc h
  · exact placeGridGo_rotation _ _ _ _ h

/-- The V1 source of the RC example, as a standalone component. -/
def exampleV1 : NComponent :=
  { reference := "V1", comp_type := "VDC", node1 := "VIN", node2 := "GND" }

/-- Witness for C10: the first component the generic grid places for the
RC example circuit has rotation 0. -/
theorem C10_rotation_always_zero_witness : (placeAt exampleV1 0 0).rotation = 0 := by
  exact (C10_rotation_always_zero circuitRC).2.2.2 _ (by decide)

end Lamp

namespace Lamp

lemma pairSharesNodes_symm (a b : NComponent) :
    pairSharesNodes a b = pairSharesNodes b a := by
  simp only [pairSharesNodes, Bool.or_comm]
  rcases a with ⟨_, _, a1, a2⟩
  rcases b with ⟨_, _, b1, b2⟩
  simp only []
  rcases ea1 : a1 == b1 <;> rcases ea2 : a2 == b2 <;>
    rcases eb1 : a1 == b2 <;> rcases eb2 : a2 == b1 <;>
    simp_all [beq_iff_eq, BEq.comm]

lemma pairSharesNodes_trans (a b c : NComponent)
    (h1 : pairSharesNodes a b = true) (h2 : pairSharesNodes b c = true) :
    pairSharesNodes a c = true := by
  simp only [pairSharesNodes, Bool.or_eq_true, Bool.and_eq_true, beq_iff_eq] at *
  rcases h1 with ⟨e1, e2⟩ | ⟨e1, e2⟩ <;> rcases h2 with ⟨f1, f2⟩ | ⟨f1, f2⟩ <;>
    simp [e1, e2, f1, f2]

lemma all_pair_head_iff (a : NComponent) (l : List NComponent) (ha : a ∈ l) :
    (l.all (fun p => pairSharesNodes p a) = true) ↔
      ∀ x ∈ l, ∀ y ∈ l, pairSharesNodes x y = true := by
  constructor
  · intro h x hx y hy
    have hxa := List.all_eq_true.mp h x hx
    have hya := List.all_eq_true.mp h y hy
    have hay : pairSharesNodes a y = true := by rw [pairSharesNodes_symm]; exact hya
    exact pairSharesNodes_trans x a y hxa hay
  · intro h
    exact List.all_eq_true.mpr fun p hp => h p hp a ha

lemma perm_isEmpty {α : Type} {l₁ l₂ : List α} (h : l₁.Perm l₂) :
    l₁.isEmpty = l₂.isEmpty := by
  rcases l₁ with _ | ⟨a, t⟩ <;> rcases l₂ with _ | ⟨b, u⟩
  · rfl
  · exact absurd (List.perm_nil.mp h.symm) (by simp)
  · exact absurd (List.perm_nil.mp h) (by simp)
  · rfl

/-- C8: the topology classifier is order-independent: permuting the
component declaration order (and the net declaration order, which the
classifier never reads) leaves the resulting tag unchanged. -/
theorem C8_classifier_order_independent (c₁ c₂ : Circuit)
    (hc : c₁.components.Perm c₂.components) (hn : c₁.nets.Perm c₂.nets) :
    detectTopology c₁ = detectTopology c₂ := by
  clear hn
  have hs : (c₁.components.filter (fun x => isSource x)).Perm
      (c₂.components.filter (fun x => isSource x)) := hc.filter _
  have hp : (c₁.components.filter (fun x => isPassive x)).Perm
      (c₂.components.filter (fun x => isPassive x)) := hc.filter _
  have hng : (nonGroundNodes c₁.components).Perm (nonGroundNodes c₂.components) := by
    unfold nonGroundNodes
    exact (hc.flatMap_right _).filter _
  have hic : intermediateCount c₁.components = intermediateCount c₂.components := by
    unfold intermediateCount
    have hpred : (fun n => decide ((nonGroundNodes c₁.components).count n = 2)) =
        (fun n => decide ((nonGroundNodes c₂.components).count n = 2)) :=
      funext fun n => by rw [hng.count_eq n]
    rw [hpred]
    exact (hng.dedup.filter _).length_eq
  simp only [detectTopology]
  rw [perm_isEmpty hs, perm_isEmpty hp, hic, hp.length_eq]
  by_cases h1 : ((c₂.components.filter (fun x => isSource x)).isEmpty ||
      (c₂.components.filter (fun x => isPassive x)).isEmpty) = true
  · rw [if_pos h1, if_pos h1]
  · rw [if_neg h1, if_neg h1]
    by_cases h2 : intermediateCount c₂.components =
        (c₂.components.filter (fun x => isPassive x)).length - 1
    · rw [if_pos h2, if_pos h2]
    · rw [if_neg h2, if_neg h2]
      by_cases h3 : 2 ≤ (c₂.components.filter (fun x => isPassive x)).length
      · rw [if_pos h3, if_pos h3]
        rcases e1 : c₁.components.filter (fun x => isPassive x) with _ | ⟨a, t⟩
        · rw [e1] at hp
          have := hp.length_eq
          simp at this
          omega
        · rcases e2 : c₂.components.filter (fun x => isPassive x) with _ | ⟨b, u⟩
          · rw [e2] at hp
            exact absurd (List.perm_nil.mp (e1 ▸ hp)) (by simp)
          · rw [e1, e2] at hp
            have hall : (t.all (fun p => pairSharesNodes p a) = true) ↔
                (u.all (fun p => pairSharesNodes p b) = true) := by
              have c1 : (t.all (fun p => pairSharesNodes p a) = true) ↔
                  ((a :: t).all (fun p => pairSharesNodes p a) = true) := by
                simp [pairSharesNodes_self]
              have c2 : (u.all (fun p => pairSharesNodes p b) = true) ↔
                  ((b :: u).all (fun p => pairSharesNodes p b) = true) := by
                simp [pairSharesNodes_self]
              rw [c1, c2, all_pair_head_iff a (a :: t) (by simp),
                all_pair_head_iff b (b :: u) (by simp)]
              constructor
              · intro h x hx y hy
                exact h x (hp.mem_iff.mpr hx) y (hp.mem_iff.mpr hy)
              · intro h x hx y hy
                exact h x (hp.mem_iff.mp hx) y (hp.mem_iff.mp hy)
            have hallb : t.all (fun p => pairSharesNodes p a) =
                u.all (fun p => pairSharesNodes p b) := by
              rcases ht : t.all (fun p => pairSharesNodes p a) <;>
                rcases hu : u.all (fun p => pairSharesNodes p b) <;> simp_all
            dsimp only
            rw [hallb]
      · rw [if_neg h3, if_neg h3]

/-- A permuted copy of the RC example circuit. -/
def circuitRCShuffled : Circuit :=
  { components :=
      [ { reference := "C1", comp_type := "C", node1 := "VOUT", node2 := "GND" },
        { reference := "V1", comp_type := "VDC", node1 := "VIN", node2 := "GND" },
        { reference := "R1", comp_type := "R", node1 := "VIN", node2 := "VOUT" } ],
    nets := [] }

/-- Witness for C8: the RC example circuit and a shuffled copy classify
identically. -/
theorem C8_classifier_order_independent_witness :
    detectTopology circuitRC = detectTopology circuitRCShuffled := by
  refine C8_classifier_order_independent circuitRC circuitRCShuffled ?_ ?_
  · decide
  · decide

end Lamp

namespace Lamp

/-! ## Router data model (`src/src/manhattan_router.py`)

Numeric representation: every coordinate and cost that Python stores in a
float holds an exact value in this program — pin positions and waypoints are
integers (placements, library offsets and `_from_grid` outputs are integral),
and every A* cost is an integer multiple of 0.5 (moves cost 1, obstacles
+100, direction changes +0.5), compared exactly.  The embedding therefore
uses `Int` pixels and stores costs *doubled* (`2` per move, `+200` per
obstacle, `+1` per direction change, heuristic `2·distance`), an
order-preserving exact encoding of the float values. -/

/-- A grid cell. -/
abbrev GPos := Int × Int

/-- A pixel point. -/
abbrev Pt := Int × Int

/-- `grid_size` of `ManhattanRouter` as used by `main` (10). -/
def gridSize : Int := 10

/-! ### CPython `heapq`, verbatim (`heappush`, `heappop`, `_siftdown`,
`_siftup`), parametrised by the element comparison `<`. -/

/-- CPython `heapq._siftdown(heap, startpos, pos)` where conceptually
`heap[pos] = newitem`: bubble `newitem` up while it compares `<` its
parent. The `fuel` argument is a Lean artifact making the recursion
structural; `pos` strictly decreases per iteration, so any `fuel ≥ pos`
reproduces the Python loop exactly. -/
def siftdownGo {α : Type} (lt : α → α → Bool) (newitem : α) :
    Nat → List α → Nat → Nat → List α
  | 0, heap, _, pos => heap.set pos newitem
  | Nat.succ fuel, heap, startpos, pos =>
    if startpos < pos then
      let parentpos := (pos - 1) / 2
      let parent := heap.getD parentpos newitem
      if lt newitem parent then
        siftdownGo lt newitem fuel (heap.set pos parent) startpos parentpos
      else
        heap.set pos newitem
    else
      heap.set pos newitem

/-- CPython `heapq._siftup(heap, pos)` (with `newitem = heap[pos]` saved by
the caller): move the hole down to a leaf following the smaller child, then
sift the saved item back up. The `fuel` argument is a Lean artifact;
`heap.length − pos` strictly decreases per iteration, so any
`fuel ≥ heap.length` reproduces the Python loop exactly. -/
def siftupGo {α : Type} (lt : α → α → Bool) :
    Nat → List α → Nat → α → Nat → List α
  | 0, heap, pos, newitem, startpos => siftdownGo lt newitem pos heap startpos pos
  | Nat.succ fuel, heap, pos, newitem, startpos =>
    if 2 * pos + 1 < heap.length then
      if 2 * pos + 2 < heap.length ∧
          ¬ lt (heap.getD (2 * pos + 1) newitem) (heap.getD (2 * pos + 2) newitem) then
        siftupGo lt fuel (heap.set pos (heap.getD (2 * pos + 2) newitem))
          (2 * pos + 2) newitem startpos
      else
        siftupGo lt fuel (heap.set pos (heap.getD (2 * pos + 1) newitem))
          (2 * pos + 1) newitem startpos
    else
      siftdownGo lt newitem pos heap startpos pos

/-- CPython `heapq.heappush`. -/
def heappush {α : Type} (lt : α → α → Bool) (heap : List α) (item : α) : List α :=
  siftdownGo lt item heap.length (heap ++ [item]) 0 heap.length

/-- CPython `heapq.heappop` (`none` on the empty heap, where CPython
raises). -/
def heappop {α : Type} (lt : α → α → Bool) (heap : List α) : Option (α × List α) :=
  match heap.getLast? with
  | none => none
  | some lastelt =>
    let rest := heap.dropLast
    match rest with
    | [] => some (lastelt, [])
    | r0 :: _ => some (r0, siftupGo lt rest.length (rest.set 0 lastelt) 0 lastelt 0)

/-! ### A* search (`ManhattanRouter._astar`) -/

/-- The A* search `Node` dataclass; `order=True` with all fields except
`f_score` marked `compare=False`, so nodes compare by `f_score` alone.
Scores are stored doubled (see above). -/
inductive AstarNode where
  | mk (fScore : Int) (pos : GPos) (gScore : Int) (parent : Option AstarNode)

def AstarNode.fScore : AstarNode → Int
  | .mk f _ _ _ => f

def AstarNode.pos : AstarNode → GPos
  | .mk _ p _ _ => p

def AstarNode.gScore : AstarNode → Int
  | .mk _ _ g _ => g

def AstarNode.parent : AstarNode → Option AstarNode
  | .mk _ _ _ par => par

/-- `Node.__lt__`. -/
def nodeLt (a b : AstarNode) : Bool := a.fScore < b.fScore

/-- Manhattan distance between grid cells. -/
def manhattanDist (p q : GPos) : Int :=
  |p.1 - q.1| + |p.2 - q.2|

/-- `ManhattanRouter._heuristic` (doubled). -/
def heuristic (pos goal : GPos) : Int :=
  2 * manhattanDist pos goal

/-- `ManhattanRouter._get_neighbors`, in source order. -/
def getNeighbors (p : GPos) : List GPos :=
  [(p.1 + 1, p.2), (p.1 - 1, p.2), (p.1, p.2 + 1), (p.1, p.2 - 1)]

/-- `ManhattanRouter._is_direction_change`. -/
def isDirectionChange (prev cur nxt : GPos) : Bool :=
  decide ((cur.1 - prev.1, cur.2 - prev.2) ≠ (nxt.1 - cur.1, nxt.2 - cur.2))

/-- The node positions along a search node's parent chain (newest first). -/
def chainPositions : AstarNode → List GPos
  | .mk _ p _ none => [p]
  | .mk _ p _ (some par) => p :: chainPositions par

/-- The `for neighbor_pos in self._get_neighbors(...)` body: skip closed
cells, compute the move cost (`+100` on obstacle entry, `+0.5` on a
direction change when a parent exists — doubled: `2`, `+200`, `+1`), push
improved nodes and update `g_scores`. -/
def expandNeighbors (obstacles : List GPos) (goal : GPos) (current : AstarNode)
    (closed : GPos → Bool) :
    List GPos → List AstarNode × (GPos → Option Int) →
      List AstarNode × (GPos → Option Int)
  | [], st => st
  | np :: rest, (heap, gs) =>
    if closed np then
      expandNeighbors obstacles goal current closed rest (heap, gs)
    else
      let mc1 : Int := if obstacles.contains np then 2 + 200 else 2
      let mc : Int :=
        match current.parent with
        | some par =>
          if isDirectionChange par.pos current.pos np then mc1 + 1 else mc1
        | none => mc1
      let tg := current.gScore + mc
      let better : Bool :=
        match gs np with
        | none => true
        | some v => decide (tg < v)
      if better then
        expandNeighbors obstacles goal current closed rest
          (heappush nodeLt heap (AstarNode.mk (tg + heuristic np goal) np tg
            (some current)),
           fun p => if p = np then some tg else gs p)
      else
        expandNeighbors obstacles goal current closed rest (heap, gs)

/-- The `while open_set` loop of `_astar`; `fuel` one unit per iteration.
When the heap empties the loop falls through to the two-segment fallback
`[start, (goal.x, start.y), goal]`. -/
def astarLoop (obstacles : List GPos) (goal start : GPos) :
    Nat → List AstarNode → (GPos → Option Int) → (GPos → Bool) →
      Option (List GPos)
  | 0, _, _, _ => none
  | Nat.succ fuel, heap, gs, closed =>
    match heappop nodeLt heap with
    | none => some [start, (goal.1, start.2), goal]
    | some (current, heap2) =>
      if current.pos = goal then
        some (chainPositions current).reverse
      else if closed current.pos then
        astarLoop obstacles goal start fuel heap2 gs closed
      else
        let closed2 : GPos → Bool := fun p => p = current.pos || closed p
        let st := expandNeighbors obstacles goal current closed2
          (getNeighbors current.pos) (heap2, gs)
        astarLoop obstacles goal start fuel st.1 st.2 closed2

/-- `ManhattanRouter._astar` (with a fuel parameter standing in for Python's
unbounded `while`; `none` means the fuel ran out, never that the search
failed). -/
def astar (obstacles : List GPos) (start goal : GPos) (fuel : Nat) :
    Option (List GPos) :=
  if start = goal then some [start]
  else
    astarLoop obstacles goal start fuel
      (heappush nodeLt [] (AstarNode.mk (heuristic start goal) start 0 none))
      (fun p => if p = start then some 0 else none)
      (fun _ => false)

/-! ### Path simplification and pixel conversion -/

/-- `ManhattanRouter._is_collinear`: three points share an x or share a y. -/
def isCollinear (p1 p2 p3 : GPos) : Bool :=
  (p1.1 == p2.1 && p2.1 == p3.1) || (p1.2 == p2.2 && p2.2 == p3.2)

/-- The `for i in range(1, len(path) - 1)` loop of `_simplify_path`: `prev`
is the last kept point; the final point is appended unconditionally. -/
def simplifyGo (prev : GPos) : List GPos → List GPos
  | [] => []
  | [last] => [last]
  | cur :: nxt :: rest =>
    if isCollinear prev cur nxt then simplifyGo prev (nxt :: rest)
    else cur :: simplifyGo cur (nxt :: rest)

/-- `ManhattanRouter._simplify_path` (paths of length ≤ 2 are returned
unchanged). -/
def simplifyPath : List GPos → List GPos
  | [] => []
  | [a] => [a]
  | [a, b] => [a, b]
  | a :: rest => a :: simplifyGo a rest

/-- `ManhattanRouter._to_grid`: `int(pos / grid_size)` — float division of
an integral pixel value then truncation toward zero. -/
def toGrid (p : Pt) : GPos :=
  (Int.tdiv p.1 gridSize, Int.tdiv p.2 gridSize)

/-- `ManhattanRouter._from_grid`. -/
def fromGrid (p : GPos) : Pt :=
  (p.1 * gridSize, p.2 * gridSize)

/-- `ManhattanRouter._route_two_pins` (`none` only on fuel exhaustion). -/
def routeTwoPins (obstacles : List GPos) (fuel : Nat) (s e : Pt) :
    Option (List Pt) :=
  match astar obstacles (toGrid s) (toGrid e) fuel with
  | none => none
  | some gridPath =>
    if gridPath.isEmpty then some [s, (e.1, s.2), e]
    else some ((simplifyPath gridPath).map fromGrid)

/-! ### MST construction (`_build_mst`) and multi-pin routing -/

/-- `ManhattanRouter._manhattan_distance` on pixel points. -/
def manhattanPix (p q : Pt) : Int :=
  |p.1 - q.1| + |p.2 - q.2|

/-- Python `<` on the `(dist, i, j)` candidate tuples (lexicographic). -/
def tripleLt (a b : Int × Nat × Nat) : Bool :=
  a.1 < b.1 || (a.1 == b.1 && (a.2.1 < b.2.1 ||
    (a.2.1 == b.2.1 && a.2.2 < b.2.2)))

/-- Fallback pixel point for positional pin access. -/
def dfltPt : Pt := (0, 0)

/-- The `for k in range(n)` candidate push loop after visiting pin `j`. -/
def mstAddCands (pins : List Pt) (j : Nat) (visited : List Nat)
    (cands : List (Int × Nat × Nat)) : List (Int × Nat × Nat) :=
  (List.range pins.length).foldl
    (fun cs k =>
      if visited.contains k then cs
      else heappush tripleLt cs
        (manhattanPix (pins.getD j dfltPt) (pins.getD k dfltPt), j, k))
    cands

/-- The `while len(visited) < n and candidates` loop of `_build_mst`. -/
def mstLoop (pins : List Pt) :
    Nat → List Nat → List (Int × Nat × Nat) → List (Nat × Nat)
  | 0, _, _ => []
  | Nat.succ fuel, visited, cands =>
    if visited.length < pins.length then
      match heappop tripleLt cands with
      | none => []
      | some ((_, i, j), rest) =>
        if visited.contains j then mstLoop pins fuel visited rest
        else
          (i, j) :: mstLoop pins fuel (visited ++ [j])
            (mstAddCands pins j (visited ++ [j]) rest)
    else []

/-- `ManhattanRouter._build_mst` (Prim's algorithm; the fuel bounds the
number of pops, which never exceeds the number of pushes,
`(n − 1) + n·(n − 1) < (n + 1)²`). -/
def buildMST (pins : List Pt) : List (Nat × Nat) :=
  if pins.length ≤ 1 then []
  else
    mstLoop pins ((pins.length + 1) * (pins.length + 1)) [0]
      ((List.range' 1 (pins.length - 1)).foldl
        (fun cs j => heappush tripleLt cs
          (manhattanPix (pins.getD 0 dfltPt) (pins.getD j dfltPt), 0, j))
        [])

/-- The deduplication loop of `_merge_paths`, carrying the `seen` set.
(`round(x, 1)` is the identity on the integral coordinates this program
produces, so the rounded key equals the point itself.) -/
def mergeGo (seen : List Pt) : List Pt → List Pt
  | [] => []
  | p :: rest =>
    if seen.contains p then mergeGo seen rest
    else p :: mergeGo (p :: seen) rest

/-- `ManhattanRouter._merge_paths`. -/
def mergePaths (paths : List Pt) : List Pt :=
  if paths.isEmpty then [] else mergeGo [] paths

/-- The `for i, j in mst_edges` routing loop of `_route_multi_pins`
(`all_paths.extend(...)`). -/
def routeEdges (obstacles : List GPos) (fuel : Nat) (pins : List Pt) :
    List (Nat × Nat) → Option (List Pt)
  | [] => some []
  | (i, j) :: rest =>
    match routeTwoPins obstacles fuel (pins.getD i dfltPt) (pins.getD j dfltPt),
        routeEdges obstacles fuel pins rest with
    | some p, some ps => some (p ++ ps)
    | _, _ => none

/-- `ManhattanRouter._route_multi_pins`. -/
def routeMultiPins (obstacles : List GPos) (fuel : Nat) (pins : List Pt) :
    Option (List Pt) :=
  if pins.length ≤ 2 then
    match pins with
    | [] => none
    | [p] => routeTwoPins obstacles fuel p p
    | p :: q :: _ => routeTwoPins obstacles fuel p q
  else
    match routeEdges obstacles fuel pins (buildMST pins) with
    | none => none
    | some allPaths => some (mergePaths allPaths)

/-! ### Net routing (`route_net`) -/

/-- A resolved pin of a placed component, as read by the router. -/
structure RPin where
  id : String
  position : Pt
deriving DecidableEq

/-- A placed component as the router sees it. -/
structure RComponent where
  reference : String
  pins : List RPin
deriving DecidableEq

/-- A net handed to `route_net`. -/
structure RNet where
  name : String
  pins : List (String × String)
deriving DecidableEq

/-- The routed `Wire` dataclass (the `crosses` field is never read). -/
structure RWire where
  net_name : String
  path : List Pt
deriving DecidableEq

/-- The pin resolution loop of `route_net`: look the component up by
reference, then the pin by id, skipping failures. -/
def gatherPinPositions (net : RNet) (components : List RComponent) : List Pt :=
  net.pins.filterMap fun rp =>
    match components.find? (fun c => c.reference == rp.1) with
    | none => none
    | some comp =>
      match comp.pins.find? (fun p => p.id == rp.2) with
      | none => none
      | some pin => some pin.position

/-- `ManhattanRouter.route_net` (`none` only on fuel exhaustion). -/
def routeNet (obstacles : List GPos) (fuel : Nat) (net : RNet)
    (components : List RComponent) : Option RWire :=
  let pinPositions := gatherPinPositions net components
  if pinPositions.length < 2 then some { net_name := net.name, path := [] }
  else if pinPositions.length = 2 then
    match routeTwoPins obstacles fuel (pinPositions.getD 0 dfltPt)
        (pinPositions.getD 1 dfltPt) with
    | none => none
    | some p => some { net_name := net.name, path := p }
  else
    match routeMultiPins obstacles fuel pinPositions with
    | none => none
    | some p => some { net_name := net.name, path := p }

/-! ### The Manhattan-polyline invariant (spec §3) -/

/-- Consecutive waypoints differ in exactly one coordinate axis (hence are
distinct). -/
def stepOK (a b : Pt) : Bool :=
  (a.1 == b.1 && !(a.2 == b.2)) || (!(a.1 == b.1) && a.2 == b.2)

/-- Pixel-level collinearity (same x or same y across three points). -/
def collinearPix (a b c : Pt) : Bool :=
  (a.1 == b.1 && b.1 == c.1) || (a.2 == b.2 && b.2 == c.2)

def pairsOK : List Pt → Bool
  | a :: b :: rest => stepOK a b && pairsOK (b :: rest)
  | _ => true

def triplesOK : List Pt → Bool
  | a :: b :: c :: rest => !collinearPix a b c && triplesOK (b :: c :: rest)
  | _ => true

/-- The Manhattan-polyline invariant of spec §3: every consecutive pair of
waypoints differs in exactly one axis, no two consecutive waypoints are
equal, and no three consecutive waypoints are collinear. -/
def manhattanPolyline (path : List Pt) : Bool :=
  pairsOK path && triplesOK path

end Lamp

namespace Lamp

/-! ## Claims about the router: concrete inputs -/

/-- Three single-pin components at (0,0), (20,0), (0,30). -/
def comps3 : List RComponent :=
  [ { reference := "U1", pins := [{ id := "1", position := (0, 0) }] },
    { reference := "U2", pins := [{ id := "1", position := (20, 0) }] },
    { reference := "U3", pins := [{ id := "1", position := (0, 30) }] } ]

/-- A 3-pin net over `comps3`. -/
def net3 : RNet :=
  { name := "N1", pins := [("U1", "1"), ("U2", "1"), ("U3", "1")] }

/-- C1: the claim fails for multi-pin nets. For the 3-pin net over pins
(0,0), (20,0), (0,30) with no obstacles, the MST edges (0,1) and (0,2) route
to the straight segments (0,0)→(20,0) and (0,0)→(0,30); their concatenation
deduplicates to [(0,0), (20,0), (0,30)], whose middle step changes both
coordinates — not a Manhattan segment. -/
theorem C1_counterexample :
    routeNet [] 50 net3 comps3 =
      some { net_name := "N1", path := [(0, 0), (20, 0), (0, 30)] } ∧
    manhattanPolyline [(0, 0), (20, 0), (0, 30)] = false := by
  refine ⟨by decide, by decide⟩

/-- C3: the A* loop of `_astar` has no expansion cap. On an obstacle-free
grid (so any claimed cap `10 × #blocked-cells` is `0`) the route
(0,0) → (0,20) takes three loop iterations (fuel 2 is insufficient, fuel 3
succeeds) and returns the straight two-point simplified wire — not the
claimed two-segment fallback `start → (goal.x, start.y) → goal`, and no
`UnroutableFallback` record exists anywhere in the router's output type. -/
theorem C3_counterexample :
    astar [] (0, 0) (0, 2) 2 = none ∧
    astar [] (0, 0) (0, 2) 3 = some [(0, 0), (0, 1), (0, 2)] ∧
    routeTwoPins [] 30 (0, 0) (0, 20) = some [(0, 0), (0, 20)] ∧
    [((0 : Int), (0 : Int)), (0, 20)] ≠ [(0, 0), (0, 0), (0, 20)] := by
  refine ⟨by decide, by decide, by decide, by decide⟩

/-- C3 (amended): the A* search has no expansion cap; the two-segment
fallback `start → (goal.x, start.y) → goal` is produced exactly when the
open set empties before the goal is reached (line 258 of the source), with
no obstacle checking; no diagnostic of any kind is recorded. -/
theorem C3_fallback_only_on_empty_open_set (obstacles : List GPos)
    (goal start : GPos) (fuel : Nat) (gs : GPos → Option Int)
    (closed : GPos → Bool) :
    astarLoop obstacles goal start (fuel + 1) [] gs closed =
      some [start, (goal.1, start.2), goal] := rfl

end Lamp

namespace Lamp

/-! ## C9: simplification idempotence -/

/-- C9: `_simplify_path` is not idempotent on arbitrary waypoint lists. The
path revisits (0,0): the first pass drops the excursion to (0,5) and the
revisit, leaving three collinear points that a second pass then prunes. -/
theorem C9_counterexample :
    simplifyPath [((7 : Int), (0 : Int)), (0, 0), (0, 5), (0, 0), (9, 0)] =
      [(7, 0), (0, 0), (9, 0)] ∧
    simplifyPath (simplifyPath [((7 : Int), (0 : Int)), (0, 0), (0, 5), (0, 0), (9, 0)]) ≠
      simplifyPath [((7 : Int), (0 : Int)), (0, 0), (0, 5), (0, 0), (9, 0)] := by
  refine ⟨by decide, by decide⟩

/-- No interior point of the list is collinear with its predecessor-kept
point and successor — the condition under which a simplification pass keeps
every point. -/
def okRun (prev : GPos) : List GPos → Prop
  | [] => True
  | [_] => True
  | cur :: nxt :: rest =>
    ¬ (isCollinear prev cur nxt = true) ∧ okRun cur (nxt :: rest)

lemma isCollinear_iff (p q r : GPos) :
    isCollinear p q r = true ↔ (p.1 = q.1 ∧ q.1 = r.1) ∨ (p.2 = q.2 ∧ q.2 = r.2) := by
  simp [isCollinear]

lemma simplifyGo_eq_self (l : List GPos) (prev : GPos) (h : okRun prev l) :
    simplifyGo prev l = l := by
  induction l generalizing prev with
  | nil => rfl
  | cons cur rest ih =>
    cases rest with
    | nil => rfl
    | cons nxt t =>
      obtain ⟨h1, h2⟩ := h
      rw [simplifyGo, if_neg h1]
      exact congrArg _ (ih cur h2)

lemma mem_simplifyGo (l : List GPos) (prev x : GPos)
    (h : x ∈ simplifyGo prev l) : x ∈ l := by
  induction l generalizing prev with
  | nil => simpa [simplifyGo] using h
  | cons cur rest ih =>
    cases rest with
    | nil => simpa [simplifyGo] using h
    | cons nxt t =>
      rw [simplifyGo] at h
      by_cases hc : isCollinear prev cur nxt = true
      · rw [if_pos hc] at h
        exact List.mem_cons_of_mem _ (ih prev h)
      · rw [if_neg hc] at h
        rcases List.mem_cons.mp h with h | h
        · exact h ▸ List.mem_cons_self _ _
        · exact List.mem_cons_of_mem _ (ih cur h)

lemma simplifyGo_head_line (rest : List GPos) (c m : GPos)
    (hc : c ∉ m :: rest) :
    ∃ h t, simplifyGo c (m :: rest) = h :: t ∧
      (h = m ∨ (c.1 = m.1 ∧ c.1 = h.1) ∨ (c.2 = m.2 ∧ c.2 = h.2)) := by
  induction rest generalizing m with
  | nil => exact ⟨m, [], rfl, Or.inl rfl⟩
  | cons m2 rest2 ih =>
    rw [simplifyGo]
    by_cases hcol : isCollinear c m m2 = true
    · rw [if_pos hcol]
      have hc2 : c ∉ m2 :: rest2 := fun hx => hc (List.mem_cons_of_mem _ hx)
      obtain ⟨h, t, he, hd⟩ := ih m2 hc2
      refine ⟨h, t, he, ?_⟩
      have hcm2 : c ≠ m2 := by
        intro hx
        exact hc (by rw [hx]; exact List.mem_cons_of_mem _ (List.mem_cons_self _ _))
      rcases (isCollinear_iff c m m2).mp hcol with ⟨e1, e2⟩ | ⟨e1, e2⟩
      · refine Or.inr (Or.inl ⟨e1, ?_⟩)
        rcases hd with hd | ⟨f1, f2⟩ | ⟨f1, f2⟩
        · rw [hd, e1, e2]
        · exact f2
        · have hm2c : m2 = c := Prod.ext (by rw [← e2, ← e1]) f1.symm
          exact absurd hm2c.symm hcm2
      · refine Or.inr (Or.inr ⟨e1, ?_⟩)
        rcases hd with hd | ⟨f1, f2⟩ | ⟨f1, f2⟩
        · rw [hd, e1, e2]
        · have hm2c : m2 = c := Prod.ext f1.symm (by rw [← e2, ← e1])
          exact absurd hm2c.symm hcm2
        · exact f2
    · rw [if_neg hcol]
      exact ⟨m, _, rfl, Or.inl rfl⟩

end Lamp

namespace Lamp

lemma okRun_simplifyGo (l : List GPos) (prev : GPos)
    (hp : prev ∉ l) (hnd : l.Nodup) : okRun prev (simplifyGo prev l) := by
  induction l generalizing prev with
  | nil => trivial
  | cons cur rest ih =>
    cases rest with
    | nil => trivial
    | cons nxt t =>
      rw [simplifyGo]
      by_cases hcol : isCollinear prev cur nxt = true
      · rw [if_pos hcol]
        exact ih prev (fun hx => hp (List.mem_cons_of_mem _ hx))
          (List.Nodup.of_cons hnd)
      · rw [if_neg hcol]
        have hcur : cur ∉ nxt :: t := (List.nodup_cons.mp hnd).1
        obtain ⟨h, t2, he, hd⟩ := simplifyGo_head_line t cur nxt hcur
        rw [he]
        refine ⟨?_, ?_⟩
        · intro hc
          rcases (isCollinear_iff prev cur h).mp hc with ⟨e1, e2⟩ | ⟨e1, e2⟩
          · rcases hd with hd | ⟨f1, f2⟩ | ⟨f1, f2⟩
            · exact hcol ((isCollinear_iff prev cur nxt).mpr
                (Or.inl ⟨e1, by rw [← hd]; exact e2⟩))
            · exact hcol ((isCollinear_iff prev cur nxt).mpr (Or.inl ⟨e1, f1⟩))
            · have hhc : h = cur := Prod.ext e2.symm f2.symm
              have : cur ∈ nxt :: t :=
                mem_simplifyGo (nxt :: t) cur cur (by rw [he, ← hhc]; exact List.mem_cons_self _ _)
              exact hcur this
          · rcases hd with hd | ⟨f1, f2⟩ | ⟨f1, f2⟩
            · exact hcol ((isCollinear_iff prev cur nxt).mpr
                (Or.inr ⟨e1, by rw [← hd]; exact e2⟩))
            · have hhc : h = cur := Prod.ext f2.symm e2.symm
              have : cur ∈ nxt :: t :=
                mem_simplifyGo (nxt :: t) cur cur (by rw [he, ← hhc]; exact List.mem_cons_self _ _)
              exact hcur this
            · exact hcol ((isCollinear_iff prev cur nxt).mpr (Or.inr ⟨e1, f1⟩))
        · have := ih cur hcur (List.Nodup.of_cons hnd)
          rw [he] at this
          exact this

/-- C9 (amended): on every waypoint path with pairwise-distinct points —
in particular on every simple path, such as the A* outputs the router
simplifies — `_simplify_path` is idempotent. -/
theorem C9_simplify_idempotent_amended (p : List GPos) (hnd : p.Nodup) :
    simplifyPath (simplifyPath p) = simplifyPath p := by
  match p with
  | [] => rfl
  | [a] => rfl
  | [a, b] => rfl
  | a :: b :: c :: t =>
    have ha : a ∉ b :: c :: t := (List.nodup_cons.mp hnd).1
    have hout := okRun_simplifyGo (b :: c :: t) a ha (List.Nodup.of_cons hnd)
    show simplifyPath (a :: simplifyGo a (b :: c :: t)) =
      a :: simplifyGo a (b :: c :: t)
    obtain ⟨h, t2, he, _⟩ := simplifyGo_head_line (c :: t) a b ha
    rw [he] at hout ⊢
    match t2, hout with
    | [], _ => rfl
    | x :: t3, hout =>
      show a :: simplifyGo a (h :: x :: t3) = a :: h :: x :: t3
      exact congrArg _ (simplifyGo_eq_self (h :: x :: t3) a hout)

/-- Witness for C9 (amended) on the concrete simple path
[(0,0), (5,0), (5,7)]. -/
theorem C9_simplify_idempotent_witness :
    simplifyPath (simplifyPath [((0 : Int), (0 : Int)), (5, 0), (5, 7)]) =
      simplifyPath [((0 : Int), (0 : Int)), (5, 0), (5, 7)] :=
  C9_simplify_idempotent_amended [(0, 0), (5, 0), (5, 7)] (by decide)

end Lamp

namespace Lamp

/-! ## C1 (amended): two-pin wires satisfy the Manhattan-polyline invariant -/

lemma getD_mem_or_eq {α : Type} (l : List α) (n : Nat) (d : α) :
    l.getD n d ∈ l ∨ l.getD n d = d := by
  by_cases h : n < l.length
  · left
    rw [List.getD_eq_getElem l d h]
    exact List.getElem_mem h
  · right
    exact List.getD_eq_default l d (by omega)

lemma mem_siftdownGo {α : Type} (lt : α → α → Bool) (newitem : α) :
    ∀ (fuel : Nat) (heap : List α) (startpos pos : Nat) (x : α),
      x ∈ siftdownGo lt newitem fuel heap startpos pos →
      x = newitem ∨ x ∈ heap := by
  intro fuel
  induction fuel with
  | zero =>
    intro heap startpos pos x hx
    rcases List.mem_or_eq_of_mem_set hx with h | h
    · exact Or.inr h
    · exact Or.inl h
  | succ f ih =>
    intro heap startpos pos x hx
    rw [siftdownGo] at hx
    by_cases h1 : startpos < pos
    · rw [if_pos h1] at hx
      by_cases h2 : lt newitem (heap.getD ((pos - 1) / 2) newitem) = true
      · rw [if_pos h2] at hx
        rcases ih _ _ _ _ hx with h | h
        · exact Or.inl h
        · rcases List.mem_or_eq_of_mem_set h with h3 | h3
          · exact Or.inr h3
          · rcases getD_mem_or_eq heap ((pos - 1) / 2) newitem with h4 | h4
            · exact Or.inr (h3 ▸ h4)
            · exact Or.inl (h3.trans h4)
      · rw [if_neg h2] at hx
        rcases List.mem_or_eq_of_mem_set hx with h | h
        · exact Or.inr h
        · exact Or.inl h
    · rw [if_neg h1] at hx
      rcases List.mem_or_eq_of_mem_set hx with h | h
      · exact Or.inr h
      · exact Or.inl h

end Lamp

namespace Lamp

lemma mem_siftupGo {α : Type} (lt : α → α → Bool) :
    ∀ (fuel : Nat) (heap : List α) (pos : Nat) (newitem : α) (startpos : Nat)
      (x : α), x ∈ siftupGo lt fuel heap pos newitem startpos →
      x = newitem ∨ x ∈ heap := by
  intro fuel
  induction fuel with
  | zero =>
    intro heap pos newitem startpos x hx
    exact mem_siftdownGo lt newitem _ _ _ _ _ hx
  | succ f ih =>
    intro heap pos newitem startpos x hx
    rw [siftupGo] at hx
    by_cases h1 : 2 * pos + 1 < heap.length
    · rw [if_pos h1] at hx
      by_cases h2 : 2 * pos + 2 < heap.length ∧
          ¬ lt (heap.getD (2 * pos + 1) newitem) (heap.getD (2 * pos + 2) newitem) = true
      · rw [if_pos h2] at hx
        rcases ih _ _ _ _ _ hx with h | h
        · exact Or.inl h
        · rcases List.mem_or_eq_of_mem_set h with h3 | h3
          · exact Or.inr h3
          · rcases getD_mem_or_eq heap (2 * pos + 2) newitem with h4 | h4
            · exact Or.inr (h3 ▸ h4)
            · exact Or.inl (h3.trans h4)
      · rw [if_neg h2] at hx
        rcases ih _ _ _ _ _ hx with h | h
        · exact Or.inl h
        · rcases List.mem_or_eq_of_mem_set h with h3 | h3
          · exact Or.inr h3
          · rcases getD_mem_or_eq heap (2 * pos + 1) newitem with h4 | h4
            · exact Or.inr (h3 ▸ h4)
            · exact Or.inl (h3.trans h4)
    · rw [if_neg h1] at hx
      exact mem_siftdownGo lt newitem _ _ _ _ _ hx

lemma mem_heappush {α : Type} (lt : α → α → Bool) (heap : List α) (item x : α)
    (hx : x ∈ heappush lt heap item) : x = item ∨ x ∈ heap := by
  rcases mem_siftdownGo lt item _ _ _ _ _ hx with h | h
  · exact Or.inl h
  · rcases List.mem_append.mp h with h | h
    · exact Or.inr h
    · exact Or.inl (List.mem_singleton.mp h)

lemma heappop_mem {α : Type} (lt : α → α → Bool) (heap : List α) (r : α)
    (heap2 : List α) (h : heappop lt heap = some (r, heap2)) :
    r ∈ heap ∧ ∀ x ∈ heap2, x ∈ heap := by
  unfold heappop at h
  rcases hl : heap.getLast? with _ | lastelt
  · rw [hl] at h; exact absurd h (by simp)
  · rw [hl] at h
    have hlast : lastelt ∈ heap := by
      obtain ⟨hne, he⟩ := List.mem_getLast?_eq_getLast (l := heap) (x := lastelt)
        (by rw [Option.mem_def, hl])
      exact he ▸ List.getLast_mem hne
    have hdrop : ∀ y ∈ heap.dropLast, y ∈ heap :=
      fun y hy => (List.dropLast_sublist heap).subset hy
    rcases hr : heap.dropLast with _ | ⟨r0, rest⟩
    · rw [hr] at h
      simp only [Option.some.injEq, Prod.mk.injEq] at h
      obtain ⟨he1, he2⟩ := h
      rw [← he1, ← he2]
      exact ⟨hlast, by simp⟩
    · rw [hr] at h
      simp only [Option.some.injEq, Prod.mk.injEq] at h
      obtain ⟨he1, he2⟩ := h
      refine ⟨he1 ▸ hdrop r0 (by rw [hr]; exact List.mem_cons_self _ _), ?_⟩
      intro x hx
      rw [← he2] at hx
      rcases mem_siftupGo lt _ _ _ _ _ _ hx with h3 | h3
      · exact h3 ▸ hlast
      · rcases List.mem_or_eq_of_mem_set h3 with h4 | h4
        · exact hdrop x (hr ▸ h4)
        · exact h4 ▸ hlast

end Lamp

namespace Lamp

/-- Adjacency of grid cells as produced by neighbor expansion. -/
def adjStep (a b : GPos) : Prop := a ∈ getNeighbors b

lemma adjStep_symm {a b : GPos} (h : adjStep a b) : adjStep b a := by
  rcases a with ⟨ax, ay⟩
  rcases b with ⟨bx, by1⟩
  simp only [adjStep, getNeighbors, List.mem_cons, List.mem_singleton,
    Prod.mk.injEq, List.not_mem_nil, or_false] at h ⊢
  omega

/-- The positions strictly below the head of a search node's chain. -/
def chainTailPositions (n : AstarNode) : List GPos :=
  match n.parent with
  | none => []
  | some par => chainPositions par

lemma chainPositions_eq (n : AstarNode) :
    chainPositions n = n.pos :: chainTailPositions n := by
  rcases n with ⟨f, p, g, _ | par⟩ <;> rfl

/-- Chain soundness of a search node: its parent chain takes unit
4-neighbor steps, visits pairwise-distinct cells, and every cell strictly
below the head is closed. -/
def GoodNode (closed : GPos → Bool) (n : AstarNode) : Prop :=
  List.Chain' adjStep (chainPositions n) ∧ (chainPositions n).Nodup ∧
  ∀ q ∈ chainTailPositions n, closed q = true

lemma GoodNode_mono {c1 c2 : GPos → Bool} (h : ∀ p, c1 p = true → c2 p = true)
    {n : AstarNode} (hg : GoodNode c1 n) : GoodNode c2 n :=
  ⟨hg.1, hg.2.1, fun q hq => h q (hg.2.2 q hq)⟩

lemma GoodNode_push (closed2 : GPos → Bool) (current : AstarNode)
    (np : GPos) (f g : Int) (hcur : GoodNode closed2 current)
    (hcc : closed2 current.pos = true) (hadj : np ∈ getNeighbors current.pos)
    (hnp : ¬ closed2 np = true) :
    GoodNode closed2 (AstarNode.mk f np g (some current)) := by
  have hposes : chainPositions (AstarNode.mk f np g (some current)) =
      np :: chainPositions current := rfl
  have htail : chainTailPositions (AstarNode.mk f np g (some current)) =
      chainPositions current := rfl
  have hallclosed : ∀ q ∈ chainPositions current, closed2 q = true := by
    rw [chainPositions_eq]
    intro q hq
    rcases List.mem_cons.mp hq with h | h
    · exact h ▸ hcc
    · exact hcur.2.2 q h
  refine ⟨?_, ?_, ?_⟩
  · rw [hposes, chainPositions_eq current]
    exact List.chain'_cons.mpr ⟨hadj, by rw [← chainPositions_eq]; exact hcur.1⟩
  · rw [hposes]
    refine List.nodup_cons.mpr ⟨fun hmem => hnp (hallclosed np hmem), hcur.2.1⟩
  · rw [htail]
    exact hallclosed

lemma expandNeighbors_inv (obstacles : List GPos) (goal : GPos)
    (current : AstarNode) (closed2 : GPos → Bool)
    (hcur : GoodNode closed2 current) (hcc : closed2 current.pos = true) :
    ∀ (nps : List GPos) (st : List AstarNode × (GPos → Option Int)),
      (∀ np ∈ nps, np ∈ getNeighbors current.pos) →
      (∀ n ∈ st.1, GoodNode closed2 n) →
      ∀ n ∈ (expandNeighbors obstacles goal current closed2 nps st).1,
        GoodNode closed2 n := by
  intro nps
  induction nps with
  | nil =>
    intro st _ hst n hn
    exact hst n hn
  | cons np rest ih =>
    intro st hnps hst
    rcases st with ⟨heap, gs⟩
    rw [expandNeighbors]
    by_cases hcl : closed2 np = true
    · rw [if_pos hcl]
      exact ih _ (fun q hq => hnps q (List.mem_cons_of_mem _ hq)) hst
    · rw [if_neg hcl]
      dsimp only
      have hskip : ∀ gs2 : GPos → Option Int,
          ∀ n ∈ (expandNeighbors obstacles goal current closed2 rest
            (heap, gs2)).1, GoodNode closed2 n :=
        fun _ => ih _ (fun q hq => hnps q (List.mem_cons_of_mem _ hq)) hst
      have hstep : ∀ (F G : Int) (gs2 : GPos → Option Int),
          ∀ n ∈ (expandNeighbors obstacles goal current closed2 rest
            (heappush nodeLt heap (AstarNode.mk F np G (some current)),
              gs2)).1, GoodNode closed2 n := by
        intro F G gs2
        refine ih _ (fun q hq => hnps q (List.mem_cons_of_mem _ hq)) ?_
        intro n hn
        rcases mem_heappush nodeLt heap _ n hn with h | h
        · rw [h]
          exact GoodNode_push closed2 current np _ _ hcur hcc
            (hnps np (List.mem_cons_self _ _)) hcl
        · exact hst n h
      repeat' first
      | exact hstep _ _ _
      | exact hskip _
      | split

end Lamp

namespace Lamp

lemma astarLoop_shape (obstacles : List GPos) (goal start : GPos) :
    ∀ (fuel : Nat) (heap : List AstarNode) (gs : GPos → Option Int)
      (closed : GPos → Bool) (res : List GPos),
      (∀ n ∈ heap, GoodNode closed n) →
      astarLoop obstacles goal start fuel heap gs closed = some res →
      (List.Chain' adjStep res ∧ res.Nodup ∧ res ≠ []) ∨
      res = [start, (goal.1, start.2), goal] := by
  intro fuel
  induction fuel with
  | zero =>
    intro heap gs closed res _ hres
    exact absurd hres (by rw [astarLoop]; simp)
  | succ f ih =>
    intro heap gs closed res hinv hres
    rw [astarLoop] at hres
    rcases hpop : heappop nodeLt heap with _ | ⟨current, heap2⟩
    · rw [hpop] at hres
      right
      simpa using hres.symm
    · rw [hpop] at hres
      dsimp only at hres
      obtain ⟨hcm, hsub⟩ := heappop_mem nodeLt heap current heap2 hpop
      have hgood := hinv current hcm
      by_cases hgoal : current.pos = goal
      · rw [if_pos hgoal] at hres
        left
        have hres2 : res = (chainPositions current).reverse := by
          simpa using hres.symm
        refine ⟨?_, ?_, ?_⟩
        · rw [hres2]
          rw [List.chain'_reverse]
          exact List.Chain'.imp (fun a b h => adjStep_symm h) hgood.1
        · rw [hres2]
          exact List.nodup_reverse.mpr hgood.2.1
        · rw [hres2, chainPositions_eq]
          simp
      · rw [if_neg hgoal] at hres
        by_cases hcl : closed current.pos = true
        · rw [if_pos hcl] at hres
          exact ih heap2 gs closed res (fun n hn => hinv n (hsub n hn)) hres
        · rw [if_neg hcl] at hres
          set closed2 : GPos → Bool := fun p => p = current.pos || closed p with hc2
          have hmono : ∀ p, closed p = true → closed2 p = true := by
            intro p hp
            simp [hc2, hp]
          have hcc : closed2 current.pos = true := by simp [hc2]
          have hcur2 : GoodNode closed2 current := GoodNode_mono hmono hgood
          refine ih _ _ closed2 res ?_ hres
          exact expandNeighbors_inv obstacles goal current closed2 hcur2 hcc
            (getNeighbors current.pos) (heap2, gs) (fun np h => h)
            (fun n hn => GoodNode_mono hmono (hinv n (hsub n hn)))

lemma astar_shape (obstacles : List GPos) (start goal : GPos) (fuel : Nat)
    (res : List GPos) (h : astar obstacles start goal fuel = some res) :
    (List.Chain' adjStep res ∧ res.Nodup ∧ res ≠ []) ∨
    (start ≠ goal ∧ res = [start, (goal.1, start.2), goal]) := by
  unfold astar at h
  by_cases hsg : start = goal
  · rw [if_pos hsg] at h
    left
    have : res = [start] := by simpa using h.symm
    rw [this]
    exact ⟨List.chain'_singleton _, List.nodup_singleton _, by simp⟩
  · rw [if_neg hsg] at h
    have hstart : ∀ n ∈ heappush nodeLt []
        (AstarNode.mk (heuristic start goal) start 0 none),
        GoodNode (fun _ => false) n := by
      intro n hn
      rcases mem_heappush nodeLt [] _ n hn with h2 | h2
      · rw [h2]
        exact ⟨List.chain'_singleton _, List.nodup_singleton _,
          by simp [chainTailPositions, AstarNode.parent]⟩
      · exact absurd h2 (List.not_mem_nil n)
    rcases astarLoop_shape obstacles goal start fuel _ _ _ res hstart h with h2 | h2
    · exact Or.inl h2
    · exact Or.inr ⟨hsg, h2⟩

end Lamp

namespace Lamp

lemma stepOK_of_adj {a b : GPos} (h : adjStep a b) : stepOK a b = true := by
  rcases a with ⟨ax, ay⟩
  rcases b with ⟨bx, by1⟩
  simp only [adjStep, getNeighbors, List.mem_cons, List.mem_singleton,
    Prod.mk.injEq, List.not_mem_nil, or_false] at h
  simp only [stepOK, Bool.or_eq_true, Bool.and_eq_true, beq_iff_eq,
    Bool.not_eq_true', beq_eq_false_iff_ne, ne_eq]
  omega

lemma stepOK_of_sameX {a b : GPos} (h1 : a.1 = b.1) (h2 : a ≠ b) :
    stepOK a b = true := by
  simp only [stepOK, Bool.or_eq_true, Bool.and_eq_true, beq_iff_eq,
    Bool.not_eq_true', beq_eq_false_iff_ne, ne_eq]
  exact Or.inl ⟨h1, fun hy => h2 (Prod.ext h1 hy)⟩

lemma stepOK_of_sameY {a b : GPos} (h1 : a.2 = b.2) (h2 : a ≠ b) :
    stepOK a b = true := by
  simp only [stepOK, Bool.or_eq_true, Bool.and_eq_true, beq_iff_eq,
    Bool.not_eq_true', beq_eq_false_iff_ne, ne_eq]
  exact Or.inr ⟨fun hx => h2 (Prod.ext hx h1), h1⟩

lemma triplesOK_of_okRun : ∀ (l : List GPos) (prev : GPos), okRun prev l →
    triplesOK (prev :: l) = true := by
  intro l
  induction l with
  | nil => intro prev _; rfl
  | cons x rest ih =>
    intro prev hok
    cases rest with
    | nil => rfl
    | cons y t =>
      obtain ⟨h1, h2⟩ := hok
      show (!collinearPix prev x y && triplesOK (x :: y :: t)) = true
      simp only [Bool.and_eq_true, Bool.not_eq_true']
      exact ⟨Bool.eq_false_iff.mpr h1, ih x h2⟩

lemma pairsOK_simplifyGo : ∀ (l : List GPos) (prev : GPos),
    List.Chain' adjStep l → prev ∉ l → l.Nodup →
    pairsOK (simplifyGo prev l) = true := by
  intro l
  induction l with
  | nil => intro prev _ _ _; rfl
  | cons cur rest ih =>
    intro prev hch hp hnd
    cases rest with
    | nil => rfl
    | cons nxt t =>
      rw [simplifyGo]
      by_cases hcol : isCollinear prev cur nxt = true
      · rw [if_pos hcol]
        exact ih prev hch.tail (fun hx => hp (List.mem_cons_of_mem _ hx))
          (List.Nodup.of_cons hnd)
      · rw [if_neg hcol]
        have hcur : cur ∉ nxt :: t := (List.nodup_cons.mp hnd).1
        obtain ⟨h, t2, he, hd⟩ := simplifyGo_head_line t cur nxt hcur
        rw [he]
        show (stepOK cur h && pairsOK (h :: t2)) = true
        simp only [Bool.and_eq_true]
        refine ⟨?_, ?_⟩
        · have hhne : cur ≠ h := by
            intro hx
            refine hcur ?_
            rw [hx]
            exact mem_simplifyGo (nxt :: t) cur h
              (by rw [he]; exact List.mem_cons_self _ _)
          rcases hd with hd | ⟨f1, f2⟩ | ⟨f1, f2⟩
          · rw [hd]
            exact stepOK_of_adj (List.chain'_cons.mp hch).1
          · exact stepOK_of_sameX f2 hhne
          · exact stepOK_of_sameY f2 hhne
        · have := ih cur hch.tail hcur (List.Nodup.of_cons hnd)
          rw [he] at this
          exact this

lemma manhattanPolyline_simplify (p : List GPos)
    (hch : List.Chain' adjStep p) (hnd : p.Nodup) :
    manhattanPolyline (simplifyPath p) = true := by
  match p, hch, hnd with
  | [], _, _ => rfl
  | [a], _, _ => rfl
  | [a, b], hch, _ =>
    show (stepOK a b && true) && true = true
    simp [stepOK_of_adj (List.chain'_cons.mp hch).1]
  | a :: b :: c :: t, hch, hnd =>
    have ha : a ∉ b :: c :: t := (List.nodup_cons.mp hnd).1
    have hndr : (b :: c :: t).Nodup := List.Nodup.of_cons hnd
    show manhattanPolyline (a :: simplifyGo a (b :: c :: t)) = true
    obtain ⟨h, t2, he, hd⟩ := simplifyGo_head_line (c :: t) a b ha
    have hok := okRun_simplifyGo (b :: c :: t) a ha hndr
    have hpairs := pairsOK_simplifyGo (b :: c :: t) a hch.tail ha hndr
    rw [he] at hok hpairs ⊢
    show (pairsOK (a :: h :: t2) && triplesOK (a :: h :: t2)) = true
    simp only [Bool.and_eq_true]
    refine ⟨?_, triplesOK_of_okRun _ a hok⟩
    show (stepOK a h && pairsOK (h :: t2)) = true
    simp only [Bool.and_eq_true]
    refine ⟨?_, hpairs⟩
    have hhne : a ≠ h := by
      intro hx
      refine ha ?_
      rw [hx]
      exact mem_simplifyGo (b :: c :: t) a h
        (by rw [he]; exact List.mem_cons_self _ _)
    rcases hd with hd | ⟨f1, f2⟩ | ⟨f1, f2⟩
    · rw [hd]
      exact stepOK_of_adj (List.chain'_cons.mp hch).1
    · exact stepOK_of_sameX f2 hhne
    · exact stepOK_of_sameY f2 hhne

end Lamp

namespace Lamp

lemma beq_mul_gridSize (x y : Int) :
    (x * gridSize == y * gridSize) = (x == y) := by
  by_cases h : x = y
  · simp [h]
  · have h2 : x * gridSize ≠ y * gridSize := by
      simp only [gridSize]
      omega
    simp [h, h2]

lemma stepOK_fromGrid (a b : GPos) : stepOK (fromGrid a) (fromGrid b) = stepOK a b := by
  simp only [stepOK, fromGrid, beq_mul_gridSize]

lemma collinearPix_fromGrid (a b c : GPos) :
    collinearPix (fromGrid a) (fromGrid b) (fromGrid c) = collinearPix a b c := by
  simp only [collinearPix, fromGrid, beq_mul_gridSize]

lemma pairsOK_map_fromGrid : ∀ l : List GPos,
    pairsOK (l.map fromGrid) = pairsOK l := by
  intro l
  match l with
  | [] => rfl
  | [a] => rfl
  | a :: b :: rest =>
    show (stepOK (fromGrid a) (fromGrid b) && pairsOK ((b :: rest).map fromGrid))
      = (stepOK a b && pairsOK (b :: rest))
    rw [stepOK_fromGrid, pairsOK_map_fromGrid (b :: rest)]

lemma triplesOK_map_fromGrid : ∀ l : List GPos,
    triplesOK (l.map fromGrid) = triplesOK l := by
  intro l
  match l with
  | [] => rfl
  | [a] => rfl
  | [a, b] => rfl
  | a :: b :: c :: rest =>
    show (!collinearPix (fromGrid a) (fromGrid b) (fromGrid c) &&
        triplesOK ((b :: c :: rest).map fromGrid))
      = (!collinearPix a b c && triplesOK (b :: c :: rest))
    rw [collinearPix_fromGrid, triplesOK_map_fromGrid (b :: c :: rest)]

lemma manhattanPolyline_map_fromGrid (l : List GPos) :
    manhattanPolyline (l.map fromGrid) = manhattanPolyline l := by
  unfold manhattanPolyline
  rw [pairsOK_map_fromGrid, triplesOK_map_fromGrid]

lemma fallback_polyline (S G : GPos) (hne : S ≠ G) :
    manhattanPolyline (simplifyPath [S, (G.1, S.2), G]) = true := by
  rcases S with ⟨sx, sy⟩
  rcases G with ⟨gx, gy⟩
  show manhattanPolyline ((sx, sy) :: simplifyGo (sx, sy) [(gx, sy), (gx, gy)]) = true
  rw [simplifyGo]
  by_cases hcol : isCollinear (sx, sy) (gx, sy) (gx, gy) = true
  · rw [if_pos hcol]
    rcases (isCollinear_iff _ _ _).mp hcol with ⟨e1, e2⟩ | ⟨e1, e2⟩
    · simp only at e1 e2
      show manhattanPolyline [(sx, sy), (gx, gy)] = true
      have hy : sy ≠ gy := by
        intro hy
        exact hne (by rw [e1, hy])
      show (stepOK (sx, sy) (gx, gy) && true) && true = true
      simp [stepOK_of_sameX (a := ((sx : Int), (sy : Int))) (b := (gx, gy)) e1
        (by intro hx; exact hne hx)]
    · simp only at e1 e2
      show manhattanPolyline [(sx, sy), (gx, gy)] = true
      show (stepOK (sx, sy) (gx, gy) && true) && true = true
      simp [stepOK_of_sameY (a := ((sx : Int), (sy : Int))) (b := (gx, gy)) e2
        (by intro hx; exact hne hx)]
  · rw [if_neg hcol]
    have hx : sx ≠ gx := by
      intro hx
      exact hcol ((isCollinear_iff _ _ _).mpr (Or.inl ⟨hx, rfl⟩))
    have hy : sy ≠ gy := by
      intro hy
      exact hcol ((isCollinear_iff _ _ _).mpr (Or.inr ⟨rfl, hy⟩))
    show ((stepOK (sx, sy) (gx, sy) &&
        (stepOK (gx, sy) (gx, gy) && true)) &&
      (!collinearPix (sx, sy) (gx, sy) (gx, gy) && true)) = true
    have h1 : stepOK ((sx : Int), (sy : Int)) (gx, sy) = true :=
      stepOK_of_sameY rfl (by simp [Prod.ext_iff]; omega)
    have h2 : stepOK ((gx : Int), (sy : Int)) (gx, gy) = true :=
      stepOK_of_sameX rfl (by simp [Prod.ext_iff]; omega)
    have h3 : collinearPix ((sx : Int), (sy : Int)) (gx, sy) (gx, gy) = false := by
      simp only [collinearPix]
      simp [hx, hy]
    rw [h1, h2, h3]
    rfl

/-- Manhattan-polyline soundness of the two-pin route. -/
lemma routeTwoPins_polyline (obstacles : List GPos) (fuel : Nat) (s e : Pt)
    (path : List Pt) (h : routeTwoPins obstacles fuel s e = some path) :
    manhattanPolyline path = true := by
  unfold routeTwoPins at h
  rcases ha : astar obstacles (toGrid s) (toGrid e) fuel with _ | gp
  · rw [ha] at h
    exact absurd h (by simp)
  · rw [ha] at h
    dsimp only at h
    rcases astar_shape obstacles (toGrid s) (toGrid e) fuel gp ha with
      ⟨hch, hnd, hne⟩ | ⟨hsg, hfb⟩
    · have hemp : gp.isEmpty = false := by
        rcases gp with _ | _
        · exact absurd rfl hne
        · rfl
      rw [hemp] at h
      simp only [Bool.false_eq_true, if_false, Option.some.injEq] at h
      rw [← h, manhattanPolyline_map_fromGrid]
      exact manhattanPolyline_simplify gp hch hnd
    · have hemp : gp.isEmpty = false := by rw [hfb]; rfl
      rw [hemp] at h
      simp only [Bool.false_eq_true, if_false, Option.some.injEq] at h
      rw [← h, manhattanPolyline_map_fromGrid, hfb]
      exact fallback_polyline _ _ hsg

/-- C1 (amended): every wire the router returns for a 2-pin net satisfies
the Manhattan-polyline invariant of spec §3. -/
theorem C1_two_pin_invariant (obstacles : List GPos) (fuel : Nat) (net : RNet)
    (components : List RComponent) (w : RWire)
    (h2 : (gatherPinPositions net components).length = 2)
    (hw : routeNet obstacles fuel net components = some w) :
    manhattanPolyline w.path = true := by
  unfold routeNet at hw
  dsimp only at hw
  rw [h2] at hw
  simp only [show ¬(2 < 2) from by omega, if_false, if_pos rfl] at hw
  rcases hr : routeTwoPins obstacles fuel
      ((gatherPinPositions net components).getD 0 dfltPt)
      ((gatherPinPositions net components).getD 1 dfltPt) with _ | p
  · rw [hr] at hw
    exact absurd hw (by simp)
  · rw [hr] at hw
    simp only [if_true, Option.some.injEq] at hw
    have hp : w.path = p := by rw [← hw]
    rw [hp]
    exact routeTwoPins_polyline _ _ _ _ p hr

/-- Two single-pin components for the C1 witness. -/
def comps2 : List RComponent :=
  [ { reference := "U1", pins := [{ id := "1", position := (0, 0) }] },
    { reference := "U2", pins := [{ id := "1", position := (0, 20) }] } ]

/-- A 2-pin net over `comps2`. -/
def net2 : RNet :=
  { name := "N2", pins := [("U1", "1"), ("U2", "1")] }

/-- Witness for C1 (amended): the concrete 2-pin net from (0,0) to (0,20)
routes to a wire satisfying the invariant. -/
theorem C1_two_pin_invariant_witness :
    manhattanPolyline (RWire.path
      { net_name := "N2", path := [(0, 0), (0, 20)] }) = true :=
  C1_two_pin_invariant [] 30 net2 comps2
    { net_name := "N2", path := [(0, 0), (0, 20)] } (by decide) (by decide)

end Lamp

namespace Lamp

/-! ## C2: optimality of the obstacle-free A* search

Pure combinatorial machinery about walks on the grid. A walk is recorded
newest-cell-first, exactly like `chainPositions`: `[p, ..., S]`. Its cost
mirrors how `_astar` accumulates `g`: 2 per step (doubled scale), +200 for
entering an obstacle cell, +1 whenever the direction differs from the
previous step's direction (the first step is never penalised). -/

/-- Cost of entering cell `p` (doubled): 2, or 202 on an obstacle. -/
def cellCost (obstacles : List GPos) (p : GPos) : Int :=
  if obstacles.contains p then 202 else 2

/-- Turn penalty of stepping `q → p` after having stepped `r → q`. -/
def stepPen (r q p : GPos) : Int :=
  if isDirectionChange r q p then 1 else 0

/-- Accumulated `g` of a parent chain (newest first), as `_astar` computes
it. -/
def walkCost (obstacles : List GPos) : List GPos → Int
  | p :: q :: r :: rest =>
    cellCost obstacles p + stepPen r q p + walkCost obstacles (q :: r :: rest)
  | [p, _] => cellCost obstacles p
  | _ => 0

/-- The step vectors of a walk, newest first (`moves[i] = c[i] - c[i+1]`). -/
def movesOf : List GPos → List GPos
  | a :: b :: rest => (a.1 - b.1, a.2 - b.2) :: movesOf (b :: rest)
  | _ => []

/-- Number of adjacent unequal pairs in a list (= direction changes of a
walk when applied to its move list). -/
def countAdjNe : List GPos → Int
  | a :: b :: rest => (if a = b then 0 else 1) + countAdjNe (b :: rest)
  | _ => 0

/-- Number of obstacle cells entered by the walk (every cell but the
oldest). -/
def obstEntries (obstacles : List GPos) : List GPos → Int
  | p :: q :: rest => (if obstacles.contains p then 1 else 0) +
      obstEntries obstacles (q :: rest)
  | _ => 0

/-- `p` lies in the closed coordinate rectangle spanned by `S` and `G`. -/
def inRect (S G p : GPos) : Prop :=
  ((S.1 ≤ p.1 ∧ p.1 ≤ G.1) ∨ (G.1 ≤ p.1 ∧ p.1 ≤ S.1)) ∧
  ((S.2 ≤ p.2 ∧ p.2 ≤ G.2) ∨ (G.2 ≤ p.2 ∧ p.2 ≤ S.2))

instance (S G p : GPos) : Decidable (inRect S G p) := by
  unfold inRect
  infer_instance

/-- 1 when `p` is off both axes through `S`, else 0. -/
def offAx (S p : GPos) : Int :=
  if p.1 = S.1 ∨ p.2 = S.2 then 0 else 1

/-- The exact cost of an optimal walk from `S` to `p` under the `_astar`
cost model with no obstacles en route: twice the Manhattan distance plus
one mandatory turn penalty when `p` is off both axes through `S`. -/
def gamma (S p : GPos) : Int :=
  2 * manhattanDist S p + offAx S p

lemma walkCost_decomp (obstacles : List GPos) : ∀ c : List GPos, c ≠ [] →
    walkCost obstacles c =
      2 * ((c.length : Int) - 1) + 200 * obstEntries obstacles c +
        countAdjNe (movesOf c) := by
  intro c
  match c with
  | [] => intro h; exact absurd rfl h
  | [p] => intro _; simp [walkCost, obstEntries, movesOf, countAdjNe]
  | [p, q] =>
    intro _
    simp only [walkCost, obstEntries, movesOf, countAdjNe, cellCost,
      List.length_cons, List.length_nil]
    split <;> push_cast <;> ring
  | p :: q :: r :: rest =>
    intro _
    have ih := walkCost_decomp obstacles (q :: r :: rest) (by simp)
    show cellCost obstacles p + stepPen r q p +
        walkCost obstacles (q :: r :: rest) = _
    rw [ih]
    show _ = 2 * ((((r :: rest).length : Int) + 1 + 1) - 1) +
      200 * ((if obstacles.contains p then (1 : Int) else 0) +
        obstEntries obstacles (q :: r :: rest)) +
      ((if ((p.1 - q.1, p.2 - q.2) : GPos) = (q.1 - r.1, q.2 - r.2)
          then (0 : Int) else 1) +
        countAdjNe (movesOf (q :: r :: rest)))
    have hpen : stepPen r q p =
        (if ((p.1 - q.1, p.2 - q.2) : GPos) = (q.1 - r.1, q.2 - r.2)
          then (0 : Int) else 1) := by
      simp only [stepPen, isDirectionChange, ne_eq]
      by_cases h : ((p.1 - q.1, p.2 - q.2) : GPos) = (q.1 - r.1, q.2 - r.2)
      · rw [if_pos h, if_neg]
        simp only [decide_eq_true_eq, not_not]
        exact h.symm
      · rw [if_neg h, if_pos]
        simp only [decide_eq_true_eq]
        exact Ne.symm h
    rw [hpen]
    simp only [cellCost, List.length_cons]
    split <;> push_cast <;> ring

end Lamp

namespace Lamp

lemma obstEntries_nonneg (obstacles : List GPos) : ∀ c : List GPos,
    0 ≤ obstEntries obstacles c := by
  intro c
  match c with
  | [] => exact le_refl 0
  | [p] => exact le_refl 0
  | p :: q :: rest =>
    have ih := obstEntries_nonneg obstacles (q :: rest)
    show 0 ≤ (if obstacles.contains p then (1 : Int) else 0) + _
    split <;> omega

lemma countAdjNe_nonneg : ∀ l : List GPos, 0 ≤ countAdjNe l := by
  intro l
  match l with
  | [] => exact le_refl 0
  | [a] => exact le_refl 0
  | a :: b :: rest =>
    have ih := countAdjNe_nonneg (b :: rest)
    show 0 ≤ (if a = b then (0 : Int) else 1) + _
    split <;> omega

lemma manhattanDist_nonneg (p q : GPos) : 0 ≤ manhattanDist p q := by
  simp only [manhattanDist]
  positivity

lemma adjStep_dist {a b : GPos} (h : adjStep a b) : manhattanDist b a = 1 := by
  rcases a with ⟨ax, ay⟩
  rcases b with ⟨bx, by1⟩
  simp only [adjStep, getNeighbors, List.mem_cons, List.mem_singleton,
    Prod.mk.injEq, List.not_mem_nil, or_false] at h
  simp only [manhattanDist]
  rcases h with ⟨h1, h2⟩ | ⟨h1, h2⟩ | ⟨h1, h2⟩ | ⟨h1, h2⟩ <;>
    rw [h1, h2] <;> simp <;> omega

lemma movesOf_unit : ∀ c : List GPos, List.Chain' adjStep c →
    ∀ m ∈ movesOf c, |m.1| + |m.2| = 1 := by
  intro c
  match c with
  | [] => intro _ m hm; exact absurd hm (by simp [movesOf])
  | [a] => intro _ m hm; exact absurd hm (by simp [movesOf])
  | a :: b :: rest =>
    intro hch m hm
    rw [List.chain'_cons] at hch
    have hd := adjStep_dist hch.1
    rcases List.mem_cons.mp hm with h | h
    · rcases a with ⟨ax, ay⟩
      rcases b with ⟨bx, by1⟩
      simp only [manhattanDist] at hd
      rw [h]
      show |ax - bx| + |ay - by1| = 1
      rw [abs_sub_comm ax bx, abs_sub_comm ay by1]
      exact hd
    · exact movesOf_unit (b :: rest) hch.2 m h

lemma chainLen_ge_dist : ∀ (rest : List GPos) (p S : GPos),
    List.Chain' adjStep (p :: rest) → (p :: rest).getLast? = some S →
    manhattanDist S p ≤ ((p :: rest).length : Int) - 1 := by
  intro rest
  induction rest with
  | nil =>
    intro p S _ hlast
    simp only [List.getLast?_singleton, Option.some.injEq] at hlast
    simp [← hlast, manhattanDist]
  | cons q rest ih =>
    intro p S hch hlast
    rw [List.chain'_cons] at hch
    have hlast2 : (q :: rest).getLast? = some S := by
      rw [List.getLast?_cons_cons] at hlast
      exact hlast
    have h2 := ih q S hch.2 hlast2
    have hd := adjStep_dist hch.1
    have htri : manhattanDist S p ≤ manhattanDist S q + manhattanDist q p := by
      rcases p with ⟨px, py⟩
      rcases q with ⟨qx, qy⟩
      rcases S with ⟨sx1, sy1⟩
      simp only [manhattanDist]
      have h1x : |sx1 - px| - |sx1 - qx| ≤ |qx - px| := by
        have h0 := abs_sub_abs_le_abs_sub (sx1 - px) (sx1 - qx)
        have heq : sx1 - px - (sx1 - qx) = qx - px := by ring
        rw [heq] at h0
        exact h0
      have h1y : |sy1 - py| - |sy1 - qy| ≤ |qy - py| := by
        have h0 := abs_sub_abs_le_abs_sub (sy1 - py) (sy1 - qy)
        have heq : sy1 - py - (sy1 - qy) = qy - py := by ring
        rw [heq] at h0
        exact h0
      omega
    rw [hd] at htri
    simp only [List.length_cons] at h2 ⊢
    push_cast at h2 ⊢
    omega

end Lamp

namespace Lamp

lemma straight_positions : ∀ (rest : List GPos) (p q : GPos),
    countAdjNe (movesOf (p :: q :: rest)) = 0 →
    ∀ i : Nat, i ≤ rest.length + 1 →
      (p :: q :: rest)[i]? =
        some (p.1 - i * (p.1 - q.1), p.2 - i * (p.2 - q.2)) := by
  intro rest
  induction rest with
  | nil =>
    intro p q _ i hi
    match i, hi with
    | 0, _ => simp
    | 1, _ =>
      simp only [List.getElem?_cons_succ, List.getElem?_cons_zero,
        Option.some.injEq]
      push_cast
      have h1 : p.1 - (1 : Int) * (p.1 - q.1) = q.1 := by ring
      have h2 : p.2 - (1 : Int) * (p.2 - q.2) = q.2 := by ring
      rw [h1, h2]
  | cons r rest ih =>
    intro p q h0 i hi
    have hsplit : ((p.1 - q.1, p.2 - q.2) : GPos) = (q.1 - r.1, q.2 - r.2) ∧
        countAdjNe (movesOf (q :: r :: rest)) = 0 := by
      have hmv : movesOf (p :: q :: r :: rest) =
          (p.1 - q.1, p.2 - q.2) :: movesOf (q :: r :: rest) := rfl
      rw [hmv] at h0
      have hmv2 : movesOf (q :: r :: rest) =
          (q.1 - r.1, q.2 - r.2) :: movesOf (r :: rest) := rfl
      rw [hmv2] at h0 ⊢
      have hnn := countAdjNe_nonneg ((q.1 - r.1, q.2 - r.2) :: movesOf (r :: rest))
      show _ ∧ countAdjNe _ = 0
      rw [countAdjNe] at h0
      by_cases he : ((p.1 - q.1, p.2 - q.2) : GPos) = (q.1 - r.1, q.2 - r.2)
      · rw [if_pos he] at h0
        exact ⟨he, by omega⟩
      · rw [if_neg he] at h0
        omega
    obtain ⟨he, hrec⟩ := hsplit
    match i, hi with
    | 0, _ => simp
    | Nat.succ i, hi =>
      have hstep := ih q r hrec i (by simp at hi ⊢; omega)
      rw [List.getElem?_cons_succ, hstep]
      have he1 : p.1 - q.1 = q.1 - r.1 := congrArg Prod.fst he
      have he2 : p.2 - q.2 = q.2 - r.2 := congrArg Prod.snd he
      simp only [Option.some.injEq, Prod.mk.injEq]
      push_cast
      constructor <;> [rw [← he1]; rw [← he2]] <;> ring

lemma getLast?_eq_getElem_len : ∀ (l : List GPos), l ≠ [] →
    l.getLast? = l[l.length - 1]? := by
  intro l
  induction l with
  | nil => intro h; exact absurd rfl h
  | cons a l ih =>
    intro _
    match l, ih with
    | [], _ => simp
    | b :: l2, ih =>
      rw [List.getLast?_cons_cons, ih (by simp)]
      have hl : (a :: b :: l2).length - 1 = (b :: l2).length - 1 + 1 := by
        simp
      rw [hl, List.getElem?_cons_succ]

end Lamp

namespace Lamp

lemma offAx_cases (S p : GPos) : offAx S p = 0 ∨ offAx S p = 1 := by
  unfold offAx
  split <;> simp

/-- A walk with no direction change runs along one axis: its head shares a
coordinate with its last element. -/
lemma head_on_axis_of_straight (rest : List GPos) (p S : GPos)
    (hch : List.Chain' adjStep (p :: rest))
    (hlast : (p :: rest).getLast? = some S)
    (h0 : countAdjNe (movesOf (p :: rest)) = 0) :
    p.1 = S.1 ∨ p.2 = S.2 := by
  match rest with
  | [] =>
    simp only [List.getLast?_singleton, Option.some.injEq] at hlast
    left
    rw [← hlast]
  | q :: rest2 =>
    have hpos := straight_positions rest2 p q h0 ((q :: rest2).length)
      (by simp)
    have hlen : (p :: q :: rest2).length - 1 = (q :: rest2).length := by simp
    rw [getLast?_eq_getElem_len _ (by simp), hlen, hpos] at hlast
    have hS := Option.some.inj hlast
    have hS1 : S.1 = p.1 - ((q :: rest2).length : Int) * (p.1 - q.1) :=
      (congrArg Prod.fst hS).symm
    have hS2 : S.2 = p.2 - ((q :: rest2).length : Int) * (p.2 - q.2) :=
      (congrArg Prod.snd hS).symm
    have hm : ((p.1 - q.1, p.2 - q.2) : GPos) ∈ movesOf (p :: q :: rest2) :=
      List.mem_cons_self _ _
    have hunit := movesOf_unit _ hch _ hm
    simp only at hunit
    rcases abs_cases (p.1 - q.1) with ⟨_, _⟩ | ⟨_, _⟩ <;>
      rcases abs_cases (p.2 - q.2) with ⟨_, _⟩ | ⟨_, _⟩ <;>
      [skip; skip; skip; skip] <;>
      (first
        | (left; omega)
        | (right; omega)
        | (rcases (by omega : p.1 - q.1 = 0 ∨ p.2 - q.2 = 0) with h | h
           · left; rw [hS1]; rw [h]; ring
           · right; rw [hS2]; rw [h]; ring))

end Lamp

namespace Lamp

/-- Lower bound: any unit-step walk ending at `S` costs at least `gamma` of
its head, whatever the obstacles. -/
lemma walkCost_ge_gamma (obstacles : List GPos) (rest : List GPos) (p S : GPos)
    (hch : List.Chain' adjStep (p :: rest))
    (hlast : (p :: rest).getLast? = some S) :
    gamma S p ≤ walkCost obstacles (p :: rest) := by
  have hd := walkCost_decomp obstacles (p :: rest) (by simp)
  have hlen := chainLen_ge_dist rest p S hch hlast
  have hob := obstEntries_nonneg obstacles (p :: rest)
  have hpen := countAdjNe_nonneg (movesOf (p :: rest))
  unfold gamma
  by_cases haxis : p.1 = S.1 ∨ p.2 = S.2
  · have h0 : offAx S p = 0 := by rw [offAx, if_pos haxis]
    rw [h0, hd]
    omega
  · have h1 : offAx S p = 1 := by rw [offAx, if_neg haxis]
    have hpen1 : 1 ≤ countAdjNe (movesOf (p :: rest)) := by
      by_contra hc
      have h0 : countAdjNe (movesOf (p :: rest)) = 0 := by omega
      exact haxis (head_on_axis_of_straight rest p S hch hlast h0)
    rw [h1, hd]
    omega

/-- Counting facts forced on a walk whose cost is exactly `gamma` of its
head: it has exactly `manhattanDist` steps, enters no obstacle, and turns
exactly `offAx` times. -/
lemma exact_chain_facts (obstacles : List GPos) (rest : List GPos)
    (p S : GPos) (hch : List.Chain' adjStep (p :: rest))
    (hlast : (p :: rest).getLast? = some S)
    (hcost : walkCost obstacles (p :: rest) = gamma S p) :
    ((p :: rest).length : Int) - 1 = manhattanDist S p ∧
    obstEntries obstacles (p :: rest) = 0 ∧
    countAdjNe (movesOf (p :: rest)) = offAx S p := by
  have hd := walkCost_decomp obstacles (p :: rest) (by simp)
  have hlen := chainLen_ge_dist rest p S hch hlast
  have hob := obstEntries_nonneg obstacles (p :: rest)
  have hpen := countAdjNe_nonneg (movesOf (p :: rest))
  unfold gamma at hcost
  by_cases haxis : p.1 = S.1 ∨ p.2 = S.2
  · have h0 : offAx S p = 0 := by rw [offAx, if_pos haxis]
    rw [h0] at hcost ⊢
    rw [hd] at hcost
    omega
  · have h1 : offAx S p = 1 := by rw [offAx, if_neg haxis]
    have hpen1 : 1 ≤ countAdjNe (movesOf (p :: rest)) := by
      by_contra hc
      have h0 : countAdjNe (movesOf (p :: rest)) = 0 := by omega
      exact haxis (head_on_axis_of_straight rest p S hch hlast h0)
    rw [h1] at hcost ⊢
    rw [hd] at hcost
    omega

end Lamp

namespace Lamp

/-- Structure of a walk with exactly one direction change: a first constant
block of `k` copies of the newest move, then a second constant block of a
different move `m1`, with the telescoped endpoint equation. -/
lemma two_block : ∀ (rest2 : List GPos) (p q S : GPos),
    (p :: q :: rest2).getLast? = some S →
    countAdjNe (movesOf (p :: q :: rest2)) = 1 →
    ∃ (k : Nat) (m1 : GPos),
      1 ≤ k ∧ (k : Int) < ((p :: q :: rest2).length : Int) - 1 ∧
      (∀ i : Nat, i ≤ k → (p :: q :: rest2)[i]? =
        some (p.1 - i * (p.1 - q.1), p.2 - i * (p.2 - q.2))) ∧
      m1 ≠ (p.1 - q.1, p.2 - q.2) ∧
      m1 ∈ movesOf (p :: q :: rest2) ∧
      S.1 = p.1 - k * (p.1 - q.1) -
        (((p :: q :: rest2).length : Int) - 1 - k) * m1.1 ∧
      S.2 = p.2 - k * (p.2 - q.2) -
        (((p :: q :: rest2).length : Int) - 1 - k) * m1.2 := by
  intro rest2
  induction rest2 with
  | nil =>
    intro p q S _ hcnt
    simp [movesOf, countAdjNe] at hcnt
  | cons r rest3 ih =>
    intro p q S hlast hcnt
    have hmv : movesOf (p :: q :: r :: rest3) =
        (p.1 - q.1, p.2 - q.2) :: movesOf (q :: r :: rest3) := rfl
    have hmv2 : movesOf (q :: r :: rest3) =
        (q.1 - r.1, q.2 - r.2) :: movesOf (r :: rest3) := rfl
    have hlast2 : (q :: r :: rest3).getLast? = some S := by
      rw [List.getLast?_cons_cons] at hlast
      exact hlast
    have hcnt2 : countAdjNe (movesOf (p :: q :: r :: rest3)) =
        (if ((p.1 - q.1, p.2 - q.2) : GPos) = (q.1 - r.1, q.2 - r.2)
          then (0 : Int) else 1) + countAdjNe (movesOf (q :: r :: rest3)) := by
      rw [hmv, hmv2]
      rfl
    by_cases he : ((p.1 - q.1, p.2 - q.2) : GPos) = (q.1 - r.1, q.2 - r.2)
    · rw [hcnt2, if_pos he] at hcnt
      have hrec : countAdjNe (movesOf (q :: r :: rest3)) = 1 := by omega
      obtain ⟨k, m1, hk1, hklt, hpos, hne, hmem, hS1, hS2⟩ :=
        ih q r S hlast2 hrec
      have he1 : p.1 - q.1 = q.1 - r.1 := congrArg Prod.fst he
      have he2 : p.2 - q.2 = q.2 - r.2 := congrArg Prod.snd he
      refine ⟨k + 1, m1, by omega, ?_, ?_, ?_, ?_, ?_, ?_⟩
      · simp only [List.length_cons] at hklt ⊢
        push_cast at hklt ⊢
        omega
      · intro i hi
        match i, hi with
        | 0, _ => simp
        | Nat.succ i, hi =>
          have hstep := hpos i (by omega)
          rw [List.getElem?_cons_succ, hstep]
          simp only [Option.some.injEq, Prod.mk.injEq]
          push_cast
          constructor <;> [rw [← he1]; rw [← he2]] <;> ring
      · rw [← he] at hne
        exact hne
      · rw [hmv]
        exact List.mem_cons_of_mem _ hmem
      · rw [← he1] at hS1
        simp only [List.length_cons] at hS1 ⊢
        push_cast at hS1 ⊢
        rw [hS1]
        ring
      · rw [← he2] at hS2
        simp only [List.length_cons] at hS2 ⊢
        push_cast at hS2 ⊢
        rw [hS2]
        ring
    · rw [hcnt2, if_neg he] at hcnt
      have hnn := countAdjNe_nonneg (movesOf (q :: r :: rest3))
      have hrec : countAdjNe (movesOf (q :: r :: rest3)) = 0 := by omega
      have hfin := straight_positions rest3 q r hrec ((r :: rest3).length)
        (by simp)
      have hlen2 : (q :: r :: rest3).length - 1 = (r :: rest3).length := by
        simp
      rw [getLast?_eq_getElem_len _ (by simp), hlen2, hfin] at hlast2
      have hS := (Option.some.inj hlast2).symm
      have hS1 : S.1 = q.1 - ((r :: rest3).length : Int) * (q.1 - r.1) :=
        congrArg Prod.fst hS
      have hS2 : S.2 = q.2 - ((r :: rest3).length : Int) * (q.2 - r.2) :=
        congrArg Prod.snd hS
      refine ⟨1, (q.1 - r.1, q.2 - r.2), le_refl 1, ?_, ?_, fun h => he h.symm,
        ?_, ?_, ?_⟩
      · simp only [List.length_cons]
        push_cast
        omega
      · intro i hi
        match i, hi with
        | 0, _ => simp
        | 1, _ =>
          simp only [List.getElem?_cons_succ, List.getElem?_cons_zero,
            Option.some.injEq]
          push_cast
          have h1 : p.1 - (1 : Int) * (p.1 - q.1) = q.1 := by ring
          have h2 : p.2 - (1 : Int) * (p.2 - q.2) = q.2 := by ring
          rw [h1, h2]
      · rw [hmv, hmv2]
        exact List.mem_cons_of_mem _ (List.mem_cons_self _ _)
      · rw [hS1]
        simp only [List.length_cons]
        push_cast
        ring
      · rw [hS2]
        simp only [List.length_cons]
        push_cast
        ring

end Lamp

namespace Lamp

lemma walkCost_nonneg (obstacles : List GPos) : ∀ c : List GPos,
    0 ≤ walkCost obstacles c := by
  intro c
  match c with
  | [] => exact le_refl 0
  | [p] => exact le_refl 0
  | [p, q] =>
    show 0 ≤ cellCost obstacles p
    unfold cellCost
    split <;> omega
  | p :: q :: r :: rest =>
    have ih := walkCost_nonneg obstacles (q :: r :: rest)
    show 0 ≤ cellCost obstacles p + stepPen r q p + _
    unfold cellCost stepPen
    split <;> split <;> omega

/-- A zero-cost walk is a single cell. -/
lemma rest_nil_of_cost_zero (obstacles : List GPos) (rest : List GPos)
    (p : GPos) (hcost : walkCost obstacles (p :: rest) = 0) : rest = [] := by
  match rest with
  | [] => rfl
  | q :: rest2 =>
    exfalso
    have hc2 : 2 ≤ walkCost obstacles (p :: q :: rest2) := by
      match rest2 with
      | [] =>
        show 2 ≤ cellCost obstacles p
        unfold cellCost
        split <;> omega
      | r :: rest3 =>
        have h1 := walkCost_nonneg obstacles (q :: r :: rest3)
        show 2 ≤ cellCost obstacles p + stepPen r q p + _
        unfold cellCost stepPen
        split <;> split <;> omega
    omega

/-- The second cell of an exact-cost walk to a cell on the x-axis through
`S`: the newest move is horizontal and points from `S`-ward to `p`. -/
lemma exact_second_xaxis (obstacles : List GPos) (rest2 : List GPos)
    (p q S : GPos) (hch : List.Chain' adjStep (p :: q :: rest2))
    (hlast : (p :: q :: rest2).getLast? = some S) (hax : p.2 = S.2)
    (hcost : walkCost obstacles (p :: q :: rest2) = gamma S p) :
    q.2 = p.2 ∧ (p.1 - q.1) * (p.1 - S.1) = |p.1 - S.1| ∧ |p.1 - q.1| = 1 := by
  obtain ⟨hlen, _, hcnt⟩ :=
    exact_chain_facts obstacles (q :: rest2) p S hch hlast hcost
  have h0 : offAx S p = 0 := by rw [offAx, if_pos (Or.inr hax)]
  rw [h0] at hcnt
  have hpos := straight_positions rest2 p q hcnt ((q :: rest2).length) (by simp)
  have hlen1 : (p :: q :: rest2).length - 1 = (q :: rest2).length := by simp
  rw [getLast?_eq_getElem_len _ (by simp), hlen1, hpos] at hlast
  have hS := (Option.some.inj hlast).symm
  have hS1 : S.1 = p.1 - ((q :: rest2).length : Int) * (p.1 - q.1) :=
    congrArg Prod.fst hS
  have hS2 : S.2 = p.2 - ((q :: rest2).length : Int) * (p.2 - q.2) :=
    congrArg Prod.snd hS
  have hm : ((p.1 - q.1, p.2 - q.2) : GPos) ∈ movesOf (p :: q :: rest2) :=
    List.mem_cons_self _ _
  have hunit := movesOf_unit _ hch _ hm
  simp only at hunit
  have hlenpos : (1 : Int) ≤ ((q :: rest2).length : Int) := by
    simp only [List.length_cons]
    push_cast
    omega
  have hq2 : p.2 - q.2 = 0 := by
    have hz : ((q :: rest2).length : Int) * (p.2 - q.2) = 0 := by omega
    rcases mul_eq_zero.mp hz with h | h
    · omega
    · exact h
  have habs1 : |p.1 - q.1| = 1 := by
    rw [hq2] at hunit
    simpa using hunit
  refine ⟨by omega, ?_, habs1⟩
  have hd : manhattanDist S p = |p.1 - S.1| := by
    simp only [manhattanDist]
    have : S.2 - p.2 = 0 := by omega
    rw [this]
    simp [abs_sub_comm]
  have hL : ((q :: rest2).length : Int) = |p.1 - S.1| := by
    simp only [List.length_cons] at hlen ⊢
    push_cast at hlen ⊢
    omega
  have hsq : (p.1 - q.1) * (p.1 - q.1) = 1 := by
    rcases (abs_eq (by norm_num : (0 : Int) ≤ 1)).mp habs1 with h | h <;>
      rw [h] <;> norm_num
  calc (p.1 - q.1) * (p.1 - S.1)
      = (p.1 - q.1) * (((q :: rest2).length : Int) * (p.1 - q.1)) := by
        rw [show ((q :: rest2).length : Int) * (p.1 - q.1) = p.1 - S.1 by omega]
    _ = ((q :: rest2).length : Int) * ((p.1 - q.1) * (p.1 - q.1)) := by ring
    _ = ((q :: rest2).length : Int) := by rw [hsq]; ring
    _ = |p.1 - S.1| := hL

end Lamp

namespace Lamp

/-- The second cell of an exact-cost walk to a cell on the y-axis through
`S`: the newest move is vertical and points from `S`-ward to `p`. -/
lemma exact_second_yaxis (obstacles : List GPos) (rest2 : List GPos)
    (p q S : GPos) (hch : List.Chain' adjStep (p :: q :: rest2))
    (hlast : (p :: q :: rest2).getLast? = some S) (hax : p.1 = S.1)
    (hcost : walkCost obstacles (p :: q :: rest2) = gamma S p) :
    q.1 = p.1 ∧ (p.2 - q.2) * (p.2 - S.2) = |p.2 - S.2| ∧ |p.2 - q.2| = 1 := by
  obtain ⟨hlen, _, hcnt⟩ :=
    exact_chain_facts obstacles (q :: rest2) p S hch hlast hcost
  have h0 : offAx S p = 0 := by rw [offAx, if_pos (Or.inl hax)]
  rw [h0] at hcnt
  have hpos := straight_positions rest2 p q hcnt ((q :: rest2).length) (by simp)
  have hlen1 : (p :: q :: rest2).length - 1 = (q :: rest2).length := by simp
  rw [getLast?_eq_getElem_len _ (by simp), hlen1, hpos] at hlast
  have hS := (Option.some.inj hlast).symm
  have hS1 : S.1 = p.1 - ((q :: rest2).length : Int) * (p.1 - q.1) :=
    congrArg Prod.fst hS
  have hS2 : S.2 = p.2 - ((q :: rest2).length : Int) * (p.2 - q.2) :=
    congrArg Prod.snd hS
  have hm : ((p.1 - q.1, p.2 - q.2) : GPos) ∈ movesOf (p :: q :: rest2) :=
    List.mem_cons_self _ _
  have hunit := movesOf_unit _ hch _ hm
  simp only at hunit
  have hlenpos : (1 : Int) ≤ ((q :: rest2).length : Int) := by
    simp only [List.length_cons]
    push_cast
    omega
  have hq1 : p.1 - q.1 = 0 := by
    have hz : ((q :: rest2).length : Int) * (p.1 - q.1) = 0 := by omega
    rcases mul_eq_zero.mp hz with h | h
    · omega
    · exact h
  have habs1 : |p.2 - q.2| = 1 := by
    rw [hq1] at hunit
    simpa using hunit
  refine ⟨by omega, ?_, habs1⟩
  have hd : manhattanDist S p = |p.2 - S.2| := by
    simp only [manhattanDist]
    have : S.1 - p.1 = 0 := by omega
    rw [this]
    simp [abs_sub_comm]
  have hL : ((q :: rest2).length : Int) = |p.2 - S.2| := by
    simp only [List.length_cons] at hlen ⊢
    push_cast at hlen ⊢
    omega
  have hsq : (p.2 - q.2) * (p.2 - q.2) = 1 := by
    rcases (abs_eq (by norm_num : (0 : Int) ≤ 1)).mp habs1 with h | h <;>
      rw [h] <;> norm_num
  calc (p.2 - q.2) * (p.2 - S.2)
      = (p.2 - q.2) * (((q :: rest2).length : Int) * (p.2 - q.2)) := by
        rw [show ((q :: rest2).length : Int) * (p.2 - q.2) = p.2 - S.2 by omega]
    _ = ((q :: rest2).length : Int) * ((p.2 - q.2) * (p.2 - q.2)) := by ring
    _ = ((q :: rest2).length : Int) := by rw [hsq]; ring
    _ = |p.2 - S.2| := hL

end Lamp

namespace Lamp

/-- Structure of an exact-cost walk to a cell off both axes through `S`:
one horizontal and one vertical monotone block. The newest block determines
the positions of the `|Δ|` newest cells. -/
lemma exact_offaxis_struct (obstacles : List GPos) (rest2 : List GPos)
    (p q S : GPos) (hch : List.Chain' adjStep (p :: q :: rest2))
    (hlast : (p :: q :: rest2).getLast? = some S)
    (hoff : ¬(p.1 = S.1 ∨ p.2 = S.2))
    (hcost : walkCost obstacles (p :: q :: rest2) = gamma S p) :
    (q.2 = p.2 ∧ (p.1 - q.1) * (p.1 - S.1) = |p.1 - S.1| ∧ |p.1 - q.1| = 1 ∧
      ∀ i : Nat, (i : Int) ≤ |p.1 - S.1| →
        (p :: q :: rest2)[i]? = some (p.1 - i * (p.1 - q.1), p.2)) ∨
    (q.1 = p.1 ∧ (p.2 - q.2) * (p.2 - S.2) = |p.2 - S.2| ∧ |p.2 - q.2| = 1 ∧
      ∀ i : Nat, (i : Int) ≤ |p.2 - S.2| →
        (p :: q :: rest2)[i]? = some (p.1, p.2 - i * (p.2 - q.2))) := by
  obtain ⟨hlen, _, hcnt⟩ :=
    exact_chain_facts obstacles (q :: rest2) p S hch hlast hcost
  have h1 : offAx S p = 1 := by rw [offAx, if_neg hoff]
  rw [h1] at hcnt
  obtain ⟨k, m1, hk1, hklt, hpos, hne, hmem, hS1, hS2⟩ :=
    two_block rest2 p q S hlast hcnt
  have hm : ((p.1 - q.1, p.2 - q.2) : GPos) ∈ movesOf (p :: q :: rest2) :=
    List.mem_cons_self _ _
  have hunit0 := movesOf_unit _ hch _ hm
  have hunit1 := movesOf_unit _ hch _ hmem
  simp only at hunit0
  have habs0 : 0 ≤ |p.1 - q.1| := abs_nonneg _
  have habs0b : 0 ≤ |p.2 - q.2| := abs_nonneg _
  have habs1 : 0 ≤ |m1.1| := abs_nonneg _
  have habs1b : 0 ≤ |m1.2| := abs_nonneg _
  by_cases hq2 : p.2 - q.2 = 0
  · -- newest block horizontal
    left
    have habsx : |p.1 - q.1| = 1 := by
      have : |p.2 - q.2| = 0 := abs_eq_zero.mpr hq2
      omega
    have hm12 : m1.1 = 0 := by
      by_cases hv : m1.2 = 0
      · exfalso
        have hz2 : |m1.2| = 0 := abs_eq_zero.mpr hv
        have hz1 : |m1.1| = 1 := by omega
        -- both blocks horizontal would put S on the x-axis through p
        have : S.2 = p.2 := by
          rw [hS2, hq2, hv]
          ring
        exact hoff (Or.inr this.symm)
      · have hvz : ¬ |m1.2| = 0 := fun h => hv (abs_eq_zero.mp h)
        exact abs_eq_zero.mp (by omega)
    have hS1' : S.1 = p.1 - (k : Int) * (p.1 - q.1) := by
      rw [hS1, hm12]
      ring
    have hsq : (p.1 - q.1) * (p.1 - q.1) = 1 := by
      rcases (abs_eq (by norm_num : (0 : Int) ≤ 1)).mp habsx with h | h <;>
        rw [h] <;> norm_num
    have hkval : (k : Int) = |p.1 - S.1| := by
      rw [show p.1 - S.1 = (k : Int) * (p.1 - q.1) by omega, abs_mul,
        Nat.abs_cast, habsx]
      ring
    refine ⟨by omega, ?_, habsx, ?_⟩
    · calc (p.1 - q.1) * (p.1 - S.1)
          = (p.1 - q.1) * ((k : Int) * (p.1 - q.1)) := by
            rw [show (k : Int) * (p.1 - q.1) = p.1 - S.1 by omega]
        _ = (k : Int) * ((p.1 - q.1) * (p.1 - q.1)) := by ring
        _ = (k : Int) := by rw [hsq]; ring
        _ = |p.1 - S.1| := hkval
    · intro i hi
      have hik : i ≤ k := by
        rw [← hkval] at hi
        exact_mod_cast hi
      have := hpos i hik
      rw [this, hq2]
      simp only [Option.some.injEq, Prod.mk.injEq]
      constructor <;> first | trivial | ring
  · -- newest block vertical
    right
    have hq1 : p.1 - q.1 = 0 := by
      have hvz : ¬ |p.2 - q.2| = 0 := fun h => hq2 (abs_eq_zero.mp h)
      exact abs_eq_zero.mp (by omega)
    have habsy : |p.2 - q.2| = 1 := by
      have : |p.1 - q.1| = 0 := abs_eq_zero.mpr hq1
      omega
    have hm11 : m1.2 = 0 := by
      by_cases hv : m1.1 = 0
      · exfalso
        have hz2 : |m1.1| = 0 := abs_eq_zero.mpr hv
        have hz1 : |m1.2| = 1 := by omega
        have : S.1 = p.1 := by
          rw [hS1, hq1, hv]
          ring
        exact hoff (Or.inl this.symm)
      · have hvz : ¬ |m1.1| = 0 := fun h => hv (abs_eq_zero.mp h)
        exact abs_eq_zero.mp (by omega)
    have hS2' : S.2 = p.2 - (k : Int) * (p.2 - q.2) := by
      rw [hS2, hm11]
      ring
    have hsq : (p.2 - q.2) * (p.2 - q.2) = 1 := by
      rcases (abs_eq (by norm_num : (0 : Int) ≤ 1)).mp habsy with h | h <;>
        rw [h] <;> norm_num
    have hkval : (k : Int) = |p.2 - S.2| := by
      rw [show p.2 - S.2 = (k : Int) * (p.2 - q.2) by omega, abs_mul,
        Nat.abs_cast, habsy]
      ring
    refine ⟨by omega, ?_, habsy, ?_⟩
    · calc (p.2 - q.2) * (p.2 - S.2)
          = (p.2 - q.2) * ((k : Int) * (p.2 - q.2)) := by
            rw [show (k : Int) * (p.2 - q.2) = p.2 - S.2 by omega]
        _ = (k : Int) * ((p.2 - q.2) * (p.2 - q.2)) := by ring
        _ = (k : Int) := by rw [hsq]; ring
        _ = |p.2 - S.2| := hkval
    · intro i hi
      have hik : i ≤ k := by
        rw [← hkval] at hi
        exact_mod_cast hi
      have := hpos i hik
      rw [this, hq1]
      simp only [Option.some.injEq, Prod.mk.injEq]
      constructor <;> first | trivial | ring

end Lamp

namespace Lamp

/-! ### Correctness of the embedded CPython heap (permutation side) -/

/-- The binary-heap invariant maintained by `heapq`: no child compares
`<` its parent. -/
def heapProp {α : Type} (lt : α → α → Bool) (l : List α) : Prop :=
  ∀ (i : Nat) (a b : α), 0 < i → l[i]? = some a → l[(i - 1) / 2]? = some b →
    lt a b = false

lemma cons_set_perm {α : Type} : ∀ (l : List α) (k : Nat) (v x : α),
    l[k]? = some v → List.Perm (v :: l.set k x) (x :: l) := by
  intro l
  induction l with
  | nil => intro k v x hv; simp at hv
  | cons a t ih =>
    intro k v x hv
    match k with
    | 0 =>
      simp only [List.getElem?_cons_zero, Option.some.injEq] at hv
      rw [hv, List.set_cons_zero]
      exact List.Perm.swap x v t
    | Nat.succ k =>
      simp only [List.getElem?_cons_succ] at hv
      rw [List.set_cons_succ]
      exact ((List.Perm.swap a v _).trans ((ih k v x hv).cons a)).trans
        (List.Perm.swap x a t)

/-- Writing `l[j]` into slot `i` and a new value into slot `j` permutes
with writing the new value straight into slot `i`. -/
lemma set_set_perm {α : Type} : ∀ (l : List α) (i j : Nat) (x v : α),
    i < j → l[j]? = some v →
    List.Perm ((l.set i v).set j x) (l.set i x) := by
  intro l
  induction l with
  | nil => intro i j x v _ hv; simp at hv
  | cons a t ih =>
    intro i j x v hij hv
    match j, hij with
    | Nat.succ j, _ =>
      simp only [List.getElem?_cons_succ] at hv
      match i with
      | 0 =>
        rw [List.set_cons_zero, List.set_cons_succ, List.set_cons_zero]
        exact cons_set_perm t j v x hv
      | Nat.succ i =>
        rw [List.set_cons_succ, List.set_cons_succ, List.set_cons_succ]
        exact List.Perm.cons a (ih i j x v (by omega) hv)

/-- Mirror image of `set_set_perm`: the old value of slot `i` moves down to
slot `j` while a new value lands in slot `i`. -/
lemma set_swap_perm {α : Type} : ∀ (l : List α) (i j : Nat) (x w : α),
    i < j → j < l.length → l[i]? = some w →
    List.Perm ((l.set j w).set i x) (l.set j x) := by
  intro l
  induction l with
  | nil => intro i j x w _ hj _; simp at hj
  | cons a t ih =>
    intro i j x w hij hj hw
    match j, hij with
    | Nat.succ j, _ =>
      match i with
      | 0 =>
        simp only [List.getElem?_cons_zero, Option.some.injEq] at hw
        rw [List.set_cons_succ, List.set_cons_zero, List.set_cons_succ]
        have h1 : (t.set j w)[j]? = some w :=
          List.getElem?_set_self (by simp at hj; omega)
        have h2 := cons_set_perm (t.set j w) j w x h1
        rw [List.set_set] at h2
        rw [hw]
        exact h2.symm
      | Nat.succ i =>
        simp only [List.getElem?_cons_succ] at hw
        rw [List.set_cons_succ, List.set_cons_succ, List.set_cons_succ]
        exact List.Perm.cons a (ih i j x w (by omega) (by simp at hj; omega) hw)

lemma siftdownGo_perm {α : Type} (lt : α → α → Bool) (newitem : α) :
    ∀ (fuel : Nat) (l : List α) (startpos pos : Nat), pos < l.length →
      List.Perm (siftdownGo lt newitem fuel l startpos pos)
        (l.set pos newitem) := by
  intro fuel
  induction fuel with
  | zero => intro l startpos pos _; exact List.Perm.refl _
  | succ f ih =>
    intro l startpos pos hpos
    rw [siftdownGo]
    by_cases h1 : startpos < pos
    · rw [if_pos h1]
      set parentpos := (pos - 1) / 2 with hpp
      have hpplt : parentpos < pos := by omega
      have hppl : parentpos < l.length := by omega
      have hparent : l[parentpos]? = some (l.getD parentpos newitem) := by
        rw [List.getD_eq_getElem l _ hppl]
        exact List.getElem?_eq_getElem hppl
      by_cases h2 : lt newitem (l.getD parentpos newitem) = true
      · rw [if_pos h2]
        have hrec := ih (l.set pos (l.getD parentpos newitem)) startpos
          parentpos (by rw [List.length_set]; omega)
        refine hrec.trans ?_
        exact set_swap_perm l parentpos pos newitem
          (l.getD parentpos newitem) hpplt hpos hparent
      · rw [if_neg h2]
    · rw [if_neg h1]

end Lamp

namespace Lamp

lemma siftupGo_perm {α : Type} (lt : α → α → Bool) :
    ∀ (fuel : Nat) (l : List α) (pos : Nat) (newitem : α) (startpos : Nat),
      pos < l.length →
      List.Perm (siftupGo lt fuel l pos newitem startpos)
        (l.set pos newitem) := by
  intro fuel
  induction fuel with
  | zero =>
    intro l pos newitem startpos hpos
    exact siftdownGo_perm lt newitem pos l startpos pos hpos
  | succ f ih =>
    intro l pos newitem startpos hpos
    rw [siftupGo]
    by_cases h1 : 2 * pos + 1 < l.length
    · rw [if_pos h1]
      by_cases h2 : 2 * pos + 2 < l.length ∧
          ¬ lt (l.getD (2 * pos + 1) newitem) (l.getD (2 * pos + 2) newitem)
            = true
      · rw [if_pos h2]
        have hcl : 2 * pos + 2 < l.length := h2.1
        have hchild : l[2 * pos + 2]? = some (l.getD (2 * pos + 2) newitem) := by
          rw [List.getD_eq_getElem l _ hcl]
          exact List.getElem?_eq_getElem hcl
        have hrec := ih (l.set pos (l.getD (2 * pos + 2) newitem))
          (2 * pos + 2) newitem startpos (by rw [List.length_set]; omega)
        refine hrec.trans ?_
        exact set_set_perm l pos (2 * pos + 2) newitem
          (l.getD (2 * pos + 2) newitem) (by omega) hchild
      · rw [if_neg h2]
        have hchild : l[2 * pos + 1]? = some (l.getD (2 * pos + 1) newitem) := by
          rw [List.getD_eq_getElem l _ h1]
          exact List.getElem?_eq_getElem h1
        have hrec := ih (l.set pos (l.getD (2 * pos + 1) newitem))
          (2 * pos + 1) newitem startpos (by rw [List.length_set]; omega)
        refine hrec.trans ?_
        exact set_set_perm l pos (2 * pos + 1) newitem
          (l.getD (2 * pos + 1) newitem) (by omega) hchild
    · rw [if_neg h1]
      exact siftdownGo_perm lt newitem pos l startpos pos hpos

lemma set_append_singleton {α : Type} : ∀ (l : List α) (x y : α),
    (l ++ [x]).set l.length y = l ++ [y] := by
  intro l
  induction l with
  | nil => intro x y; rfl
  | cons a t ih =>
    intro x y
    show a :: (t ++ [x]).set t.length y = a :: (t ++ [y])
    rw [ih]

lemma heappush_perm {α : Type} (lt : α → α → Bool) (heap : List α) (item : α) :
    List.Perm (heappush lt heap item) (item :: heap) := by
  unfold heappush
  have h1 := siftdownGo_perm lt item heap.length (heap ++ [item]) 0
    heap.length (by simp)
  rw [set_append_singleton] at h1
  exact h1.trans (List.perm_append_singleton item heap)

lemma dropLast_append_getLast? {α : Type} : ∀ (l : List α) (x : α),
    l.getLast? = some x → l.dropLast ++ [x] = l := by
  intro l
  induction l with
  | nil => intro x hx; simp at hx
  | cons a t ih =>
    intro x hx
    match t, ih with
    | [], _ =>
      simp only [List.getLast?_singleton, Option.some.injEq] at hx
      rw [hx]
      rfl
    | b :: t2, ih =>
      rw [List.getLast?_cons_cons] at hx
      show a :: ((b :: t2).dropLast ++ [x]) = a :: (b :: t2)
      rw [ih x hx]

lemma heappop_perm {α : Type} (lt : α → α → Bool) (heap : List α) (r : α)
    (heap2 : List α) (h : heappop lt heap = some (r, heap2)) :
    List.Perm heap (r :: heap2) := by
  unfold heappop at h
  rcases hl : heap.getLast? with _ | lastelt
  · rw [hl] at h; exact absurd h (by simp)
  · rw [hl] at h
    have hsplit := dropLast_append_getLast? heap lastelt hl
    rcases hr : heap.dropLast with _ | ⟨r0, tail⟩
    · rw [hr] at h
      simp only [Option.some.injEq, Prod.mk.injEq] at h
      obtain ⟨he1, he2⟩ := h
      rw [hr] at hsplit
      rw [← hsplit, ← he1, ← he2]
      exact List.Perm.refl _
    · rw [hr] at h
      simp only [Option.some.injEq, Prod.mk.injEq] at h
      obtain ⟨he1, he2⟩ := h
      have hlen : 0 < (r0 :: tail).length := by simp
      have hperm := siftupGo_perm lt (r0 :: tail).length
        ((r0 :: tail).set 0 lastelt) 0 lastelt 0 (by simp)
      rw [List.set_set] at hperm
      have hset : (r0 :: tail).set 0 lastelt = lastelt :: tail := rfl
      rw [hset] at hperm
      rw [← hsplit, hr, ← he1, ← he2]
      refine List.Perm.trans ?_ ((hperm.symm).cons r0)
      show List.Perm (r0 :: tail ++ [lastelt]) (r0 :: lastelt :: tail)
      exact (List.perm_append_singleton lastelt tail).cons r0

end Lamp

namespace Lamp

/-! ### Correctness of the embedded CPython heap (order side) -/

lemma getElem?_bound {α : Type} {l : List α} {i : Nat} {a : α}
    (h : l[i]? = some a) : i < l.length :=
  (List.getElem?_eq_some_iff.mp h).1

/-- Placing `newitem` into the hole at `pos` yields a heap, given the
heap property away from the hole, domination of the hole's children, and
domination of `newitem` by the hole's parent. -/
lemma place_heapProp {α : Type} (lt : α → α → Bool) (l : List α) (pos : Nat)
    (newitem : α) (hpos : pos < l.length)
    (ha : ∀ (i : Nat) (a b : α), 0 < i → i ≠ pos → l[i]? = some a →
      l[(i - 1) / 2]? = some b → lt a b = false)
    (hb : ∀ (c : Nat) (cv : α), (c = 2 * pos + 1 ∨ c = 2 * pos + 2) →
      l[c]? = some cv → lt cv newitem = false)
    (hbreak : ∀ pv : α, 0 < pos → l[(pos - 1) / 2]? = some pv →
      lt newitem pv = false) :
    heapProp lt (l.set pos newitem) := by
  intro i a b hi hia hib
  by_cases hip : i = pos
  · have ha' : a = newitem := by
      rw [hip, List.getElem?_set_self hpos] at hia
      exact (Option.some.inj hia).symm
    have hparpos : (i - 1) / 2 ≠ pos := by omega
    rw [List.getElem?_set_ne (fun hc => hparpos hc.symm)] at hib
    rw [hip] at hib
    rw [ha']
    exact hbreak b (by omega) hib
  · rw [List.getElem?_set_ne (fun hc => hip hc.symm)] at hia
    by_cases hpp : (i - 1) / 2 = pos
    · have hb' : b = newitem := by
        rw [hpp, List.getElem?_set_self hpos] at hib
        exact (Option.some.inj hib).symm
      have hchild : i = 2 * pos + 1 ∨ i = 2 * pos + 2 := by omega
      rw [hb']
      exact hb i a hchild hia
    · rw [List.getElem?_set_ne (fun hc => hpp hc.symm)] at hib
      exact ha i a b hi hip hia hib

lemma siftdownGo_heapProp {α : Type} (lt : α → α → Bool)
    (hirr : ∀ a, lt a a = false)
    (hasym : ∀ a b, lt a b = true → lt b a = false)
    (htrans : ∀ a b c, lt b a = false → lt c b = false → lt c a = false)
    (htrans2 : ∀ a b c, lt a b = true → lt c b = false → lt c a = false) :
    ∀ (fuel : Nat) (l : List α) (pos : Nat) (newitem : α),
      pos ≤ fuel → pos < l.length →
      (∀ (i : Nat) (a b : α), 0 < i → i ≠ pos → l[i]? = some a →
        l[(i - 1) / 2]? = some b → lt a b = false) →
      (∀ (c : Nat) (cv : α), (c = 2 * pos + 1 ∨ c = 2 * pos + 2) →
        l[c]? = some cv → lt cv newitem = false ∧
          ∀ pv : α, 0 < pos → l[(pos - 1) / 2]? = some pv →
            lt cv pv = false) →
      heapProp lt (siftdownGo lt newitem fuel l 0 pos) := by
  intro fuel
  induction fuel with
  | zero =>
    intro l pos newitem hf hpos ha hb
    have hp0 : pos = 0 := by omega
    subst hp0
    exact place_heapProp lt l 0 newitem hpos ha
      (fun c cv hc hcv => (hb c cv hc hcv).1) (fun pv h0 _ => absurd h0 (by omega))
  | succ f ih =>
    intro l pos newitem hf hpos ha hb
    rw [siftdownGo]
    by_cases h1 : 0 < pos
    · rw [if_pos h1]
      set pp := (pos - 1) / 2 with hppdef
      have hpplt : pp < pos := by omega
      have hppl : pp < l.length := by omega
      set parent := l.getD pp newitem with hpardef
      have hparent : l[pp]? = some parent := by
        rw [hpardef, List.getD_eq_getElem l _ hppl]
        exact List.getElem?_eq_getElem hppl
      by_cases h2 : lt newitem parent = true
      · rw [if_pos h2]
        have hchildpos : pos = 2 * pp + 1 ∨ pos = 2 * pp + 2 := by omega
        refine ih (l.set pos parent) pp newitem (by omega)
          (by rw [List.length_set]; omega) ?_ ?_
        · -- heap property away from the new hole
          intro i a b hi hipp hia hib
          by_cases hip : i = pos
          · -- the filled slot against its parent: both hold `parent`
            have ha' : a = parent := by
              rw [hip, List.getElem?_set_self hpos] at hia
              exact (Option.some.inj hia).symm
            have hppne : (i - 1) / 2 ≠ pos := by omega
            rw [List.getElem?_set_ne (fun hc => hppne hc.symm)] at hib
            have hb' : b = parent := by
              rw [hip] at hib
              rw [← hppdef] at hib
              rw [hib] at hparent
              exact (Option.some.inj hparent)
            rw [ha', hb']
            exact hirr parent
          · rw [List.getElem?_set_ne (fun hc => hip hc.symm)] at hia
            by_cases hpi : (i - 1) / 2 = pos
            · -- a sibling subtree child whose parent slot now holds `parent`
              have hb' : b = parent := by
                rw [hpi, List.getElem?_set_self hpos] at hib
                exact (Option.some.inj hib).symm
              have hchild : i = 2 * pos + 1 ∨ i = 2 * pos + 2 := by omega
              rw [hb']
              exact (hb i a hchild hia).2 parent h1 hparent
            · rw [List.getElem?_set_ne (fun hc => hpi hc.symm)] at hib
              exact ha i a b hi hip hia hib
        · -- children of the new hole are dominated
          intro c cv hc hcv
          by_cases hcpos : c = pos
          · have hcv' : cv = parent := by
              rw [hcpos, List.getElem?_set_self hpos] at hcv
              exact (Option.some.inj hcv).symm
            refine ⟨by rw [hcv']; exact hasym _ _ h2, ?_⟩
            intro pv hpp0 hpv
            have hgpne : (pp - 1) / 2 ≠ pos := by omega
            rw [List.getElem?_set_ne (fun hc2 => hgpne hc2.symm)] at hpv
            rw [hcv']
            exact ha pp parent pv hpp0 (by omega) hparent hpv
          · have hcne : c ≠ pos := hcpos
            rw [List.getElem?_set_ne (fun hc2 => hcne hc2.symm)] at hcv
            have hcpar : (c - 1) / 2 = pp := by omega
            have hc0 : 0 < c := by omega
            have hcparent : lt cv parent = false :=
              ha c cv parent hc0 hcne hcv (by rw [hcpar]; exact hparent)
            refine ⟨htrans2 newitem parent cv h2 hcparent, ?_⟩
            intro pv hpp0 hpv
            have hgpne : (pp - 1) / 2 ≠ pos := by omega
            rw [List.getElem?_set_ne (fun hc2 => hgpne hc2.symm)] at hpv
            have hparpv : lt parent pv = false :=
              ha pp parent pv hpp0 (by omega) hparent hpv
            exact htrans pv parent cv hparpv hcparent
      · rw [if_neg h2]
        refine place_heapProp lt l pos newitem hpos ha
          (fun c cv hc hcv => (hb c cv hc hcv).1) ?_
        intro pv h0 hpv
        rw [hpv] at hparent
        have : pv = parent := Option.some.inj hparent
        rw [this]
        exact (Bool.not_eq_true (lt newitem parent)) ▸ h2
    · rw [if_neg h1]
      have hp0 : pos = 0 := by omega
      subst hp0
      exact place_heapProp lt l 0 newitem hpos ha
        (fun c cv hc hcv => (hb c cv hc hcv).1)
        (fun pv h0 _ => absurd h0 (by omega))

end Lamp

namespace Lamp

lemma siftupGo_heapProp {α : Type} (lt : α → α → Bool)
    (hirr : ∀ a, lt a a = false)
    (hasym : ∀ a b, lt a b = true → lt b a = false)
    (htrans : ∀ a b c, lt b a = false → lt c b = false → lt c a = false)
    (htrans2 : ∀ a b c, lt a b = true → lt c b = false → lt c a = false) :
    ∀ (fuel : Nat) (l : List α) (pos : Nat) (newitem : α),
      l.length ≤ fuel + pos → pos < l.length →
      (∀ (i : Nat) (a b : α), 0 < i → i ≠ pos → (i - 1) / 2 ≠ pos →
        l[i]? = some a → l[(i - 1) / 2]? = some b → lt a b = false) →
      (∀ (c : Nat) (cv pv : α), (c = 2 * pos + 1 ∨ c = 2 * pos + 2) →
        0 < pos → l[c]? = some cv → l[(pos - 1) / 2]? = some pv →
        lt cv pv = false) →
      heapProp lt (siftupGo lt fuel l pos newitem 0) := by
  intro fuel
  induction fuel with
  | zero =>
    intro l pos newitem hf hpos _ _
    omega
  | succ f ih =>
    intro l pos newitem hf hpos hi hii
    rw [siftupGo]
    by_cases h1 : 2 * pos + 1 < l.length
    · rw [if_pos h1]
      have hstep : ∀ cp : Nat, (cp = 2 * pos + 1 ∨ cp = 2 * pos + 2) →
          cp < l.length →
          (∀ (o : Nat) (ov : α), (o = 2 * pos + 1 ∨ o = 2 * pos + 2) →
            o ≠ cp → l[o]? = some ov → lt ov (l.getD cp newitem) = false) →
          heapProp lt (siftupGo lt f (l.set pos (l.getD cp newitem)) cp
            newitem 0) := by
        intro cp hcp hcpl hsel
        set childval := l.getD cp newitem with hcvdef
        have hchild : l[cp]? = some childval := by
          rw [hcvdef, List.getD_eq_getElem l _ hcpl]
          exact List.getElem?_eq_getElem hcpl
        refine ih (l.set pos childval) cp newitem
          (by rw [List.length_set]; omega) (by rw [List.length_set]; omega)
          ?_ ?_
        · intro i a b h0i hicp hpicp hia hib
          by_cases hip : i = pos
          · -- the filled slot against its parent
            have h0pos : 0 < pos := by omega
            have ha' : a = childval := by
              rw [hip, List.getElem?_set_self hpos] at hia
              exact (Option.some.inj hia).symm
            have hppne : (i - 1) / 2 ≠ pos := by omega
            rw [List.getElem?_set_ne (fun hc => hppne hc.symm)] at hib
            rw [hip] at hib
            rw [ha']
            exact hii cp childval b hcp h0pos hchild hib
          · rw [List.getElem?_set_ne (fun hc => hip hc.symm)] at hia
            by_cases hpi : (i - 1) / 2 = pos
            · -- the sibling of the selected child against the moved value
              have hb' : b = childval := by
                rw [hpi, List.getElem?_set_self hpos] at hib
                exact (Option.some.inj hib).symm
              have hchild2 : i = 2 * pos + 1 ∨ i = 2 * pos + 2 := by omega
              rw [hb']
              exact hsel i a hchild2 hicp hia
            · rw [List.getElem?_set_ne (fun hc => hpi hc.symm)] at hib
              exact hi i a b h0i hip hpi hia hib
        · intro c cv pv hc h0cp hcv hpv
          have hcpos : (cp - 1) / 2 = pos := by omega
          have hcne : c ≠ pos := by omega
          have hcppos : c ≠ cp := by omega
          have hcpar : (c - 1) / 2 = cp := by omega
          rw [List.getElem?_set_ne (fun h => hcne h.symm)] at hcv
          rw [hcpos, List.getElem?_set_self hpos] at hpv
          have hpv' : pv = childval := (Option.some.inj hpv).symm
          rw [hpv']
          exact hi c cv childval (by omega) hcne (by omega) hcv
            (by rw [hcpar]; exact hchild)
      by_cases h2 : 2 * pos + 2 < l.length ∧
          ¬ lt (l.getD (2 * pos + 1) newitem) (l.getD (2 * pos + 2) newitem)
            = true
      · rw [if_pos h2]
        refine hstep (2 * pos + 2) (Or.inr rfl) h2.1 ?_
        intro o ov ho hone hov
        have ho1 : o = 2 * pos + 1 := by omega
        have hov' : ov = l.getD (2 * pos + 1) newitem := by
          rw [ho1] at hov
          have hx : l[2 * pos + 1]? = some (l.getD (2 * pos + 1) newitem) := by
            rw [List.getD_eq_getElem l _ h1]
            exact List.getElem?_eq_getElem h1
          rw [hov] at hx
          exact Option.some.inj hx
        rw [hov']
        exact (Bool.not_eq_true _) ▸ h2.2
      · rw [if_neg h2]
        refine hstep (2 * pos + 1) (Or.inl rfl) h1 ?_
        intro o ov ho hone hov
        have ho2 : o = 2 * pos + 2 := by omega
        have ho2l : 2 * pos + 2 < l.length := by
          rw [← ho2]
          exact getElem?_bound hov
        have hlt : lt (l.getD (2 * pos + 1) newitem)
            (l.getD (2 * pos + 2) newitem) = true := by
          by_contra hc
          exact h2 ⟨ho2l, hc⟩
        have hov' : ov = l.getD (2 * pos + 2) newitem := by
          rw [ho2] at hov
          have hx : l[2 * pos + 2]? = some (l.getD (2 * pos + 2) newitem) := by
            rw [List.getD_eq_getElem l _ ho2l]
            exact List.getElem?_eq_getElem ho2l
          rw [hov] at hx
          exact Option.some.inj hx
        rw [hov']
        exact hasym _ _ hlt
    · rw [if_neg h1]
      refine siftdownGo_heapProp lt hirr hasym htrans htrans2 pos l pos
        newitem (le_refl pos) hpos ?_ ?_
      · intro i a b h0i hip hia hib
        have hpar : (i - 1) / 2 ≠ pos := by
          intro hc
          have : l.length ≤ i := by omega
          rw [List.getElem?_eq_none this] at hia
          exact absurd hia (by simp)
        exact hi i a b h0i hip hpar hia hib
      · intro c cv hc hcv
        have : l.length ≤ c := by omega
        rw [List.getElem?_eq_none this] at hcv
        exact absurd hcv (by simp)

end Lamp

namespace Lamp

lemma heappush_heapProp {α : Type} (lt : α → α → Bool)
    (hirr : ∀ a, lt a a = false)
    (hasym : ∀ a b, lt a b = true → lt b a = false)
    (htrans : ∀ a b c, lt b a = false → lt c b = false → lt c a = false)
    (htrans2 : ∀ a b c, lt a b = true → lt c b = false → lt c a = false)
    (heap : List α) (item : α) (hp : heapProp lt heap) :
    heapProp lt (heappush lt heap item) := by
  unfold heappush
  refine siftdownGo_heapProp lt hirr hasym htrans htrans2 heap.length
    (heap ++ [item]) heap.length item (le_refl _) (by simp) ?_ ?_
  · intro i a b h0i hine hia hib
    have hil : i < (heap ++ [item]).length := getElem?_bound hia
    have hilt : i < heap.length := by
      simp only [List.length_append, List.length_singleton] at hil
      omega
    rw [List.getElem?_append_left hilt] at hia
    rw [List.getElem?_append_left (by omega : (i - 1) / 2 < heap.length)] at hib
    exact hp i a b h0i hia hib
  · intro c cv hc hcv
    have hcl : c < (heap ++ [item]).length := getElem?_bound hcv
    simp only [List.length_append, List.length_singleton] at hcl
    omega

lemma heappop_heapProp {α : Type} (lt : α → α → Bool)
    (hirr : ∀ a, lt a a = false)
    (hasym : ∀ a b, lt a b = true → lt b a = false)
    (htrans : ∀ a b c, lt b a = false → lt c b = false → lt c a = false)
    (htrans2 : ∀ a b c, lt a b = true → lt c b = false → lt c a = false)
    (heap : List α) (r : α) (heap2 : List α) (hp : heapProp lt heap)
    (h : heappop lt heap = some (r, heap2)) : heapProp lt heap2 := by
  unfold heappop at h
  rcases hl : heap.getLast? with _ | lastelt
  · rw [hl] at h; exact absurd h (by simp)
  · rw [hl] at h
    have hsplit := dropLast_append_getLast? heap lastelt hl
    rcases hr : heap.dropLast with _ | ⟨r0, tail⟩
    · rw [hr] at h
      simp only [Option.some.injEq, Prod.mk.injEq] at h
      rw [← h.2]
      intro i a b h0i hia _
      simp at hia
    · rw [hr] at h
      simp only [Option.some.injEq, Prod.mk.injEq] at h
      rw [← h.2]
      have hrest : ∀ (i : Nat) (a : α), (r0 :: tail)[i]? = some a →
          heap[i]? = some a := by
        intro i a hia
        have hil : i < (r0 :: tail).length := getElem?_bound hia
        rw [← hsplit, hr]
        rw [List.getElem?_append_left hil]
        exact hia
      refine siftupGo_heapProp lt hirr hasym htrans htrans2
        (r0 :: tail).length ((r0 :: tail).set 0 lastelt) 0 lastelt
        (by rw [List.length_set]; omega) (by rw [List.length_set]; simp) ?_ ?_
      · intro i a b h0i hine hpine hia hib
        rw [List.getElem?_set_ne (fun hc => hine hc.symm)] at hia
        rw [List.getElem?_set_ne (fun hc => hpine hc.symm)] at hib
        exact hp i a b h0i (hrest i a hia) (hrest _ b hib)
      · intro c cv pv hc h0 hcv hpv
        omega

lemma heapProp_root_min {α : Type} (lt : α → α → Bool)
    (hirr : ∀ a, lt a a = false)
    (htrans : ∀ a b c, lt b a = false → lt c b = false → lt c a = false)
    (l : List α) (hp : heapProp lt l) (r : α) (hr : l[0]? = some r) :
    ∀ (i : Nat) (a : α), l[i]? = some a → lt a r = false := by
  intro i
  induction i using Nat.strong_induction_on with
  | _ i ih =>
    intro a hia
    match i, ih with
    | 0, _ =>
      rw [hia] at hr
      have : a = r := Option.some.inj hr
      rw [this]
      exact hirr r
    | Nat.succ i, ih =>
      have hil : i + 1 < l.length := getElem?_bound hia
      have hpl : (i + 1 - 1) / 2 < l.length := by omega
      rcases hpar : l[(i + 1 - 1) / 2]? with _ | b
      · have hx := List.getElem?_eq_getElem hpl
        rw [hpar] at hx
        exact absurd hx (by simp)
      · have h1 : lt a b = false := hp (i + 1) a b (by omega) hia hpar
        have h2 : lt b r = false := ih ((i + 1 - 1) / 2) (by omega) b hpar
        exact htrans r b a h2 h1

lemma heappop_min {α : Type} (lt : α → α → Bool)
    (hirr : ∀ a, lt a a = false)
    (htrans : ∀ a b c, lt b a = false → lt c b = false → lt c a = false)
    (heap : List α) (r : α) (heap2 : List α) (hp : heapProp lt heap)
    (h : heappop lt heap = some (r, heap2)) :
    ∀ x ∈ heap, lt x r = false := by
  unfold heappop at h
  rcases hl : heap.getLast? with _ | lastelt
  · rw [hl] at h; exact absurd h (by simp)
  · rw [hl] at h
    have hsplit := dropLast_append_getLast? heap lastelt hl
    rcases hr : heap.dropLast with _ | ⟨r0, tail⟩
    · rw [hr] at h
      simp only [Option.some.injEq, Prod.mk.injEq] at h
      rw [hr] at hsplit
      intro x hx
      rw [← hsplit] at hx
      simp only [List.nil_append, List.mem_singleton] at hx
      rw [hx, ← h.1]
      exact hirr _
    · rw [hr] at h
      simp only [Option.some.injEq, Prod.mk.injEq] at h
      have hr0 : heap[0]? = some r0 := by
        rw [← hsplit, hr]
        simp
      intro x hx
      obtain ⟨i, hi⟩ := List.mem_iff_getElem?.mp hx
      rw [← h.1]
      exact heapProp_root_min lt hirr htrans heap hp r0 hr0 i x hi

end Lamp

namespace Lamp

/-! ### The instrumented A* loop

Identical control flow to `astarLoop`, but the closed set is carried as a
map from each closed cell to the node that was expanded there. Projecting
the map to its domain recovers `astarLoop` exactly. -/

lemma nodeLt_irr (a : AstarNode) : nodeLt a a = false := by
  simp [nodeLt]

lemma nodeLt_asym (a b : AstarNode) (h : nodeLt a b = true) :
    nodeLt b a = false := by
  simp only [nodeLt, decide_eq_true_eq] at h
  simp only [nodeLt, decide_eq_false_iff_not]
  omega

lemma nodeLt_trans (a b c : AstarNode) (h1 : nodeLt b a = false)
    (h2 : nodeLt c b = false) : nodeLt c a = false := by
  simp only [nodeLt, decide_eq_false_iff_not] at h1 h2 ⊢
  omega

lemma nodeLt_trans2 (a b c : AstarNode) (h1 : nodeLt a b = true)
    (h2 : nodeLt c b = false) : nodeLt c a = false := by
  simp only [nodeLt, decide_eq_true_eq] at h1
  simp only [nodeLt, decide_eq_false_iff_not] at h2 ⊢
  omega

def astarLoopI (obstacles : List GPos) (goal start : GPos) :
    Nat → List AstarNode → (GPos → Option Int) → (GPos → Option AstarNode) →
      Option (List GPos)
  | 0, _, _, _ => none
  | Nat.succ fuel, heap, gs, cmap =>
    match heappop nodeLt heap with
    | none => some [start, (goal.1, start.2), goal]
    | some (current, heap2) =>
      if current.pos = goal then
        some (chainPositions current).reverse
      else if (cmap current.pos).isSome then
        astarLoopI obstacles goal start fuel heap2 gs cmap
      else
        let cmap2 : GPos → Option AstarNode :=
          fun p => if p = current.pos then some current else cmap p
        let st := expandNeighbors obstacles goal current
          (fun p => (cmap2 p).isSome) (getNeighbors current.pos) (heap2, gs)
        astarLoopI obstacles goal start fuel st.1 st.2 cmap2

lemma astarLoopI_proj (obstacles : List GPos) (goal start : GPos) :
    ∀ (fuel : Nat) (heap : List AstarNode) (gs : GPos → Option Int)
      (cmap : GPos → Option AstarNode),
      astarLoop obstacles goal start fuel heap gs (fun p => (cmap p).isSome) =
        astarLoopI obstacles goal start fuel heap gs cmap := by
  intro fuel
  induction fuel with
  | zero => intro heap gs cmap; rfl
  | succ f ih =>
    intro heap gs cmap
    rw [astarLoop, astarLoopI]
    rcases heappop nodeLt heap with _ | ⟨current, heap2⟩
    · rfl
    · dsimp only
      by_cases hg : current.pos = goal
      · rw [if_pos hg, if_pos hg]
      · rw [if_neg hg, if_neg hg]
        by_cases hc : ((cmap current.pos).isSome : Bool) = true
        · rw [if_pos hc, if_pos hc]
          exact ih heap2 gs cmap
        · rw [if_neg hc, if_neg hc]
          have hfun : (fun p : GPos => p = current.pos ||
              (cmap p).isSome) = (fun p =>
                ((if p = current.pos then some current else cmap p) :
                  Option AstarNode).isSome) := by
            funext p
            by_cases hp : p = current.pos
            · simp [hp]
            · simp [hp]
          rw [hfun]
          exact ih _ _ _

end Lamp

namespace Lamp

/-! ### The global invariant of the instrumented search -/

/-- The strict ancestors of a search node along its parent chain. -/
def ancestors : AstarNode → List AstarNode
  | .mk _ _ _ none => []
  | .mk _ _ _ (some par) => par :: ancestors par

/-- Chain soundness with cost: unit steps, rooted at `S`, and the stored
`g` equals the walk cost of the chain. -/
def nodeChainOK (obstacles : List GPos) (S : GPos) (n : AstarNode) : Prop :=
  List.Chain' adjStep (chainPositions n) ∧
  (chainPositions n).getLast? = some S ∧
  n.gScore = walkCost obstacles (chainPositions n)

/-- The stored `f` is `g` plus the heuristic. -/
def nodeFOK (G : GPos) (n : AstarNode) : Prop :=
  n.fScore = n.gScore + heuristic n.pos G

/-- Every strict ancestor is the registered closer of its own cell. -/
def ancReg (cmap : GPos → Option AstarNode) (n : AstarNode) : Prop :=
  ∀ a ∈ ancestors n, cmap a.pos = some a

def nodeOK (obstacles : List GPos) (S G : GPos)
    (cmap : GPos → Option AstarNode) (n : AstarNode) : Prop :=
  nodeChainOK obstacles S n ∧ nodeFOK G n ∧ ancReg cmap n

/-- Turn penalty `_astar` would charge for stepping from `n`'s cell into
`q`. -/
def penOf (n : AstarNode) (q : GPos) : Int :=
  match n.parent with
  | none => 0
  | some par => if isDirectionChange par.pos n.pos q then 1 else 0

/-- The tentative `g` that expanding `n` offers to its neighbor `q`. -/
def offerCost (obstacles : List GPos) (n : AstarNode) (q : GPos) : Int :=
  n.gScore + cellCost obstacles q + penOf n q

/-- Every neighbor of an expanded cell was offered: it is closed itself or
its recorded `g_score` is at most the expansion's offer. -/
def ledgerOK (obstacles : List GPos) (cmap : GPos → Option AstarNode)
    (gs : GPos → Option Int) (n : AstarNode) : Prop :=
  ∀ q ∈ getNeighbors n.pos, (cmap q).isSome = true ∨
    ∃ v, gs q = some v ∧ v ≤ offerCost obstacles n q

/-- Everything recorded about closers. -/
def closersOK (obstacles : List GPos) (S G : GPos)
    (cmap : GPos → Option AstarNode) (gs : GPos → Option Int) : Prop :=
  ∀ p n, cmap p = some n → n.pos = p ∧ nodeOK obstacles S G cmap n ∧
    (inRect S G p → n.gScore = gamma S p) ∧ ledgerOK obstacles cmap gs n

/-- Every recorded `g_score` is the cost of a real chain whose node is
still in the open heap unless its cell has been closed. -/
def gsOK (obstacles : List GPos) (S : GPos) (heap : List AstarNode)
    (gs : GPos → Option Int) (cmap : GPos → Option AstarNode) : Prop :=
  ∀ q v, gs q = some v → ∃ n : AstarNode, nodeChainOK obstacles S n ∧
    n.pos = q ∧ n.gScore = v ∧ (n ∈ heap ∨ (cmap q).isSome = true)

/-- The global invariant of the instrumented A* loop. -/
structure MegaInv (obstacles : List GPos) (S G : GPos)
    (heap : List AstarNode) (gs : GPos → Option Int)
    (cmap : GPos → Option AstarNode) : Prop where
  hprop : heapProp nodeLt heap
  hok : ∀ n ∈ heap, nodeOK obstacles S G cmap n
  closers : closersOK obstacles S G cmap gs
  goalFree : cmap G = none
  gsok : gsOK obstacles S heap gs cmap
  start0 : (cmap S).isSome = true ∨ ∃ n ∈ heap, n.pos = S ∧ n.gScore = 0

lemma chainPositions_ne_nil (n : AstarNode) : chainPositions n ≠ [] := by
  rw [chainPositions_eq]
  simp

lemma ancestors_posns (n : AstarNode) :
    (n :: ancestors n).map AstarNode.pos = chainPositions n := by
  match n with
  | .mk f p g none => rfl
  | .mk f p g (some par) =>
    show p :: (par :: ancestors par).map AstarNode.pos = p :: chainPositions par
    rw [ancestors_posns par]

lemma parent_mem_ancestors (n par : AstarNode) (h : n.parent = some par) :
    par ∈ ancestors n := by
  match n, h with
  | .mk f p g (some par), rfl => exact List.mem_cons_self _ _

lemma ancestors_trans (n a : AstarNode) (ha : a ∈ ancestors n) :
    ∀ b ∈ ancestors a, b ∈ ancestors n := by
  match n with
  | .mk f p g none => simp [ancestors] at ha
  | .mk f p g (some par) =>
    intro b hb
    rcases List.mem_cons.mp ha with h | h
    · rw [h] at hb
      exact List.mem_cons_of_mem _ hb
    · exact List.mem_cons_of_mem _ (ancestors_trans par a h b hb)

lemma chainPositions_parent (n par : AstarNode) (h : n.parent = some par) :
    chainPositions n = n.pos :: chainPositions par := by
  match n, h with
  | .mk f p g (some par), rfl => rfl

lemma parent_none_of_single (n : AstarNode)
    (h : chainPositions n = [n.pos]) : n.parent = none := by
  match n with
  | .mk f p g none => rfl
  | .mk f p g (some par) =>
    exfalso
    have : p :: chainPositions par = [p] := h
    have h2 : chainPositions par = [] := by
      injection this
    exact chainPositions_ne_nil par h2

lemma penOf_eq_stepPen (n par : AstarNode) (h : n.parent = some par)
    (q : GPos) : penOf n q = stepPen par.pos n.pos q := by
  match n, h with
  | .mk f p g (some par), rfl => rfl

lemma penOf_none (n : AstarNode) (h : n.parent = none) (q : GPos) :
    penOf n q = 0 := by
  match n, h with
  | .mk f p g none, rfl => rfl

/-- The offer `expandNeighbors` computes equals the walk cost of the
extended chain. -/
lemma offerCost_eq_walkCost (obstacles : List GPos) (S : GPos)
    (n : AstarNode) (hn : nodeChainOK obstacles S n) (q : GPos) :
    offerCost obstacles n q = walkCost obstacles (q :: chainPositions n) := by
  rcases hpar : n.parent with _ | par
  · have hchain : chainPositions n = [n.pos] := by
      rw [chainPositions_eq, chainTailPositions, hpar]
    rw [hchain]
    show n.gScore + cellCost obstacles q + penOf n q =
      walkCost obstacles [q, n.pos]
    rw [penOf_none n hpar q, hn.2.2, hchain]
    show (0 : Int) + cellCost obstacles q + 0 = cellCost obstacles q
    ring
  · have hchain := chainPositions_parent n par hpar
    have hchain2 := chainPositions_eq par
    rw [hchain, hchain2]
    show n.gScore + cellCost obstacles q + penOf n q =
      cellCost obstacles q + stepPen par.pos n.pos q +
        walkCost obstacles (n.pos :: par.pos :: chainTailPositions par)
    rw [penOf_eq_stepPen n par hpar q, hn.2.2, hchain, hchain2]
    ring

end Lamp

namespace Lamp

lemma abs_add_between (a b c : Int)
    (h : (a ≤ b ∧ b ≤ c) ∨ (c ≤ b ∧ b ≤ a)) :
    |a - b| + |b - c| = |a - c| := by
  rcases abs_cases (a - b) with ⟨h1, h1b⟩ | ⟨h1, h1b⟩ <;>
    rcases abs_cases (b - c) with ⟨h2, h2b⟩ | ⟨h2, h2b⟩ <;>
    rcases abs_cases (a - c) with ⟨h3, h3b⟩ | ⟨h3, h3b⟩ <;>
    omega

lemma dist_split (S G p : GPos) (hp : inRect S G p) :
    manhattanDist S p + manhattanDist p G = manhattanDist S G := by
  obtain ⟨hx, hy⟩ := hp
  simp only [manhattanDist]
  have h1 : |S.1 - p.1| + |p.1 - G.1| = |S.1 - G.1| :=
    abs_add_between _ _ _ (by omega)
  have h2 : |S.2 - p.2| + |p.2 - G.2| = |S.2 - G.2| :=
    abs_add_between _ _ _ (by omega)
  omega

lemma offAx_le_of_inRect (S G p : GPos) (hp : inRect S G p) :
    offAx S p ≤ offAx S G := by
  obtain ⟨hx, hy⟩ := hp
  unfold offAx
  split
  · split <;> omega
  · rename_i hng
    rw [if_neg]
    intro hc
    rcases hc with hc | hc
    · exact hng (Or.inl (by omega))
    · exact hng (Or.inr (by omega))

lemma gamma_h_le (S G p : GPos) (hp : inRect S G p) :
    gamma S p + heuristic p G ≤ gamma S G := by
  have h1 := dist_split S G p hp
  have h2 := offAx_le_of_inRect S G p hp
  unfold gamma heuristic
  omega

lemma gap_bound_offaxis (S G p : GPos) (hp : inRect S G p)
    (hoff : ¬ (p.1 = S.1 ∨ p.2 = S.2)) :
    gamma S G - heuristic p G ≤ gamma S p := by
  have h1 := dist_split S G p hp
  obtain ⟨hx, hy⟩ := hp
  have hGoff : ¬ (G.1 = S.1 ∨ G.2 = S.2) := by
    intro hc
    rcases hc with hc | hc
    · exact hoff (Or.inl (by omega))
    · exact hoff (Or.inr (by omega))
  have e1 : offAx S p = 1 := by rw [offAx, if_neg hoff]
  have e2 : offAx S G = 1 := by rw [offAx, if_neg hGoff]
  unfold gamma heuristic
  rw [e1, e2]
  omega

lemma gap_bound_axis (S G p : GPos) (hp : inRect S G p) :
    gamma S G - heuristic p G ≤ gamma S p + 1 := by
  have h1 := dist_split S G p hp
  have h2 := offAx_cases S p
  have h3 := offAx_cases S G
  unfold gamma heuristic
  omega

lemma heuristic_self (G : GPos) : heuristic G G = 0 := by
  simp [heuristic, manhattanDist]

/-- The quantization of walk costs at cells on an axis through `S`: a cost
within 1 of `gamma` is exactly `gamma` (a single extra turn cannot occur
on a shortest walk that starts and ends on the same axis line). -/
lemma axis_quant (obstacles : List GPos) (rest : List GPos) (p S : GPos)
    (hch : List.Chain' adjStep (p :: rest))
    (hlast : (p :: rest).getLast? = some S)
    (hax : p.1 = S.1 ∨ p.2 = S.2)
    (hub : walkCost obstacles (p :: rest) ≤ gamma S p + 1) :
    walkCost obstacles (p :: rest) = gamma S p := by
  have hd := walkCost_decomp obstacles (p :: rest) (by simp)
  have hlen := chainLen_ge_dist rest p S hch hlast
  have hob := obstEntries_nonneg obstacles (p :: rest)
  have hpen := countAdjNe_nonneg (movesOf (p :: rest))
  have h0 : offAx S p = 0 := by rw [offAx, if_pos hax]
  unfold gamma at hub ⊢
  rw [h0] at hub ⊢
  rw [hd] at hub ⊢
  have hpen0 : countAdjNe (movesOf (p :: rest)) = 0 := by
    by_contra hc
    have hcnt : countAdjNe (movesOf (p :: rest)) = 1 := by omega
    match rest with
    | [] =>
      simp [movesOf, countAdjNe] at hcnt
    | q :: rest2 =>
      obtain ⟨k, m1, hk1, hklt, hposn, hne, hmem, hS1, hS2⟩ :=
        two_block rest2 p q S hlast hcnt
      have hm : ((p.1 - q.1, p.2 - q.2) : GPos) ∈ movesOf (p :: q :: rest2) :=
        List.mem_cons_self _ _
      have hunit0 := movesOf_unit _ hch _ hm
      have hunit1 := movesOf_unit _ hch _ hmem
      simp only at hunit0
      set L := ((p :: q :: rest2).length : Int) - 1 with hLdef
      have hLd : L = manhattanDist S p := by
        rw [hLdef]
        omega
      have hk2 : (1 : Int) ≤ L - k := by
        rw [hLdef]
        push_cast at hklt ⊢
        omega
      have hkc : (1 : Int) ≤ (k : Int) := by exact_mod_cast hk1
      have habs0 : 0 ≤ |p.1 - q.1| := abs_nonneg _
      have habs0b : 0 ≤ |p.2 - q.2| := abs_nonneg _
      have habs1 : 0 ≤ |m1.1| := abs_nonneg _
      have habs1b : 0 ≤ |m1.2| := abs_nonneg _
      rcases hax with hax | hax
      · -- p on the vertical axis through S
        have hdisty : |p.2 - S.2| = manhattanDist S p := by
          simp only [manhattanDist]
          have hz : S.1 - p.1 = 0 := by omega
          rw [hz]
          simp [abs_sub_comm]
        have hyeq : (k : Int) * (p.2 - q.2) + (L - k) * m1.2 = p.2 - S.2 := by
          omega
        have hca : (k : Int) * |p.2 - q.2| ≤ (k : Int) :=
          calc (k : Int) * |p.2 - q.2| ≤ (k : Int) * 1 :=
                mul_le_mul_of_nonneg_left (by omega) (by omega)
            _ = (k : Int) := by ring
        have hcb : (L - k) * |m1.2| ≤ L - k :=
          calc (L - k) * |m1.2| ≤ (L - k) * 1 :=
                mul_le_mul_of_nonneg_left (by omega) (by omega)
            _ = L - k := by ring
        have hbound : |p.2 - S.2| ≤ (k : Int) * |p.2 - q.2| +
            (L - k) * |m1.2| := by
          calc |p.2 - S.2| = |(k : Int) * (p.2 - q.2) + (L - k) * m1.2| := by
                rw [hyeq]
            _ ≤ |(k : Int) * (p.2 - q.2)| + |(L - k) * m1.2| := abs_add _ _
            _ = (k : Int) * |p.2 - q.2| + (L - k) * |m1.2| := by
                rw [abs_mul, abs_mul, Nat.abs_cast,
                  abs_of_nonneg (by omega : (0 : Int) ≤ L - k)]
        have ha1 : |p.2 - q.2| = 1 := by
          rcases (by omega : |p.2 - q.2| = 0 ∨ |p.2 - q.2| = 1) with ha | ha
          · exfalso
            have heq : (k : Int) * |p.2 - q.2| = 0 := by rw [ha]; ring
            omega
          · exact ha
        have hb1 : |m1.2| = 1 := by
          rcases (by omega : |m1.2| = 0 ∨ |m1.2| = 1) with hb | hb
          · exfalso
            have heq : (L - k) * |m1.2| = 0 := by rw [hb]; ring
            omega
          · exact hb
        have hq1 : p.1 - q.1 = 0 := abs_eq_zero.mp (by omega)
        have hm11 : m1.1 = 0 := abs_eq_zero.mp (by omega)
        have hopp : m1.2 = -(p.2 - q.2) := by
          have h1 : p.2 - q.2 = 1 ∨ p.2 - q.2 = -1 := by
            rcases abs_cases (p.2 - q.2) with ⟨ha, _⟩ | ⟨ha, _⟩ <;> omega
          have h2 : m1.2 = 1 ∨ m1.2 = -1 := by
            rcases abs_cases m1.2 with ⟨ha, _⟩ | ⟨ha, _⟩ <;> omega
          have hne2 : ¬ (m1.2 = p.2 - q.2) := by
            intro hc2
            refine hne ?_
            have hm1e : m1 = (m1.1, m1.2) := rfl
            rw [hm1e, hm11, hc2, hq1]
          rcases h1 with h1 | h1 <;> rcases h2 with h2 | h2 <;> omega
        have heq2 : (k : Int) * (p.2 - q.2) + (L - k) * m1.2 =
            ((2 : Int) * k - L) * (p.2 - q.2) := by
          rw [hopp]
          ring
        rw [heq2] at hyeq
        have habseq : |p.2 - S.2| = |(2 : Int) * k - L| := by
          rw [← hyeq, abs_mul, ha1]
          ring
        rcases abs_cases ((2 : Int) * k - L) with ⟨he, _⟩ | ⟨he, _⟩ <;> omega
      · -- p on the horizontal axis through S
        have hdisty : |p.1 - S.1| = manhattanDist S p := by
          simp only [manhattanDist]
          have hz : S.2 - p.2 = 0 := by omega
          rw [hz]
          simp [abs_sub_comm]
        have hyeq : (k : Int) * (p.1 - q.1) + (L - k) * m1.1 = p.1 - S.1 := by
          omega
        have hca : (k : Int) * |p.1 - q.1| ≤ (k : Int) :=
          calc (k : Int) * |p.1 - q.1| ≤ (k : Int) * 1 :=
                mul_le_mul_of_nonneg_left (by omega) (by omega)
            _ = (k : Int) := by ring
        have hcb : (L - k) * |m1.1| ≤ L - k :=
          calc (L - k) * |m1.1| ≤ (L - k) * 1 :=
                mul_le_mul_of_nonneg_left (by omega) (by omega)
            _ = L - k := by ring
        have hbound : |p.1 - S.1| ≤ (k : Int) * |p.1 - q.1| +
            (L - k) * |m1.1| := by
          calc |p.1 - S.1| = |(k : Int) * (p.1 - q.1) + (L - k) * m1.1| := by
                rw [hyeq]
            _ ≤ |(k : Int) * (p.1 - q.1)| + |(L - k) * m1.1| := abs_add _ _
            _ = (k : Int) * |p.1 - q.1| + (L - k) * |m1.1| := by
                rw [abs_mul, abs_mul, Nat.abs_cast,
                  abs_of_nonneg (by omega : (0 : Int) ≤ L - k)]
        have ha1 : |p.1 - q.1| = 1 := by
          rcases (by omega : |p.1 - q.1| = 0 ∨ |p.1 - q.1| = 1) with ha | ha
          · exfalso
            have heq : (k : Int) * |p.1 - q.1| = 0 := by rw [ha]; ring
            omega
          · exact ha
        have hb1 : |m1.1| = 1 := by
          rcases (by omega : |m1.1| = 0 ∨ |m1.1| = 1) with hb | hb
          · exfalso
            have heq : (L - k) * |m1.1| = 0 := by rw [hb]; ring
            omega
          · exact hb
        have hq1 : p.2 - q.2 = 0 := abs_eq_zero.mp (by omega)
        have hm11 : m1.2 = 0 := abs_eq_zero.mp (by omega)
        have hopp : m1.1 = -(p.1 - q.1) := by
          have h1 : p.1 - q.1 = 1 ∨ p.1 - q.1 = -1 := by
            rcases abs_cases (p.1 - q.1) with ⟨ha, _⟩ | ⟨ha, _⟩ <;> omega
          have h2 : m1.1 = 1 ∨ m1.1 = -1 := by
            rcases abs_cases m1.1 with ⟨ha, _⟩ | ⟨ha, _⟩ <;> omega
          have hne2 : ¬ (m1.1 = p.1 - q.1) := by
            intro hc2
            refine hne ?_
            have hm1e : m1 = (m1.1, m1.2) := rfl
            rw [hm1e, hm11, hc2, hq1]
          rcases h1 with h1 | h1 <;> rcases h2 with h2 | h2 <;> omega
        have heq2 : (k : Int) * (p.1 - q.1) + (L - k) * m1.1 =
            ((2 : Int) * k - L) * (p.1 - q.1) := by
          rw [hopp]
          ring
        rw [heq2] at hyeq
        have habseq : |p.1 - S.1| = |(2 : Int) * k - L| := by
          rw [← hyeq, abs_mul, ha1]
          ring
        rcases abs_cases ((2 : Int) * k - L) with ⟨he, _⟩ | ⟨he, _⟩ <;> omega
  omega

end Lamp

namespace Lamp

lemma boundary_exists (cmap : GPos → Option AstarNode) (c : Nat → GPos) :
    ∀ N : Nat, (cmap (c 0)).isSome = true → (cmap (c N)).isSome = false →
    ∃ k, k < N ∧ (cmap (c k)).isSome = true ∧
      (cmap (c (k + 1))).isSome = false := by
  intro N
  induction N with
  | zero =>
    intro h0 hN
    rw [h0] at hN
    exact absurd hN (by simp)
  | succ N ih =>
    intro h0 hN
    rcases hB : (cmap (c N)).isSome with _ | _
    · obtain ⟨k, hk, h1, h2⟩ := ih h0 hB
      exact ⟨k, by omega, h1, h2⟩
    · exact ⟨N, by omega, hB, hN⟩

lemma chain_tail_chainOK (obstacles : List GPos) (S : GPos) (n : AstarNode)
    (hn : nodeChainOK obstacles S n) :
    List.Chain' adjStep (n.pos :: chainTailPositions n) ∧
    (n.pos :: chainTailPositions n).getLast? = some S ∧
    n.gScore = walkCost obstacles (n.pos :: chainTailPositions n) := by
  have h := chainPositions_eq n
  exact ⟨h ▸ hn.1, h ▸ hn.2.1, h ▸ hn.2.2⟩

/-- Cash in an exact offer along the ladder: if a registered closer offers
its unclosed in-rectangle neighbor `q` exactly `gamma q`, the open heap
holds a node with `f ≤ gamma S G`. -/
lemma rung (obstacles : List GPos) (S G : GPos) (heap : List AstarNode)
    (gs : GPos → Option Int) (cmap : GPos → Option AstarNode)
    (inv : MegaInv obstacles S G heap gs cmap) (p q : GPos) (n : AstarNode)
    (hcp : cmap p = some n) (hq : q ∈ getNeighbors p)
    (hqr : inRect S G q) (hqun : cmap q = none)
    (hoffer : offerCost obstacles n q = gamma S q) :
    ∃ m ∈ heap, m.fScore ≤ gamma S G := by
  obtain ⟨hpos, hnok, hexact, hledger⟩ := inv.closers p n hcp
  rcases hledger q (by rw [hpos]; exact hq) with hsome | ⟨v, hv, hvle⟩
  · rw [hqun] at hsome
    exact absurd hsome (by simp)
  · rw [hoffer] at hvle
    obtain ⟨m, hmchain, hmpos, hmg, hmloc⟩ := inv.gsok q v hv
    obtain ⟨hch, hlast, hcost⟩ := chain_tail_chainOK obstacles S m hmchain
    have hlow : gamma S m.pos ≤ v := by
      rw [← hmg, hcost]
      exact walkCost_ge_gamma obstacles (chainTailPositions m) m.pos S hch hlast
    rw [hmpos] at hlow
    have hveq : v = gamma S q := le_antisymm hvle hlow
    rcases hmloc with hmheap | hsome
    · refine ⟨m, hmheap, ?_⟩
      have hfok := (inv.hok m hmheap).2.1
      rw [hfok, hmg, hveq, hmpos]
      exact gamma_h_le S G q hqr
    · rw [hqun] at hsome
      exact absurd hsome (by simp)

lemma closer_parent_some (obstacles : List GPos) (S : GPos) (n : AstarNode)
    (hn : nodeChainOK obstacles S n) (hne : n.pos ≠ S) :
    ∃ par, n.parent = some par := by
  rcases hp : n.parent with _ | par
  · exfalso
    have hchain : chainPositions n = [n.pos] := by
      rw [chainPositions_eq, chainTailPositions, hp]
    have := hn.2.1
    rw [hchain] at this
    simp only [List.getLast?_singleton, Option.some.injEq] at this
    exact hne this
  · exact ⟨par, rfl⟩

lemma chain_ancestor_at : ∀ (n : AstarNode) (i : Nat) (w w' : GPos),
    (chainPositions n)[i]? = some w → (chainPositions n)[i + 1]? = some w' →
    ∃ a : AstarNode, (a = n ∨ a ∈ ancestors n) ∧ a.pos = w ∧
      ∃ par, a.parent = some par ∧ par.pos = w' := by
  intro n
  match n with
  | .mk f p g none =>
    intro i w w' hw hw'
    have : (chainPositions (AstarNode.mk f p g none)).length = 1 := rfl
    have hbound := getElem?_bound hw'
    omega
  | .mk f p g (some par) =>
    intro i w w' hw hw'
    have hchain : chainPositions (AstarNode.mk f p g (some par)) =
        p :: chainPositions par := rfl
    rw [hchain] at hw hw'
    match i with
    | 0 =>
      simp only [List.getElem?_cons_zero, Option.some.injEq] at hw
      rw [List.getElem?_cons_succ] at hw'
      have hpar0 : (chainPositions par)[0]? = some par.pos := by
        rw [chainPositions_eq]
        exact List.getElem?_cons_zero
      rw [hpar0] at hw'
      exact ⟨AstarNode.mk f p g (some par), Or.inl rfl, hw,
        par, rfl, Option.some.inj hw'⟩
    | Nat.succ i =>
      rw [List.getElem?_cons_succ] at hw hw'
      obtain ⟨a, ha, hapos, hpar⟩ := chain_ancestor_at par i w w' hw hw'
      refine ⟨a, Or.inr ?_, hapos, hpar⟩
      rcases ha with ha | ha
      · rw [ha]
        exact List.mem_cons_self _ _
      · exact List.mem_cons_of_mem _ ha

end Lamp

namespace Lamp

lemma gamma_xaxis (S : GPos) (t : Int) : gamma S (S.1 + t, S.2) = 2 * |t| := by
  unfold gamma manhattanDist offAx
  rw [if_pos (Or.inr rfl)]
  simp only
  have h1 : S.1 - (S.1 + t) = -t := by ring
  have h2 : S.2 - S.2 = 0 := by ring
  rw [h1, h2, abs_neg, abs_zero]
  ring

lemma gamma_yaxis (S : GPos) (t : Int) : gamma S (S.1, S.2 + t) = 2 * |t| := by
  unfold gamma manhattanDist offAx
  rw [if_pos (Or.inl rfl)]
  simp only
  have h1 : S.2 - (S.2 + t) = -t := by ring
  have h2 : S.1 - S.1 = 0 := by ring
  rw [h1, h2, abs_neg, abs_zero]
  ring

lemma gamma_offaxis (S : GPos) (u v : Int) (hu : u ≠ 0) (hv : v ≠ 0) :
    gamma S (S.1 + u, S.2 + v) = 2 * (|u| + |v|) + 1 := by
  unfold gamma manhattanDist offAx
  rw [if_neg (by
    intro hc
    rcases hc with hc | hc
    · simp only at hc; omega
    · simp only at hc; omega)]
  simp only
  have h1 : S.1 - (S.1 + u) = -u := by ring
  have h2 : S.2 - (S.2 + v) = -v := by ring
  rw [h1, h2, abs_neg, abs_neg]

lemma mem_neighbors_dx (p : GPos) (d : Int) (hd : d = 1 ∨ d = -1) :
    ((p.1 + d, p.2) : GPos) ∈ getNeighbors p := by
  rcases hd with h | h <;> rw [h] <;>
    simp [getNeighbors, show p.1 + -1 = p.1 - 1 by ring]

lemma mem_neighbors_dy (p : GPos) (d : Int) (hd : d = 1 ∨ d = -1) :
    ((p.1, p.2 + d) : GPos) ∈ getNeighbors p := by
  rcases hd with h | h <;> rw [h] <;>
    simp [getNeighbors, show p.2 + -1 = p.2 - 1 by ring]

lemma stepPen_zero (r q p : GPos)
    (h : ((q.1 - r.1, q.2 - r.2) : GPos) = (p.1 - q.1, p.2 - q.2)) :
    stepPen r q p = 0 := by
  unfold stepPen isDirectionChange
  rw [if_neg]
  simp only [decide_eq_true_eq, not_not, ne_eq]
  exact h

lemma stepPen_one (r q p : GPos)
    (h : ((q.1 - r.1, q.2 - r.2) : GPos) ≠ (p.1 - q.1, p.2 - q.2)) :
    stepPen r q p = 1 := by
  unfold stepPen isDirectionChange
  rw [if_pos]
  simp only [ne_eq, decide_eq_true_eq]
  exact h

lemma cellCost_free (obstacles : List GPos) (p : GPos)
    (h : obstacles.contains p = false) : cellCost obstacles p = 2 := by
  unfold cellCost
  rw [h]
  rfl

lemma closer_exact_second_x (obstacles : List GPos) (S : GPos)
    (e par : AstarNode) (hchain : nodeChainOK obstacles S e)
    (hpar : e.parent = some par) (hax : e.pos.2 = S.2)
    (hexact : e.gScore = gamma S e.pos) :
    par.pos.2 = e.pos.2 ∧
    (e.pos.1 - par.pos.1) * (e.pos.1 - S.1) = |e.pos.1 - S.1| ∧
    |e.pos.1 - par.pos.1| = 1 := by
  have hcp := chainPositions_parent e par hpar
  have hcp2 := chainPositions_eq par
  obtain ⟨hch, hlast, hcost⟩ := hchain
  rw [hcp, hcp2] at hch hlast hcost
  exact exact_second_xaxis obstacles (chainTailPositions par) e.pos par.pos S
    hch hlast hax (by rw [← hcost, hexact])

lemma closer_exact_second_y (obstacles : List GPos) (S : GPos)
    (e par : AstarNode) (hchain : nodeChainOK obstacles S e)
    (hpar : e.parent = some par) (hax : e.pos.1 = S.1)
    (hexact : e.gScore = gamma S e.pos) :
    par.pos.1 = e.pos.1 ∧
    (e.pos.2 - par.pos.2) * (e.pos.2 - S.2) = |e.pos.2 - S.2| ∧
    |e.pos.2 - par.pos.2| = 1 := by
  have hcp := chainPositions_parent e par hpar
  have hcp2 := chainPositions_eq par
  obtain ⟨hch, hlast, hcost⟩ := hchain
  rw [hcp, hcp2] at hch hlast hcost
  exact exact_second_yaxis obstacles (chainTailPositions par) e.pos par.pos S
    hch hlast hax (by rw [← hcost, hexact])

lemma closer_exact_offaxis (obstacles : List GPos) (S : GPos)
    (e par : AstarNode) (hchain : nodeChainOK obstacles S e)
    (hpar : e.parent = some par)
    (hoff : ¬ (e.pos.1 = S.1 ∨ e.pos.2 = S.2))
    (hexact : e.gScore = gamma S e.pos) :
    (par.pos.2 = e.pos.2 ∧
      (e.pos.1 - par.pos.1) * (e.pos.1 - S.1) = |e.pos.1 - S.1| ∧
      |e.pos.1 - par.pos.1| = 1 ∧
      ∀ i : Nat, (i : Int) ≤ |e.pos.1 - S.1| →
        (chainPositions e)[i]? =
          some (e.pos.1 - i * (e.pos.1 - par.pos.1), e.pos.2)) ∨
    (par.pos.1 = e.pos.1 ∧
      (e.pos.2 - par.pos.2) * (e.pos.2 - S.2) = |e.pos.2 - S.2| ∧
      |e.pos.2 - par.pos.2| = 1 ∧
      ∀ i : Nat, (i : Int) ≤ |e.pos.2 - S.2| →
        (chainPositions e)[i]? =
          some (e.pos.1, e.pos.2 - i * (e.pos.2 - par.pos.2))) := by
  have hcp := chainPositions_parent e par hpar
  have hcp2 := chainPositions_eq par
  obtain ⟨hch, hlast, hcost⟩ := hchain
  rw [hcp, hcp2] at hch hlast hcost
  have hmain := exact_offaxis_struct obstacles (chainTailPositions par) e.pos
    par.pos S hch hlast hoff (by rw [← hcost, hexact])
  rcases hmain with ⟨h1, h2, h3, h4⟩ | ⟨h1, h2, h3, h4⟩
  · left
    refine ⟨h1, h2, h3, ?_⟩
    intro i hi
    rw [hcp, hcp2]
    exact h4 i hi
  · right
    refine ⟨h1, h2, h3, ?_⟩
    intro i hi
    rw [hcp, hcp2]
    exact h4 i hi

end Lamp

namespace Lamp


lemma isSome_false_none {α : Type} (o : Option α) (h : o.isSome = false) :
    o = none := by
  rcases o with _ | x
  · rfl
  · simp at h

/-- Ladder rung along the x-axis leg: a closed axis cell whose goal-ward
next axis cell is open yields an exact offer into the open heap. -/
lemma xleg_ladder (obstacles : List GPos) (S G : GPos)
    (hfree : ∀ p : GPos, inRect S G p → obstacles.contains p = false)
    (heap : List AstarNode) (gs : GPos → Option Int)
    (cmap : GPos → Option AstarNode)
    (inv : MegaInv obstacles S G heap gs cmap)
    (sx : Int) (hsx : sx = 1 ∨ sx = -1) (X : Nat)
    (hGx : G.1 = S.1 + (X : Int) * sx)
    (k0 : Nat) (hk1 : k0 + 1 ≤ X)
    (hcl : (cmap ((S.1 + (k0 : Int) * sx, S.2) : GPos)).isSome = true)
    (hun : (cmap ((S.1 + ((k0 : Int) + 1) * sx, S.2) : GPos)).isSome = false) :
    ∃ m ∈ heap, m.fScore ≤ gamma S G := by
  set p : GPos := (S.1 + (k0 : Int) * sx, S.2) with hpdef
  set q : GPos := (S.1 + ((k0 : Int) + 1) * sx, S.2) with hqdef
  obtain ⟨e, he⟩ := Option.isSome_iff_exists.mp hcl
  obtain ⟨hepos, heok, hexactf, _⟩ := inv.closers p e he
  have hprect : inRect S G p := by
    rw [hpdef]
    unfold inRect
    rcases hsx with h | h <;> rw [h] at hGx ⊢ <;>
      rcases le_total S.2 G.2 with h2 | h2 <;>
      simp only <;> omega
  have hqrect : inRect S G q := by
    rw [hqdef]
    unfold inRect
    rcases hsx with h | h <;> rw [h] at hGx ⊢ <;>
      rcases le_total S.2 G.2 with h2 | h2 <;>
      simp only <;> omega
  have hexact : e.gScore = gamma S p := hexactf hprect
  have hgp : gamma S p = 2 * (k0 : Int) := by
    rw [hpdef]
    rw [gamma_xaxis S ((k0 : Int) * sx)]
    rw [abs_mul]
    rcases hsx with h | h <;> rw [h] <;> simp [Nat.abs_cast]
  have hgq : gamma S q = 2 * ((k0 : Int) + 1) := by
    rw [hqdef]
    rw [gamma_xaxis S (((k0 : Int) + 1) * sx)]
    rw [abs_mul]
    rcases hsx with h | h <;> rw [h] <;>
      simp [abs_of_nonneg (by positivity : (0 : Int) ≤ (k0 : Int) + 1)]
  have hqnb : q ∈ getNeighbors p := by
    rw [hpdef, hqdef]
    unfold getNeighbors
    rcases hsx with h | h <;> rw [h] <;>
      simp only [List.mem_cons, Prod.mk.injEq, List.not_mem_nil, or_false]
    · exact Or.inl ⟨by ring, trivial⟩
    · exact Or.inr (Or.inl ⟨by ring, trivial⟩)
  have hpen : penOf e q = 0 := by
    by_cases hk0 : k0 = 0
    · have hg0 : e.gScore = 0 := by
        rw [hexact, hgp, hk0]
        simp
      have hsingle : chainPositions e = [e.pos] := by
        have hcost := heok.1.2.2
        have hnil := rest_nil_of_cost_zero obstacles (chainTailPositions e)
          e.pos (by
            have hcp := chainPositions_eq e
            rw [← hcp, ← hcost, hg0])
        rw [chainPositions_eq, hnil]
      exact penOf_none e (parent_none_of_single e hsingle) q
    · have hpne : e.pos ≠ S := by
        rw [hepos, hpdef]
        intro hc
        have hc1 : S.1 + (k0 : Int) * sx = S.1 := congrArg Prod.fst hc
        rcases hsx with h | h <;> rw [h] at hc1 <;> omega
      obtain ⟨par, hpar⟩ := closer_parent_some obstacles S e heok.1 hpne
      have hsec := closer_exact_second_x obstacles S e par heok.1 hpar
        (by rw [hepos, hpdef]) (by rw [hepos]; exact hexact)
      obtain ⟨hsame, hsgn, hone⟩ := hsec
      have hx1 : e.pos.1 - S.1 = (k0 : Int) * sx := by
        rw [hepos, hpdef]
        simp only
        ring
      have habs : |e.pos.1 - S.1| = (k0 : Int) := by
        rw [hx1, abs_mul]
        rcases hsx with h | h <;> rw [h] <;> simp [Nat.abs_cast]
      rw [habs, hx1] at hsgn
      have h2 := (abs_eq (by norm_num : (0 : Int) ≤ 1)).mp hone
      have hdir : e.pos.1 - par.pos.1 = sx := by
        rcases hsx with h | h <;> rcases h2 with h2 | h2
        · rw [h2, h]
        · exfalso
          rw [h2, h] at hsgn
          omega
        · exfalso
          rw [h2, h] at hsgn
          omega
        · rw [h2, h]
      rw [penOf_eq_stepPen e par hpar q]
      refine stepPen_zero par.pos e.pos q ?_
      have hcomp1 : e.pos.1 - par.pos.1 = q.1 - e.pos.1 := by
        rw [hdir, hepos, hqdef, hpdef]
        simp only
        ring
      have hcomp2 : e.pos.2 - par.pos.2 = q.2 - e.pos.2 := by
        rw [hsame, hepos, hqdef, hpdef]
      simp only [Prod.mk.injEq]
      exact ⟨hcomp1, hcomp2⟩
  have hcell : cellCost obstacles q = 2 := cellCost_free obstacles q
    (hfree q hqrect)
  refine rung obstacles S G heap gs cmap inv p q e he hqnb hqrect
    (isSome_false_none _ hun) ?_
  unfold offerCost
  rw [hexact, hcell, hpen, hgp, hgq]
  ring

/-- Ladder rung along the y-axis leg: mirror of the x-leg rung for the
start column. -/
lemma yleg_ladder (obstacles : List GPos) (S G : GPos)
    (hfree : ∀ p : GPos, inRect S G p → obstacles.contains p = false)
    (heap : List AstarNode) (gs : GPos → Option Int)
    (cmap : GPos → Option AstarNode)
    (inv : MegaInv obstacles S G heap gs cmap)
    (sy : Int) (hsy : sy = 1 ∨ sy = -1) (Y : Nat)
    (hGy : G.2 = S.2 + (Y : Int) * sy)
    (k0 : Nat) (hk1 : k0 + 1 ≤ Y)
    (hcl : (cmap ((S.1, S.2 + (k0 : Int) * sy) : GPos)).isSome = true)
    (hun : (cmap ((S.1, S.2 + ((k0 : Int) + 1) * sy) : GPos)).isSome = false) :
    ∃ m ∈ heap, m.fScore ≤ gamma S G := by
  set p : GPos := (S.1, S.2 + (k0 : Int) * sy) with hpdef
  set q : GPos := (S.1, S.2 + ((k0 : Int) + 1) * sy) with hqdef
  obtain ⟨e, he⟩ := Option.isSome_iff_exists.mp hcl
  obtain ⟨hepos, heok, hexactf, _⟩ := inv.closers p e he
  have hprect : inRect S G p := by
    rw [hpdef]
    unfold inRect
    rcases hsy with h | h <;> rw [h] at hGy ⊢ <;>
      rcases le_total S.1 G.1 with h2 | h2 <;>
      simp only <;> omega
  have hqrect : inRect S G q := by
    rw [hqdef]
    unfold inRect
    rcases hsy with h | h <;> rw [h] at hGy ⊢ <;>
      rcases le_total S.1 G.1 with h2 | h2 <;>
      simp only <;> omega
  have hexact : e.gScore = gamma S p := hexactf hprect
  have hgp : gamma S p = 2 * (k0 : Int) := by
    rw [hpdef]
    rw [gamma_yaxis S ((k0 : Int) * sy)]
    rw [abs_mul]
    rcases hsy with h | h <;> rw [h] <;> simp [Nat.abs_cast]
  have hgq : gamma S q = 2 * ((k0 : Int) + 1) := by
    rw [hqdef]
    rw [gamma_yaxis S (((k0 : Int) + 1) * sy)]
    rw [abs_mul]
    rcases hsy with h | h <;> rw [h] <;>
      simp [abs_of_nonneg (by positivity : (0 : Int) ≤ (k0 : Int) + 1)]
  have hqnb : q ∈ getNeighbors p := by
    rw [hpdef, hqdef]
    unfold getNeighbors
    rcases hsy with h | h <;> rw [h] <;>
      simp only [List.mem_cons, Prod.mk.injEq, List.not_mem_nil, or_false]
    · exact Or.inr (Or.inr (Or.inl ⟨trivial, by ring⟩))
    · exact Or.inr (Or.inr (Or.inr ⟨trivial, by ring⟩))
  have hpen : penOf e q = 0 := by
    by_cases hk0 : k0 = 0
    · have hg0 : e.gScore = 0 := by
        rw [hexact, hgp, hk0]
        simp
      have hsingle : chainPositions e = [e.pos] := by
        have hcost := heok.1.2.2
        have hnil := rest_nil_of_cost_zero obstacles (chainTailPositions e)
          e.pos (by
            have hcp := chainPositions_eq e
            rw [← hcp, ← hcost, hg0])
        rw [chainPositions_eq, hnil]
      exact penOf_none e (parent_none_of_single e hsingle) q
    · have hpne : e.pos ≠ S := by
        rw [hepos, hpdef]
        intro hc
        have hc1 : S.2 + (k0 : Int) * sy = S.2 := congrArg Prod.snd hc
        rcases hsy with h | h <;> rw [h] at hc1 <;> omega
      obtain ⟨par, hpar⟩ := closer_parent_some obstacles S e heok.1 hpne
      have hsec := closer_exact_second_y obstacles S e par heok.1 hpar
        (by rw [hepos, hpdef]) (by rw [hepos]; exact hexact)
      obtain ⟨hsame, hsgn, hone⟩ := hsec
      have hy1 : e.pos.2 - S.2 = (k0 : Int) * sy := by
        rw [hepos, hpdef]
        simp only
        ring
      have habs : |e.pos.2 - S.2| = (k0 : Int) := by
        rw [hy1, abs_mul]
        rcases hsy with h | h <;> rw [h] <;> simp [Nat.abs_cast]
      rw [habs, hy1] at hsgn
      have h2 := (abs_eq (by norm_num : (0 : Int) ≤ 1)).mp hone
      have hdir : e.pos.2 - par.pos.2 = sy := by
        rcases hsy with h | h <;> rcases h2 with h2 | h2
        · rw [h2, h]
        · exfalso
          rw [h2, h] at hsgn
          omega
        · exfalso
          rw [h2, h] at hsgn
          omega
        · rw [h2, h]
      rw [penOf_eq_stepPen e par hpar q]
      refine stepPen_zero par.pos e.pos q ?_
      have hcomp1 : e.pos.1 - par.pos.1 = q.1 - e.pos.1 := by
        rw [hsame, hepos, hqdef, hpdef]
      have hcomp2 : e.pos.2 - par.pos.2 = q.2 - e.pos.2 := by
        rw [hdir, hepos, hqdef, hpdef]
        simp only
        ring
      simp only [Prod.mk.injEq]
      exact ⟨hcomp1, hcomp2⟩
  have hcell : cellCost obstacles q = 2 := cellCost_free obstacles q
    (hfree q hqrect)
  refine rung obstacles S G heap gs cmap inv p q e he hqnb hqrect
    (isSome_false_none _ hun) ?_
  unfold offerCost
  rw [hexact, hcell, hpen, hgp, hgq]
  ring

lemma abs_mul_sign (t s : Int) (hs : s = 1 ∨ s = -1) (ht : 0 ≤ t) :
    |t * s| = t := by
  rw [abs_mul]
  rcases hs with h | h <;> rw [h] <;> simp [abs_of_nonneg ht]

lemma sign_step (d t s : Int) (hs : s = 1 ∨ s = -1) (hone : |d| = 1)
    (hsgn : d * (t * s) = t) (ht : 1 ≤ t) : d = s := by
  have h2 := (abs_eq (by norm_num : (0 : Int) ≤ 1)).mp hone
  rcases hs with h | h <;> rcases h2 with h2 | h2 <;> rw [h2, h] at hsgn <;>
    rw [h2, h] <;> omega

/-- Ladder rung along the far column at `x = G.1`: the boundary closer
either pays an exact offer upward, or its exact chain arrived
horizontally, spanning the whole row (the poison case). -/
lemma farcol_ladder (obstacles : List GPos) (S G : GPos)
    (hfree : ∀ p : GPos, inRect S G p → obstacles.contains p = false)
    (heap : List AstarNode) (gs : GPos → Option Int)
    (cmap : GPos → Option AstarNode)
    (inv : MegaInv obstacles S G heap gs cmap)
    (sx sy : Int) (hsx : sx = 1 ∨ sx = -1) (hsy : sy = 1 ∨ sy = -1)
    (X Y : Nat) (hGx : G.1 = S.1 + (X : Int) * sx)
    (hGy : G.2 = S.2 + (Y : Int) * sy)
    (k1 : Nat) (hk1 : k1 + 1 ≤ Y)
    (hcl : (cmap ((G.1, S.2 + (k1 : Int) * sy) : GPos)).isSome = true)
    (hun : (cmap ((G.1, S.2 + ((k1 : Int) + 1) * sy) : GPos)).isSome = false) :
    (∃ m ∈ heap, m.fScore ≤ gamma S G) ∨
    (1 ≤ k1 ∧ 1 ≤ X ∧ ∃ e : AstarNode,
      cmap ((G.1, S.2 + (k1 : Int) * sy) : GPos) = some e ∧
      nodeOK obstacles S G cmap e ∧
      ∀ i : Nat, (i : Int) ≤ (X : Int) →
        (chainPositions e)[i]? =
          some (G.1 - (i : Int) * sx, S.2 + (k1 : Int) * sy)) := by
  by_cases hX0 : X = 0
  · have hG1 : G.1 = S.1 := by
      rw [hGx, hX0]
      simp
    rw [hG1] at hcl hun
    exact Or.inl (yleg_ladder obstacles S G hfree heap gs cmap inv sy hsy Y
      hGy k1 hk1 hcl hun)
  · have hX1 : 1 ≤ X := Nat.pos_of_ne_zero hX0
    have hXcast : (1 : Int) ≤ (X : Int) := by exact_mod_cast hX1
    have hY1 : 1 ≤ Y := by omega
    by_cases hk10 : k1 = 0
    · left
      have hc1 : S.2 + ((k1 : Nat) : Int) * sy = S.2 := by
        rw [hk10]
        simp
      have hc2 : S.2 + (((k1 : Nat) : Int) + 1) * sy = S.2 + sy := by
        rw [hk10]
        push_cast
        ring
      rw [hc1] at hcl
      rw [hc2] at hun
      set p : GPos := (G.1, S.2) with hpdef
      set q : GPos := (G.1, S.2 + sy) with hqdef
      obtain ⟨e, he⟩ := Option.isSome_iff_exists.mp hcl
      obtain ⟨hepos, heok, hexactf, _⟩ := inv.closers p e he
      have hprect : inRect S G p := by
        rw [hpdef]
        unfold inRect
        rcases le_total S.1 G.1 with h2 | h2 <;>
          rcases le_total S.2 G.2 with h3 | h3 <;> simp only <;> omega
      have hqrect : inRect S G q := by
        rw [hqdef]
        unfold inRect
        rcases hsy with h | h <;> rw [h] at hGy ⊢ <;>
          rcases le_total S.1 G.1 with h2 | h2 <;> simp only <;> omega
      have hexact : e.gScore = gamma S p := hexactf hprect
      have hpform : p = ((S.1 + (X : Int) * sx, S.2) : GPos) := by
        rw [hpdef, hGx]
      have hgp : gamma S p = 2 * (X : Int) := by
        rw [hpform, gamma_xaxis, abs_mul_sign ((X : Int)) sx hsx (by positivity)]
      have hpne : e.pos ≠ S := by
        rw [hepos, hpform]
        intro hc
        have hc1 : S.1 + (X : Int) * sx = S.1 := congrArg Prod.fst hc
        rcases hsx with h | h <;> rw [h] at hc1 <;> omega
      obtain ⟨par, hpar⟩ := closer_parent_some obstacles S e heok.1 hpne
      obtain ⟨hsame, hsgn, hone⟩ := closer_exact_second_x obstacles S e par
        heok.1 hpar (by rw [hepos, hpdef]) (by rw [hepos]; exact hexact)
      have hx1 : e.pos.1 - S.1 = (X : Int) * sx := by
        rw [hepos, hpform]
        simp only
        ring
      have habs : |e.pos.1 - S.1| = (X : Int) := by
        rw [hx1]
        exact abs_mul_sign _ _ hsx (by positivity)
      rw [habs, hx1] at hsgn
      have hdir : e.pos.1 - par.pos.1 = sx :=
        sign_step _ _ _ hsx hone hsgn hXcast
      have hexx : e.pos.1 = G.1 := by rw [hepos, hpdef]
      have hpen : penOf e q = 1 := by
        rw [penOf_eq_stepPen e par hpar q]
        refine stepPen_one par.pos e.pos q ?_
        intro hc
        have hc1 := congrArg Prod.fst hc
        dsimp only at hc1
        rw [hdir, hexx] at hc1
        rcases hsx with h | h <;> rw [h] at hc1 <;> omega
      have hcell : cellCost obstacles q = 2 := cellCost_free obstacles q
        (hfree q hqrect)
      have hqform : q = ((S.1 + (X : Int) * sx, S.2 + sy) : GPos) := by
        rw [hqdef, hGx]
      have hXne : (X : Int) * sx ≠ 0 := mul_ne_zero (by exact_mod_cast hX0)
        (by rcases hsx with h | h <;> rw [h] <;> norm_num)
      have hsyne : sy ≠ 0 := by
        rcases hsy with h | h <;> rw [h] <;> norm_num
      have hgq : gamma S q = 2 * ((X : Int) + 1) + 1 := by
        rw [hqform, gamma_offaxis S ((X : Int) * sx) sy hXne hsyne,
          abs_mul_sign _ _ hsx (by positivity)]
        rcases hsy with h | h <;> rw [h] <;> norm_num
      have hqnb : q ∈ getNeighbors p := by
        rw [hpdef, hqdef]
        have hmm := mem_neighbors_dy ((G.1, S.2) : GPos) sy hsy
        exact hmm
      refine rung obstacles S G heap gs cmap inv p q e he hqnb hqrect
        (isSome_false_none _ hun) ?_
      unfold offerCost
      rw [hexact, hcell, hpen, hgp, hgq]
      ring
    · have hk11 : 1 ≤ k1 := Nat.pos_of_ne_zero hk10
      have hkcast : (1 : Int) ≤ (k1 : Int) := by exact_mod_cast hk11
      set p : GPos := (G.1, S.2 + (k1 : Int) * sy) with hpdef
      set q : GPos := (G.1, S.2 + ((k1 : Int) + 1) * sy) with hqdef
      obtain ⟨e, he⟩ := Option.isSome_iff_exists.mp hcl
      obtain ⟨hepos, heok, hexactf, _⟩ := inv.closers p e he
      have hprect : inRect S G p := by
        rw [hpdef]
        unfold inRect
        rcases hsy with h | h <;> rw [h] at hGy ⊢ <;>
          rcases le_total S.1 G.1 with h2 | h2 <;> simp only <;> omega
      have hqrect : inRect S G q := by
        rw [hqdef]
        unfold inRect
        rcases hsy with h | h <;> rw [h] at hGy ⊢ <;>
          rcases le_total S.1 G.1 with h2 | h2 <;> simp only <;> omega
      have hexact : e.gScore = gamma S p := hexactf hprect
      have hpform : p = ((S.1 + (X : Int) * sx, S.2 + (k1 : Int) * sy) : GPos) := by
        rw [hpdef, hGx]
      have hXne : (X : Int) * sx ≠ 0 := mul_ne_zero (by exact_mod_cast hX0)
        (by rcases hsx with h | h <;> rw [h] <;> norm_num)
      have hkne : (k1 : Int) * sy ≠ 0 := mul_ne_zero (by exact_mod_cast hk10)
        (by rcases hsy with h | h <;> rw [h] <;> norm_num)
      have hoff : ¬ (e.pos.1 = S.1 ∨ e.pos.2 = S.2) := by
        rw [hepos, hpform]
        intro hc
        rcases hc with hc | hc
        · dsimp only at hc
          exact hXne (by linarith)
        · dsimp only at hc
          exact hkne (by linarith)
      have hpne : e.pos ≠ S := fun hc => hoff (Or.inl (by rw [hc]))
      obtain ⟨par, hpar⟩ := closer_parent_some obstacles S e heok.1 hpne
      have hca := closer_exact_offaxis obstacles S e par heok.1 hpar hoff
        (by rw [hepos]; exact hexact)
      have hx1 : e.pos.1 - S.1 = (X : Int) * sx := by
        rw [hepos, hpform]
        simp only
        ring
      have hy1 : e.pos.2 - S.2 = (k1 : Int) * sy := by
        rw [hepos, hpform]
        simp only
        ring
      have habsx : |e.pos.1 - S.1| = (X : Int) := by
        rw [hx1]
        exact abs_mul_sign _ _ hsx (by positivity)
      have habsy : |e.pos.2 - S.2| = (k1 : Int) := by
        rw [hy1]
        exact abs_mul_sign _ _ hsy (by positivity)
      rcases hca with ⟨hsame, hsgn, hone, hposs⟩ | ⟨hsame, hsgn, hone, hposs⟩
      · rw [habsx, hx1] at hsgn
        have hdir : e.pos.1 - par.pos.1 = sx :=
          sign_step _ _ _ hsx hone hsgn hXcast
        refine Or.inr ⟨hk11, hX1, e, he, heok, ?_⟩
        intro i hi
        have h5 := hposs i (by rw [habsx]; exact hi)
        rw [hdir, hepos, hpdef] at h5
        exact h5
      · left
        rw [habsy, hy1] at hsgn
        have hdir : e.pos.2 - par.pos.2 = sy :=
          sign_step _ _ _ hsy hone hsgn hkcast
        have hexx : e.pos.1 = G.1 := by rw [hepos, hpdef]
        have heyy : e.pos.2 = S.2 + (k1 : Int) * sy := by rw [hepos, hpdef]
        have hpen : penOf e q = 0 := by
          rw [penOf_eq_stepPen e par hpar q]
          refine stepPen_zero par.pos e.pos q ?_
          simp only [Prod.mk.injEq]
          constructor
          · rw [hsame, hexx]
          · rw [hdir, heyy]
            ring
        have hgp : gamma S p = 2 * ((X : Int) + (k1 : Int)) + 1 := by
          rw [hpform, gamma_offaxis S ((X : Int) * sx) ((k1 : Int) * sy) hXne hkne,
            abs_mul_sign _ _ hsx (by positivity),
            abs_mul_sign _ _ hsy (by positivity)]
        have hkne2 : ((k1 : Int) + 1) * sy ≠ 0 := mul_ne_zero (by positivity)
          (by rcases hsy with h | h <;> rw [h] <;> norm_num)
        have hqform : q = ((S.1 + (X : Int) * sx, S.2 + ((k1 : Int) + 1) * sy) : GPos) := by
          rw [hqdef, hGx]
        have hgq : gamma S q = 2 * ((X : Int) + ((k1 : Int) + 1)) + 1 := by
          rw [hqform, gamma_offaxis S ((X : Int) * sx) (((k1 : Int) + 1) * sy) hXne hkne2,
            abs_mul_sign _ _ hsx (by positivity),
            abs_mul_sign _ _ hsy (by positivity)]
        have hcell : cellCost obstacles q = 2 := cellCost_free obstacles q
          (hfree q hqrect)
        have hqnb : q ∈ getNeighbors p := by
          rw [hpdef, hqdef]
          unfold getNeighbors
          rcases hsy with h | h <;> rw [h] <;>
            simp only [List.mem_cons, Prod.mk.injEq, List.not_mem_nil, or_false]
          · exact Or.inr (Or.inr (Or.inl ⟨trivial, by ring⟩))
          · exact Or.inr (Or.inr (Or.inr ⟨trivial, by ring⟩))
        refine rung obstacles S G heap gs cmap inv p q e he hqnb hqrect
          (isSome_false_none _ hun) ?_
        unfold offerCost
        rw [hexact, hcell, hpen, hgp, hgq]
        ring

/-- Ladder rung along the top row at `y = G.2`, consuming the far-column
poison: the boundary closer pays an exact offer toward the goal; a
vertical exact arrival would cross the poisoned row and register two
incompatible closers at the crossing cell. -/
lemma toprow_ladder (obstacles : List GPos) (S G : GPos)
    (hfree : ∀ p : GPos, inRect S G p → obstacles.contains p = false)
    (heap : List AstarNode) (gs : GPos → Option Int)
    (cmap : GPos → Option AstarNode)
    (inv : MegaInv obstacles S G heap gs cmap)
    (sx sy : Int) (hsx : sx = 1 ∨ sx = -1) (hsy : sy = 1 ∨ sy = -1)
    (X Y : Nat) (hGx : G.1 = S.1 + (X : Int) * sx)
    (hGy : G.2 = S.2 + (Y : Int) * sy)
    (k1 : Nat) (hk11 : 1 ≤ k1) (hk1Y : k1 + 1 ≤ Y)
    (e1 : AstarNode)
    (he1 : cmap ((G.1, S.2 + (k1 : Int) * sy) : GPos) = some e1)
    (he1ok : nodeOK obstacles S G cmap e1)
    (hpois : ∀ i : Nat, (i : Int) ≤ (X : Int) →
      (chainPositions e1)[i]? =
        some (G.1 - (i : Int) * sx, S.2 + (k1 : Int) * sy))
    (k3 : Nat) (hk3 : k3 + 1 ≤ X)
    (hcl : (cmap ((S.1 + (k3 : Int) * sx, G.2) : GPos)).isSome = true)
    (hun : (cmap ((S.1 + ((k3 : Int) + 1) * sx, G.2) : GPos)).isSome = false) :
    ∃ m ∈ heap, m.fScore ≤ gamma S G := by
  have hX1 : 1 ≤ X := by omega
  have hY1 : 1 ≤ Y := by omega
  have hXcast : (1 : Int) ≤ (X : Int) := by exact_mod_cast hX1
  have hYcast : (1 : Int) ≤ (Y : Int) := by exact_mod_cast hY1
  have hsxne : sx ≠ 0 := by
    rcases hsx with h | h <;> rw [h] <;> norm_num
  have hsyne : sy ≠ 0 := by
    rcases hsy with h | h <;> rw [h] <;> norm_num
  have hYne : (Y : Int) * sy ≠ 0 := mul_ne_zero (by omega) hsyne
  by_cases hk30 : k3 = 0
  · have hc1 : S.1 + ((k3 : Nat) : Int) * sx = S.1 := by
      rw [hk30]
      simp
    have hc2 : S.1 + (((k3 : Nat) : Int) + 1) * sx = S.1 + sx := by
      rw [hk30]
      push_cast
      ring
    rw [hc1] at hcl
    rw [hc2] at hun
    set p : GPos := (S.1, G.2) with hpdef
    set q : GPos := (S.1 + sx, G.2) with hqdef
    obtain ⟨e, he⟩ := Option.isSome_iff_exists.mp hcl
    obtain ⟨hepos, heok, hexactf, _⟩ := inv.closers p e he
    have hprect : inRect S G p := by
      rw [hpdef]
      unfold inRect
      rcases le_total S.1 G.1 with h2 | h2 <;>
        rcases le_total S.2 G.2 with h3 | h3 <;> simp only <;> omega
    have hqrect : inRect S G q := by
      rw [hqdef]
      unfold inRect
      rcases hsx with h | h <;> rw [h] at hGx ⊢ <;>
        rcases le_total S.2 G.2 with h3 | h3 <;> simp only <;> omega
    have hexact : e.gScore = gamma S p := hexactf hprect
    have hpform : p = ((S.1, S.2 + (Y : Int) * sy) : GPos) := by
      rw [hpdef, hGy]
    have hgp : gamma S p = 2 * (Y : Int) := by
      rw [hpform, gamma_yaxis, abs_mul_sign ((Y : Int)) sy hsy (by positivity)]
    have hpne : e.pos ≠ S := by
      rw [hepos, hpform]
      intro hc
      have hc2 : S.2 + (Y : Int) * sy = S.2 := congrArg Prod.snd hc
      rcases hsy with h | h <;> rw [h] at hc2 <;> omega
    obtain ⟨par, hpar⟩ := closer_parent_some obstacles S e heok.1 hpne
    obtain ⟨hsame, hsgn, hone⟩ := closer_exact_second_y obstacles S e par
      heok.1 hpar (by rw [hepos, hpdef]) (by rw [hepos]; exact hexact)
    have hy1 : e.pos.2 - S.2 = (Y : Int) * sy := by
      rw [hepos, hpform]
      simp only
      ring
    have habs : |e.pos.2 - S.2| = (Y : Int) := by
      rw [hy1]
      exact abs_mul_sign _ _ hsy (by positivity)
    rw [habs, hy1] at hsgn
    have hdir : e.pos.2 - par.pos.2 = sy :=
      sign_step _ _ _ hsy hone hsgn hYcast
    have heyy : e.pos.2 = G.2 := by rw [hepos, hpdef]
    have hpen : penOf e q = 1 := by
      rw [penOf_eq_stepPen e par hpar q]
      refine stepPen_one par.pos e.pos q ?_
      intro hc
      have hc2 := congrArg Prod.snd hc
      dsimp only at hc2
      rw [hdir, heyy] at hc2
      rcases hsy with h | h <;> rw [h] at hc2 <;> omega
    have hcell : cellCost obstacles q = 2 := cellCost_free obstacles q
      (hfree q hqrect)
    have hqform : q = ((S.1 + sx, S.2 + (Y : Int) * sy) : GPos) := by
      rw [hqdef, hGy]
    have hgq : gamma S q = 2 * (1 + (Y : Int)) + 1 := by
      rw [hqform, gamma_offaxis S sx ((Y : Int) * sy) hsxne hYne,
        abs_mul_sign _ _ hsy (by positivity)]
      rcases hsx with h | h <;> rw [h] <;> norm_num
    have hqnb : q ∈ getNeighbors p := by
      rw [hpdef, hqdef]
      have hmm := mem_neighbors_dx ((S.1, G.2) : GPos) sx hsx
      exact hmm
    refine rung obstacles S G heap gs cmap inv p q e he hqnb hqrect
      (isSome_false_none _ hun) ?_
    unfold offerCost
    rw [hexact, hcell, hpen, hgp, hgq]
    ring
  · have hk31 : 1 ≤ k3 := Nat.pos_of_ne_zero hk30
    have hkcast : (1 : Int) ≤ (k3 : Int) := by exact_mod_cast hk31
    set p : GPos := (S.1 + (k3 : Int) * sx, G.2) with hpdef
    set q : GPos := (S.1 + ((k3 : Int) + 1) * sx, G.2) with hqdef
    obtain ⟨e, he⟩ := Option.isSome_iff_exists.mp hcl
    obtain ⟨hepos, heok, hexactf, _⟩ := inv.closers p e he
    have hprect : inRect S G p := by
      rw [hpdef]
      unfold inRect
      rcases hsx with h | h <;> rw [h] at hGx ⊢ <;>
        rcases le_total S.2 G.2 with h3 | h3 <;> simp only <;> omega
    have hqrect : inRect S G q := by
      rw [hqdef]
      unfold inRect
      rcases hsx with h | h <;> rw [h] at hGx ⊢ <;>
        rcases le_total S.2 G.2 with h3 | h3 <;> simp only <;> omega
    have hexact : e.gScore = gamma S p := hexactf hprect
    have hpform : p = ((S.1 + (k3 : Int) * sx, S.2 + (Y : Int) * sy) : GPos) := by
      rw [hpdef, hGy]
    have hkne : (k3 : Int) * sx ≠ 0 := mul_ne_zero (by omega) hsxne
    have hoff : ¬ (e.pos.1 = S.1 ∨ e.pos.2 = S.2) := by
      rw [hepos, hpform]
      intro hc
      rcases hc with hc | hc
      · dsimp only at hc
        exact hkne (by linarith)
      · dsimp only at hc
        exact hYne (by linarith)
    have hpne : e.pos ≠ S := fun hc => hoff (Or.inl (by rw [hc]))
    obtain ⟨par, hpar⟩ := closer_parent_some obstacles S e heok.1 hpne
    have hca := closer_exact_offaxis obstacles S e par heok.1 hpar hoff
      (by rw [hepos]; exact hexact)
    have hx1 : e.pos.1 - S.1 = (k3 : Int) * sx := by
      rw [hepos, hpform]
      simp only
      ring
    have hy1 : e.pos.2 - S.2 = (Y : Int) * sy := by
      rw [hepos, hpform]
      simp only
      ring
    have habsx : |e.pos.1 - S.1| = (k3 : Int) := by
      rw [hx1]
      exact abs_mul_sign _ _ hsx (by positivity)
    have habsy : |e.pos.2 - S.2| = (Y : Int) := by
      rw [hy1]
      exact abs_mul_sign _ _ hsy (by positivity)
    have hexx2 : e.pos.1 = S.1 + (k3 : Int) * sx := by rw [hepos, hpdef]
    have heyy2 : e.pos.2 = S.2 + (Y : Int) * sy := by
      rw [hepos, hpdef]
      exact hGy
    rcases hca with ⟨hsame, hsgn, hone, hposs⟩ | ⟨hsame, hsgn, hone, hposs⟩
    · rw [habsx, hx1] at hsgn
      have hdir : e.pos.1 - par.pos.1 = sx :=
        sign_step _ _ _ hsx hone hsgn hkcast
      have heyy : e.pos.2 = G.2 := by rw [hepos, hpdef]
      have hpen : penOf e q = 0 := by
        rw [penOf_eq_stepPen e par hpar q]
        refine stepPen_zero par.pos e.pos q ?_
        simp only [Prod.mk.injEq]
        constructor
        · rw [hdir, hexx2]
          ring
        · rw [hsame, heyy]
      have hgp : gamma S p = 2 * ((k3 : Int) + (Y : Int)) + 1 := by
        rw [hpform, gamma_offaxis S ((k3 : Int) * sx) ((Y : Int) * sy) hkne hYne,
          abs_mul_sign _ _ hsx (by positivity),
          abs_mul_sign _ _ hsy (by positivity)]
      have hkne2 : ((k3 : Int) + 1) * sx ≠ 0 := mul_ne_zero (by positivity) hsxne
      have hqform : q = ((S.1 + ((k3 : Int) + 1) * sx, S.2 + (Y : Int) * sy) : GPos) := by
        rw [hqdef, hGy]
      have hgq : gamma S q = 2 * (((k3 : Int) + 1) + (Y : Int)) + 1 := by
        rw [hqform, gamma_offaxis S (((k3 : Int) + 1) * sx) ((Y : Int) * sy) hkne2 hYne,
          abs_mul_sign _ _ hsx (by positivity),
          abs_mul_sign _ _ hsy (by positivity)]
      have hcell : cellCost obstacles q = 2 := cellCost_free obstacles q
        (hfree q hqrect)
      have hqnb : q ∈ getNeighbors p := by
        rw [hpdef, hqdef]
        unfold getNeighbors
        rcases hsx with h | h <;> rw [h] <;>
          simp only [List.mem_cons, Prod.mk.injEq, List.not_mem_nil, or_false]
        · exact Or.inl ⟨by ring, trivial⟩
        · exact Or.inr (Or.inl ⟨by ring, trivial⟩)
      refine rung obstacles S G heap gs cmap inv p q e he hqnb hqrect
        (isSome_false_none _ hun) ?_
      unfold offerCost
      rw [hexact, hcell, hpen, hgp, hgq]
      ring
    · exfalso
      rw [habsy, hy1] at hsgn
      have hdir : e.pos.2 - par.pos.2 = sy :=
        sign_step _ _ _ hsy hone hsgn hYcast
      have hposs3 : ∀ i : Nat, (i : Int) ≤ (Y : Int) →
          (chainPositions e)[i]? =
            some (S.1 + (k3 : Int) * sx, S.2 + (Y : Int) * sy - (i : Int) * sy) := by
        intro i hi
        have h5 := hposs i (by rw [habsy]; exact hi)
        rw [hdir, hexx2, heyy2] at h5
        exact h5
      have hk1Ya : k1 ≤ Y := by omega
      have hcYk : ((Y - k1 : Nat) : Int) = (Y : Int) - (k1 : Int) := by omega
      have hcYk1 : ((Y - k1 + 1 : Nat) : Int) = (Y : Int) - (k1 : Int) + 1 := by
        omega
      have h6w : (chainPositions e)[Y - k1]? =
          some ((S.1 + (k3 : Int) * sx, S.2 + (k1 : Int) * sy) : GPos) := by
        rw [hposs3 (Y - k1) (by omega), hcYk]
        simp only [Option.some.injEq, Prod.mk.injEq]
        exact ⟨trivial, by ring⟩
      have h7w : (chainPositions e)[(Y - k1) + 1]? =
          some ((S.1 + (k3 : Int) * sx, S.2 + (k1 : Int) * sy - sy) : GPos) := by
        rw [hposs3 (Y - k1 + 1) (by omega), hcYk1]
        simp only [Option.some.injEq, Prod.mk.injEq]
        exact ⟨trivial, by ring⟩
      obtain ⟨b, hbmem, hbpos, pb, hbpar, hbppos⟩ :=
        chain_ancestor_at e (Y - k1) _ _ h6w h7w
      have hcXk : ((X - k3 : Nat) : Int) = (X : Int) - (k3 : Int) := by omega
      have hcXk1 : ((X - k3 + 1 : Nat) : Int) = (X : Int) - (k3 : Int) + 1 := by
        omega
      have h8w : (chainPositions e1)[X - k3]? =
          some ((S.1 + (k3 : Int) * sx, S.2 + (k1 : Int) * sy) : GPos) := by
        rw [hpois (X - k3) (by omega), hcXk, hGx]
        simp only [Option.some.injEq, Prod.mk.injEq]
        exact ⟨by ring, trivial⟩
      have h9w : (chainPositions e1)[(X - k3) + 1]? =
          some ((S.1 + (k3 : Int) * sx - sx, S.2 + (k1 : Int) * sy) : GPos) := by
        rw [hpois (X - k3 + 1) (by omega), hcXk1, hGx]
        simp only [Option.some.injEq, Prod.mk.injEq]
        exact ⟨by ring, trivial⟩
      obtain ⟨a, hamem, hapos, pa, hapar, happos⟩ :=
        chain_ancestor_at e1 (X - k3) _ _ h8w h9w
      have hbreg : cmap ((S.1 + (k3 : Int) * sx, S.2 + (k1 : Int) * sy) : GPos) =
          some b := by
        rcases hbmem with hb | hb
        · exfalso
          rw [hb] at hbpos
          have hc2 := congrArg Prod.snd hbpos
          dsimp only at hc2
          rw [heyy2] at hc2
          have hyk : (Y : Int) * sy = (k1 : Int) * sy := by linarith
          rcases hsy with h | h <;> rw [h] at hyk <;> omega
        · have hreg := heok.2.2 b hb
          rw [hbpos] at hreg
          exact hreg
      have hareg : cmap ((S.1 + (k3 : Int) * sx, S.2 + (k1 : Int) * sy) : GPos) =
          some a := by
        rcases hamem with ha | ha
        · exfalso
          rw [ha] at hapos
          have he1pos : e1.pos = ((G.1, S.2 + (k1 : Int) * sy) : GPos) :=
            (inv.closers _ e1 he1).1
          rw [he1pos] at hapos
          have hc2 := congrArg Prod.fst hapos
          dsimp only at hc2
          rw [hGx] at hc2
          have hxk : (X : Int) * sx = (k3 : Int) * sx := by linarith
          rcases hsx with h | h <;> rw [h] at hxk <;> omega
        · have hreg := he1ok.2.2 a ha
          rw [hapos] at hreg
          exact hreg
      have hab : a = b := by
        rw [hareg] at hbreg
        exact Option.some.inj hbreg
      rw [hab] at hapar
      rw [hbpar] at hapar
      have hpp : pb = pa := Option.some.inj hapar
      have hpos2 : pa.pos = pb.pos := by rw [hpp]
      rw [happos, hbppos] at hpos2
      have hc1 := congrArg Prod.fst hpos2
      dsimp only at hc1
      rcases hsx with h | h <;> rw [h] at hc1 <;> omega

/-- The LADDER: under the global invariant, while the goal cell is still
unexpanded the open heap always holds a node with `f` at most the
optimum `gamma S G`. -/
lemma ladder (obstacles : List GPos) (S G : GPos)
    (hfree : ∀ p : GPos, inRect S G p → obstacles.contains p = false)
    (heap : List AstarNode) (gs : GPos → Option Int)
    (cmap : GPos → Option AstarNode)
    (inv : MegaInv obstacles S G heap gs cmap) :
    ∃ m ∈ heap, m.fScore ≤ gamma S G := by
  rcases inv.start0 with hS | ⟨n, hn, hnpos, hng⟩
  · set X := (G.1 - S.1).natAbs with hXdef
    set Y := (G.2 - S.2).natAbs with hYdef
    obtain ⟨sx, hsx, hGx⟩ : ∃ sx, (sx = 1 ∨ sx = -1) ∧
        G.1 = S.1 + (X : Int) * sx := by
      rcases le_total S.1 G.1 with h | h
      · refine ⟨1, Or.inl rfl, ?_⟩
        rw [hXdef, Int.natCast_natAbs,
          abs_of_nonneg (by omega : (0 : Int) ≤ G.1 - S.1)]
        ring
      · refine ⟨-1, Or.inr rfl, ?_⟩
        rw [hXdef, Int.natCast_natAbs,
          abs_of_nonpos (by omega : G.1 - S.1 ≤ 0)]
        ring
    obtain ⟨sy, hsy, hGy⟩ : ∃ sy, (sy = 1 ∨ sy = -1) ∧
        G.2 = S.2 + (Y : Int) * sy := by
      rcases le_total S.2 G.2 with h | h
      · refine ⟨1, Or.inl rfl, ?_⟩
        rw [hYdef, Int.natCast_natAbs,
          abs_of_nonneg (by omega : (0 : Int) ≤ G.2 - S.2)]
        ring
      · refine ⟨-1, Or.inr rfl, ?_⟩
        rw [hYdef, Int.natCast_natAbs,
          abs_of_nonpos (by omega : G.2 - S.2 ≤ 0)]
        ring
    by_cases hxall : ∀ k : Nat, k ≤ X →
        (cmap ((S.1 + (k : Int) * sx, S.2) : GPos)).isSome = true
    · have hYpos : 1 ≤ Y := by
        by_contra hY0
        have hY0' : Y = 0 := by omega
        have hGS : G = ((S.1 + (X : Int) * sx, S.2) : GPos) := by
          have h1 : G.2 = S.2 := by
            rw [hGy, hY0']
            simp
          rw [← hGx, ← h1]
        have hclosed := hxall X le_rfl
        rw [← hGS, inv.goalFree] at hclosed
        simp at hclosed
      have hcorner : (cmap ((G.1, S.2 + ((0 : Nat) : Int) * sy) : GPos)).isSome
          = true := by
        have h := hxall X le_rfl
        have hz : S.2 + ((0 : Nat) : Int) * sy = S.2 := by simp
        rw [hz]
        rw [← hGx] at h
        exact h
      have hGopen : (cmap ((G.1, S.2 + ((Y : Nat) : Int) * sy) : GPos)).isSome
          = false := by
        have hGG : ((G.1, S.2 + (Y : Int) * sy) : GPos) = G := by
          rw [← hGy]
        rw [hGG, inv.goalFree]
        rfl
      obtain ⟨k1, hk1lt, hk1cl, hk1un⟩ := boundary_exists cmap
        (fun k => ((G.1, S.2 + (k : Int) * sy) : GPos)) Y hcorner hGopen
      have hk1cl2 : (cmap ((G.1, S.2 + (k1 : Int) * sy) : GPos)).isSome
          = true := hk1cl
      have hk1un2 : (cmap ((G.1, S.2 + ((k1 : Int) + 1) * sy) : GPos)).isSome
          = false := by
        have hc : S.2 + ((k1 + 1 : Nat) : Int) * sy
            = S.2 + ((k1 : Int) + 1) * sy := by
          push_cast
          ring
        rw [← hc]
        exact hk1un
      rcases farcol_ladder obstacles S G hfree heap gs cmap inv sx sy hsx hsy
          X Y hGx hGy k1 (by omega) hk1cl2 hk1un2 with
        hw | ⟨hk11, hX1, e1, he1, he1ok, hpois⟩
      · exact hw
      · by_cases hyall : ∀ k : Nat, k ≤ Y →
            (cmap ((S.1, S.2 + (k : Int) * sy) : GPos)).isSome = true
        · have htl : (cmap ((S.1 + ((0 : Nat) : Int) * sx, G.2) : GPos)).isSome
              = true := by
            have h := hyall Y le_rfl
            have hz : S.1 + ((0 : Nat) : Int) * sx = S.1 := by simp
            rw [hz]
            rw [← hGy] at h
            exact h
          have hGopen2 : (cmap ((S.1 + ((X : Nat) : Int) * sx, G.2) :
              GPos)).isSome = false := by
            have hGG : ((S.1 + (X : Int) * sx, G.2) : GPos) = G := by
              rw [← hGx]
            rw [hGG, inv.goalFree]
            rfl
          obtain ⟨k3, hk3lt, hk3cl, hk3un⟩ := boundary_exists cmap
            (fun k => ((S.1 + (k : Int) * sx, G.2) : GPos)) X htl hGopen2
          have hk3cl2 : (cmap ((S.1 + (k3 : Int) * sx, G.2) : GPos)).isSome
              = true := hk3cl
          have hk3un2 : (cmap ((S.1 + ((k3 : Int) + 1) * sx, G.2) :
              GPos)).isSome = false := by
            have hc : S.1 + ((k3 + 1 : Nat) : Int) * sx
                = S.1 + ((k3 : Int) + 1) * sx := by
              push_cast
              ring
            rw [← hc]
            exact hk3un
          exact toprow_ladder obstacles S G hfree heap gs cmap inv sx sy hsx
            hsy X Y hGx hGy k1 hk11 (by omega) e1 he1 he1ok hpois k3 (by omega)
            hk3cl2 hk3un2
        · push_neg at hyall
          obtain ⟨k, hkY, hkopen⟩ := hyall
          simp only [Bool.not_eq_true] at hkopen
          have hS0 : (cmap ((S.1, S.2 + ((0 : Nat) : Int) * sy) :
              GPos)).isSome = true := by
            have hz : ((S.1, S.2 + ((0 : Nat) : Int) * sy) : GPos) = S := by
              simp
            rw [hz]
            exact hS
          obtain ⟨k2, hk2lt, hk2cl, hk2un⟩ := boundary_exists cmap
            (fun j => ((S.1, S.2 + (j : Int) * sy) : GPos)) k hS0 hkopen
          have hk2cl2 : (cmap ((S.1, S.2 + (k2 : Int) * sy) : GPos)).isSome
              = true := hk2cl
          have hk2un2 : (cmap ((S.1, S.2 + ((k2 : Int) + 1) * sy) :
              GPos)).isSome = false := by
            have hc : S.2 + ((k2 + 1 : Nat) : Int) * sy
                = S.2 + ((k2 : Int) + 1) * sy := by
              push_cast
              ring
            rw [← hc]
            exact hk2un
          exact yleg_ladder obstacles S G hfree heap gs cmap inv sy hsy Y hGy
            k2 (by omega) hk2cl2 hk2un2
    · push_neg at hxall
      obtain ⟨k, hkX, hkopen⟩ := hxall
      simp only [Bool.not_eq_true] at hkopen
      have hS0 : (cmap ((S.1 + ((0 : Nat) : Int) * sx, S.2) : GPos)).isSome
          = true := by
        have hz : ((S.1 + ((0 : Nat) : Int) * sx, S.2) : GPos) = S := by simp
        rw [hz]
        exact hS
      obtain ⟨k0, hk0lt, hk0cl, hk0un⟩ := boundary_exists cmap
        (fun j => ((S.1 + (j : Int) * sx, S.2) : GPos)) k hS0 hkopen
      have hk0cl2 : (cmap ((S.1 + (k0 : Int) * sx, S.2) : GPos)).isSome
          = true := hk0cl
      have hk0un2 : (cmap ((S.1 + ((k0 : Int) + 1) * sx, S.2) :
          GPos)).isSome = false := by
        have hc : S.1 + ((k0 + 1 : Nat) : Int) * sx
            = S.1 + ((k0 : Int) + 1) * sx := by
          push_cast
          ring
        rw [← hc]
        exact hk0un
      exact xleg_ladder obstacles S G hfree heap gs cmap inv sx hsx X hGx k0
        (by omega) hk0cl2 hk0un2
  · refine ⟨n, hn, ?_⟩
    have hfok := (inv.hok n hn).2.1
    rw [hfok, hng, hnpos]
    have hrectS : inRect S G S := by
      unfold inRect
      constructor <;> omega
    have h0 : gamma S ((S.1 + (0 : Int), S.2) : GPos) = 2 * |(0 : Int)| :=
      gamma_xaxis S 0
    simp only [add_zero, abs_zero, mul_zero, Prod.mk.eta] at h0
    have hgl := gamma_h_le S G S hrectS
    rw [h0] at hgl
    linarith

end Lamp
